import Mathlib

/-!
# Camera and transformation subsystem of `5-InputCapturing`

A shallow embedding of `camera.go`, `input.go` and `transformation.go`.

* The functions are written once, over two number types `F32` and `F64` that
  stand for `float32` and `float64` and carry the operations the source uses: the
  four arithmetic operations, negation, the comparison `<`, the constants, and the
  conversions `float32(..)` and `float64(..)` (`Float32Of`). They are read in two
  ways.
  - In floating point, `F32 := Float32` and `F64 := Float64` are the values of the
    IEEE 754 formats binary32 and binary64: NaN, the two infinities and the
    representable rationals. Every operation is rounded on its own to the nearest
    value, a tie to the even significand (no fused multiply-add, as the Go compiler
    compiles it on amd64), and a comparison with NaN is false.
  - In exact arithmetic, both types are one linearly ordered field `F` (no rounding,
    no NaN, no infinities, `1 / 0 = 0`) and the conversions return their argument.
    A statement made in this reading says so.
* Go's `math.Cos`, `math.Sin`, `math.Sqrt` and `math.Pi` are the fields of a
  `GoMath F64` value that every function using them receives. The statements in
  floating point hold for every such value unless they name an assumption on it;
  over `ℝ` the fields are `Real.cos`, `Real.sin`, `Real.sqrt` and `Real.pi`.
* The functions of `go-gl/mathgl` (`mgl32.Vec3`, `mgl32.Mat4`, `mgl32.LookAtV`,
  `mgl64.DegToRad`) are written out after that library.
* The OpenGL backend is a `GLState` value: the table answering
  `gl.GetUniformLocation` and the history of `gl.UniformMatrix4fv` calls.
* `map[string]*Key` is an association list; `range` visits it in list order (Go
  leaves the order open, so statements about the loop are made for every order of
  the entries), and an absent name looked up by `Update` (a nil pointer
  dereference in Go) makes `Update` return `none`.
* `log.Printf` calls are not part of the state and are left out.
-/

namespace InputCapturing

set_option linter.dupNamespace false

/-! ## Numeric library: `math`, `mgl32`, `mgl64` -/

/-- Go's `math.Cos`, `math.Sin`, `math.Sqrt` and `math.Pi` over the type `F` that
stands for `float64`. -/
structure GoMath (F : Type) where
  Cos : F → F
  Sin : F → F
  Sqrt : F → F
  Pi : F

/-- The conversions between the two float types: Go's `float32(x)` of a
`float64` and `float64(x)` of a `float32`. The type standing for `float64`
determines the type standing for `float32`. -/
class Float32Of (F64 : Type) (F32 : outParam Type) where
  toFloat32 : F64 → F32
  toFloat64 : F32 → F64

/-- In exact arithmetic both float types are one field and a conversion returns
its argument. -/
instance exactFloat32Of {F : Type} [LinearOrderedField F] : Float32Of F F :=
  ⟨id, id⟩

/-- The type `mgl32.Vec3`, an array of three numbers. -/
@[ext]
structure Vec3 (F : Type) where
  x : F
  y : F
  z : F
deriving DecidableEq

/-- The type `mgl32.Mat4`: sixteen numbers in column-major order. -/
abbrev Mat4 (F : Type) := Fin 16 → F

section Numeric

variable {F32 F64 : Type} [HAdd F32 F32 F32] [HSub F32 F32 F32] [HMul F32 F32 F32]
  [HDiv F32 F32 F32] [Neg F32] [Zero F32] [One F32] [OfScientific F32]
  [HMul F64 F64 F64] [HDiv F64 F64 F64] [OfNat F64 180] [Float32Of F64 F32]

/-- `mgl64.DegToRad`: `angle * math.Pi / 180`. -/
def DegToRad (m : GoMath F64) (angle : F64) : F64 :=
  angle * m.Pi / 180

/-- `mgl32.Vec3.Add`. -/
def Vec3.Add (v1 v2 : Vec3 F32) : Vec3 F32 :=
  ⟨v1.x + v2.x, v1.y + v2.y, v1.z + v2.z⟩

/-- `mgl32.Vec3.Sub`. -/
def Vec3.Sub (v1 v2 : Vec3 F32) : Vec3 F32 :=
  ⟨v1.x - v2.x, v1.y - v2.y, v1.z - v2.z⟩

/-- `mgl32.Vec3.Mul`: multiplication by a scalar. -/
def Vec3.Mul (v1 : Vec3 F32) (c : F32) : Vec3 F32 :=
  ⟨v1.x * c, v1.y * c, v1.z * c⟩

/-- `mgl32.Vec3.Cross`. -/
def Vec3.Cross (v1 v2 : Vec3 F32) : Vec3 F32 :=
  ⟨v1.y * v2.z - v1.z * v2.y, v1.z * v2.x - v1.x * v2.z, v1.x * v2.y - v1.y * v2.x⟩

/-- `mgl32.Vec3.Len`: the square root of the sum of the squared components,
`float32(math.Sqrt(float64(..)))`. -/
def Vec3.Len (m : GoMath F64) (v1 : Vec3 F32) : F32 :=
  Float32Of.toFloat32 (m.Sqrt (Float32Of.toFloat64 (v1.x * v1.x + v1.y * v1.y + v1.z * v1.z)))

/-- `mgl32.Vec3.Normalize`: every component times `1.0 / v1.Len()`. -/
def Vec3.Normalize (m : GoMath F64) (v1 : Vec3 F32) : Vec3 F32 :=
  let l := 1.0 / v1.Len m
  ⟨v1.x * l, v1.y * l, v1.z * l⟩

/-- `mgl32.Translate3D`. -/
def Translate3D (Tx Ty Tz : F32) : Mat4 F32 :=
  ![1, 0, 0, 0, 0, 1, 0, 0, 0, 0, 1, 0, Tx, Ty, Tz, 1]

/-- `mgl32.Mat4.Mul4`: the product of two column-major 4x4 matrices. -/
def Mat4.Mul4 (m1 m2 : Mat4 F32) : Mat4 F32 :=
  ![m1 0 * m2 0 + m1 4 * m2 1 + m1 8 * m2 2 + m1 12 * m2 3,
    m1 1 * m2 0 + m1 5 * m2 1 + m1 9 * m2 2 + m1 13 * m2 3,
    m1 2 * m2 0 + m1 6 * m2 1 + m1 10 * m2 2 + m1 14 * m2 3,
    m1 3 * m2 0 + m1 7 * m2 1 + m1 11 * m2 2 + m1 15 * m2 3,
    m1 0 * m2 4 + m1 4 * m2 5 + m1 8 * m2 6 + m1 12 * m2 7,
    m1 1 * m2 4 + m1 5 * m2 5 + m1 9 * m2 6 + m1 13 * m2 7,
    m1 2 * m2 4 + m1 6 * m2 5 + m1 10 * m2 6 + m1 14 * m2 7,
    m1 3 * m2 4 + m1 7 * m2 5 + m1 11 * m2 6 + m1 15 * m2 7,
    m1 0 * m2 8 + m1 4 * m2 9 + m1 8 * m2 10 + m1 12 * m2 11,
    m1 1 * m2 8 + m1 5 * m2 9 + m1 9 * m2 10 + m1 13 * m2 11,
    m1 2 * m2 8 + m1 6 * m2 9 + m1 10 * m2 10 + m1 14 * m2 11,
    m1 3 * m2 8 + m1 7 * m2 9 + m1 11 * m2 10 + m1 15 * m2 11,
    m1 0 * m2 12 + m1 4 * m2 13 + m1 8 * m2 14 + m1 12 * m2 15,
    m1 1 * m2 12 + m1 5 * m2 13 + m1 9 * m2 14 + m1 13 * m2 15,
    m1 2 * m2 12 + m1 6 * m2 13 + m1 10 * m2 14 + m1 14 * m2 15,
    m1 3 * m2 12 + m1 7 * m2 13 + m1 11 * m2 14 + m1 15 * m2 15]

/-- `mgl32.LookAtV`: the right-handed look-at matrix of an eye position, a
target point and an up vector. -/
def LookAtV (m : GoMath F64) (eye center up : Vec3 F32) : Mat4 F32 :=
  let f := (center.Sub eye).Normalize m
  let s := (f.Cross (up.Normalize m)).Normalize m
  let u := s.Cross f
  let M : Mat4 F32 :=
    ![s.x, u.x, -f.x, 0,
      s.y, u.y, -f.y, 0,
      s.z, u.z, -f.z, 0,
      0, 0, 0, 1]
  M.Mul4 (Translate3D (-eye.x) (-eye.y) (-eye.z))

end Numeric

/-! ## OpenGL backend and GLFW constants -/

/-- The OpenGL state the subsystem touches: the uniform table queried by
`gl.GetUniformLocation` and the `(location, matrix)` arguments of the
`gl.UniformMatrix4fv` calls made so far, most recent first. -/
structure GLState (F : Type) where
  GetUniformLocation : Nat → String → Int
  uniformCalls : List (Int × Mat4 F)

/-- `gl.UniformMatrix4fv(addr, 1, false, &matrix[0])`: one matrix is sent to the
uniform location `addr`. -/
def GLState.UniformMatrix4fv {F : Type} (gl : GLState F) (addr : Int) (matrix : Mat4 F) :
    GLState F :=
  { gl with uniformCalls := (addr, matrix) :: gl.uniformCalls }

/-- The matrix most recently sent to the uniform location `addr`, if any. -/
def GLState.lastWritten {F : Type} (gl : GLState F) (addr : Int) : Option (Mat4 F) :=
  (gl.uniformCalls.find? (fun e => e.1 == addr)).map Prod.snd

/-- `glfw.KeyW`. -/
def KeyW : Int := 87
/-- `glfw.KeyA`. -/
def KeyA : Int := 65
/-- `glfw.KeyS`. -/
def KeyS : Int := 83
/-- `glfw.KeyD`. -/
def KeyD : Int := 68
/-- `glfw.KeyEscape`. -/
def KeyEscape : Int := 256
/-- `glfw.Release`. -/
def Release : Int := 0
/-- `glfw.Press`. -/
def Press : Int := 1
/-- `glfw.Repeat`. -/
def Repeat : Int := 2

/-- The part of `glfw.Window` that `HandleKeyPress` writes: the close flag set by
`SetShouldClose`. -/
structure Window where
  shouldClose : Bool
deriving DecidableEq

/-- `glfw.Window.SetShouldClose`. -/
def Window.SetShouldClose (_w : Window) (value : Bool) : Window :=
  ⟨value⟩

/-! ## `transformation.go` -/

/-- `Transformation`: a uniform location and the matrix kept for it. -/
structure Transformation (F : Type) where
  addr : Int
  matrix : Mat4 F

/-- `Transformation.UpdateUniform`: sends the stored matrix to the stored location. -/
def Transformation.UpdateUniform {F : Type} (t : Transformation F) (gl : GLState F) :
    GLState F :=
  gl.UniformMatrix4fv t.addr t.matrix

/-- `Transformation.UpdateMatrix`. -/
def Transformation.UpdateMatrix {F : Type} (t : Transformation F) (newMatrix : Mat4 F) :
    Transformation F :=
  { t with matrix := newMatrix }

/-- `Transformation.GetAddr`. -/
def Transformation.GetAddr {F : Type} (t : Transformation F) : Int :=
  t.addr

/-- `Transformation.GetMatrix`. -/
def Transformation.GetMatrix {F : Type} (t : Transformation F) : Mat4 F :=
  t.matrix

/-- `View`: a struct embedding `Transformation`. -/
structure View (F : Type) extends Transformation F

section Code

variable {F32 F64 : Type} [HAdd F32 F32 F32] [HSub F32 F32 F32] [HMul F32 F32 F32]
  [HDiv F32 F32 F32] [Neg F32] [Zero F32] [One F32] [OfScientific F32]
  [HAdd F64 F64 F64] [HSub F64 F64 F64] [HMul F64 F64 F64] [HDiv F64 F64 F64] [Neg F64]
  [Zero F64] [LT F64] [DecidableRel (fun a b : F64 => a < b)] [OfScientific F64]
  [OfNat F64 90] [OfNat F64 180] [Float32Of F64 F32]

/-- `NewView`: computes the look-at matrix, asks the backend for the location of
the uniform `name` and sends the matrix there. -/
def NewView (m : GoMath F64) (gl : GLState F32) (program : Nat) (name : String)
    (position target up : Vec3 F32) : View F32 × GLState F32 :=
  let matrix := LookAtV m position target up
  let addr := gl.GetUniformLocation program name
  let gl := gl.UniformMatrix4fv addr matrix
  (⟨⟨addr, matrix⟩⟩, gl)

/-- `View.UpdateCameraLocation`. -/
def View.UpdateCameraLocation (m : GoMath F64) (v : View F32)
    (position target up : Vec3 F32) : View F32 :=
  { v with matrix := LookAtV m position target up }

/-! ## `input.go` and `camera.go` -/

/-- `Key`: a `glfw.Key` (embedded) and whether it is currently pressed. -/
structure Key where
  Key : Int
  Pressed : Bool
deriving DecidableEq

/-- `Camera`: `F32` stands for `float32` and `F64` for `float64`; with one
argument both are the same type. -/
structure Camera (F32 : Type) (F64 : Type := F32) where
  position : Vec3 F32
  front : Vec3 F32
  up : Vec3 F32
  yaw : F64
  pitch : F64
  xoffset : F64
  yoffset : F64
  xpos : F64
  ypos : F64
  firstPos : Bool
  view : View F32
  keys : List (String × Key)
  cameraSpeed : F32

/-- `NewCamera`; the fields the composite literal leaves out have Go's zero value. -/
def NewCamera (m : GoMath F64) (gl : GLState F32) (program : Nat) (name : String)
    (position front up : Vec3 F32) : Camera F32 F64 × GLState F32 :=
  let (view, gl) := NewView m gl program name position (position.Add front) up
  ({ position := position
     up := up
     front := front
     cameraSpeed := 2.5
     yaw := -90
     firstPos := true
     view := view
     keys := [("w", ⟨KeyW, false⟩), ("a", ⟨KeyA, false⟩), ("s", ⟨KeyS, false⟩),
       ("d", ⟨KeyD, false⟩)]
     pitch := 0
     xoffset := 0
     yoffset := 0
     xpos := 0
     ypos := 0 }, gl)

/-- The pitch after the two clamping statements of `ProcessMouseMove`. -/
def clampPitch (pitch : F64) : F64 :=
  let pitch := if pitch > 89.0 then 89.0 else pitch
  if pitch < -89.0 then -89.0 else pitch

/-- `Camera.ProcessMouseMove`. -/
def Camera.ProcessMouseMove (m : GoMath F64) (c : Camera F32 F64) (xpos ypos : F64) :
    Camera F32 F64 :=
  if c.firstPos then
    { c with xpos := xpos, ypos := ypos, firstPos := false }
  else
    let xoffset := -(c.xpos - xpos) * 0.2
    let yoffset := (c.ypos - ypos) * 0.2
    let yaw := c.yaw + xoffset
    let pitch := clampPitch (c.pitch + yoffset)
    let x : F32 := Float32Of.toFloat32 (m.Cos (DegToRad m yaw) * m.Cos (DegToRad m pitch))
    let y : F32 := Float32Of.toFloat32 (m.Sin (DegToRad m pitch))
    let z : F32 := Float32Of.toFloat32 (m.Sin (DegToRad m yaw) * m.Cos (DegToRad m pitch))
    { c with
      xoffset := xoffset
      yoffset := yoffset
      ypos := ypos
      xpos := xpos
      yaw := yaw
      pitch := pitch
      front := (Vec3.mk x y z).Normalize m }

/-- The `range` loop of `ProcessKeyPress` over the entries of the key map: the
first entry that has the event's key and meets a `Press`, `Repeat` or `Release`
action gets its flag written, and the loop returns. -/
def ProcessKeyPress.loop (key action : Int) : List (String × Key) → List (String × Key)
  | [] => []
  | (name, potentialKey) :: rest =>
    if key = potentialKey.Key then
      if action = Press ∨ action = Repeat then
        (name, { potentialKey with Pressed := true }) :: rest
      else if action = Release then
        (name, { potentialKey with Pressed := false }) :: rest
      else
        (name, potentialKey) :: ProcessKeyPress.loop key action rest
    else
      (name, potentialKey) :: ProcessKeyPress.loop key action rest

/-- `Camera.ProcessKeyPress`. -/
def Camera.ProcessKeyPress (c : Camera F32 F64) (key action _mods : Int) : Camera F32 F64 :=
  { c with keys := ProcessKeyPress.loop key action c.keys }

/-- `Camera.Update`: `none` stands for the nil pointer dereference of a name
missing from the key map. -/
def Camera.Update (m : GoMath F64) (c : Camera F32 F64) (gl : GLState F32)
    (deltaTime : F32) : Option (Camera F32 F64 × GLState F32) := do
  let position := c.position
  let w ← c.keys.lookup "w"
  let position :=
    if w.Pressed then position.Add (c.front.Mul (c.cameraSpeed * deltaTime)) else position
  let a ← c.keys.lookup "a"
  let position :=
    if a.Pressed then position.Sub ((c.front.Cross c.up).Mul (c.cameraSpeed * deltaTime))
    else position
  let s ← c.keys.lookup "s"
  let position :=
    if s.Pressed then position.Sub (c.front.Mul (c.cameraSpeed * deltaTime)) else position
  let d ← c.keys.lookup "d"
  let position :=
    if d.Pressed then position.Add ((c.front.Cross c.up).Mul (c.cameraSpeed * deltaTime))
    else position
  let view := c.view.UpdateCameraLocation m position (position.Add c.front) c.up
  let gl := view.UpdateUniform gl
  pure ({ c with position := position, view := view }, gl)

/-- `HandleKeyPress`, the key callback, on the window and the global `camera`. -/
def HandleKeyPress (w : Window) (camera : Camera F32 F64)
    (key _scancode action mods : Int) : Window × Camera F32 F64 :=
  let w := if key = KeyEscape then w.SetShouldClose true else w
  (w, camera.ProcessKeyPress key action mods)

/-- `HandleCursorMove`, the cursor callback, on the global `camera`. -/
def HandleCursorMove (m : GoMath F64) (camera : Camera F32 F64) (xpos ypos : F64) :
    Camera F32 F64 :=
  camera.ProcessMouseMove m xpos ypos

/-! ## Call sequences -/

/-- One call of a state-changing method of `Camera` with its arguments. -/
inductive Call (F32 : Type) (F64 : Type := F32) where
  | ProcessMouseMove (xpos ypos : F64)
  | ProcessKeyPress (key action mods : Int)
  | Update (deltaTime : F32)

/-- The effect of one call on the camera and the backend. -/
def Call.apply (m : GoMath F64) (s : Camera F32 F64 × GLState F32) :
    Call F32 F64 → Option (Camera F32 F64 × GLState F32)
  | .ProcessMouseMove xpos ypos => some (s.1.ProcessMouseMove m xpos ypos, s.2)
  | .ProcessKeyPress key action mods => some (s.1.ProcessKeyPress key action mods, s.2)
  | .Update deltaTime => s.1.Update m s.2 deltaTime

/-- The effect of a finite sequence of calls, made from left to right. -/
def runCalls (m : GoMath F64) (s : Camera F32 F64 × GLState F32) :
    List (Call F32 F64) → Option (Camera F32 F64 × GLState F32)
  | [] => some s
  | call :: rest => (call.apply m s).bind (fun s => runCalls m s rest)

/-- The key map `NewCamera` builds, with the given pressed flags for the names
`w`, `a`, `s` and `d`. -/
def trackedKeys (w a s d : Bool) : List (String × Key) :=
  [("w", ⟨KeyW, w⟩), ("a", ⟨KeyA, a⟩), ("s", ⟨KeyS, s⟩), ("d", ⟨KeyD, d⟩)]

/-- The pressed flag the specification gives the tracked key `tracked` after an
event `(key, action)`: true after a press or repeat of that key, false after its
release, and the previous flag otherwise. -/
def flagAfterEvent (tracked key action : Int) (pressed : Bool) : Bool :=
  if key = tracked then
    if action = Press ∨ action = Repeat then true
    else if action = Release then false
    else pressed
  else pressed

/-- The x coordinates of the mouse samples of a call sequence, in order. -/
def mouseXs : List (Call F32 F64) → List F64
  | [] => []
  | .ProcessMouseMove xpos _ :: rest => xpos :: mouseXs rest
  | _ :: rest => mouseXs rest

/-- The running sum the specification gives for the yaw after mouse samples with
the x coordinates `xs`, started at `yaw`: the first coordinate is only recorded,
and every later one adds `0.2 * (x - lastX)`, `lastX` being the coordinate before
it; every operation is one of `F64`. -/
def yawAfter (yaw : F64) : List F64 → F64
  | [] => yaw
  | [_] => yaw
  | lastX :: x :: rest => yawAfter (yaw + 0.2 * (x - lastX)) (x :: rest)

/-- The spherical-coordinate vector of a yaw and a pitch given in degrees, before
normalization. -/
def sphericalDirection (m : GoMath F64) (yaw pitch : F64) : Vec3 F32 :=
  ⟨Float32Of.toFloat32 (m.Cos (DegToRad m yaw) * m.Cos (DegToRad m pitch)),
    Float32Of.toFloat32 (m.Sin (DegToRad m pitch)),
    Float32Of.toFloat32 (m.Sin (DegToRad m yaw) * m.Cos (DegToRad m pitch))⟩

/-- One call of a method of `Transformation` that changes the transformation or
the backend. -/
inductive TransformationCall (F : Type) where
  | UpdateMatrix (newMatrix : Mat4 F)
  | UpdateUniform

/-- The effect of one call on the transformation and the backend. -/
def TransformationCall.apply {F : Type} (s : Transformation F × GLState F) :
    TransformationCall F → Transformation F × GLState F
  | .UpdateMatrix newMatrix => (s.1.UpdateMatrix newMatrix, s.2)
  | .UpdateUniform => (s.1, s.1.UpdateUniform s.2)

/-- The effect of a finite sequence of calls on a transformation, made from left
to right. -/
def runTransformationCalls {F : Type} (s : Transformation F × GLState F) :
    List (TransformationCall F) → Transformation F × GLState F
  | [] => s
  | call :: rest => runTransformationCalls (call.apply s) rest

end Code

/-! ## Notions of the exact-arithmetic reading -/

section Exact

variable {F : Type} [LinearOrderedField F]

/-- The number 1 for a pressed key and 0 for a key that is not pressed. -/
def indicator {G : Type} [Zero G] [One G] (pressed : Bool) : G :=
  if pressed then 1 else 0

/-- The invariant carried along call sequences in exact arithmetic: the key map
has exactly the four names `Update` looks up, and the pitch is inside the
clamping range. -/
def Invariant (c : Camera F) : Prop :=
  c.keys.map Prod.fst = ["w", "a", "s", "d"] ∧ -89 ≤ c.pitch ∧ c.pitch ≤ 89

end Exact

/-! ## IEEE 754 binary floating point

The values of a binary format are NaN, the two infinities and the rationals the
format represents; an operation computes the exact rational result and rounds it
to the nearest representable value, a tie to the one with the even significand,
and a result beyond the largest finite value becomes an infinity. The sign of
zero is not modelled: the two zeros are one value, as they are for Go's `==`, and
a zero divisor counts as positive. -/

/-- A binary floating-point format: the precision in bits (hidden bit included)
and the least and the greatest exponent of a normal number. -/
structure Format where
  prec : Nat
  emin : Int
  emax : Int

/-- The format of Go's `float32`. -/
def binary32 : Format := ⟨24, -126, 127⟩

/-- The format of Go's `float64`. -/
def binary64 : Format := ⟨53, -1022, 1023⟩

/-- The integer nearest to a rational, the even one of the two in a tie. -/
def roundHalfEven (r : ℚ) : Int :=
  if r - ⌊r⌋ < 1 / 2 then ⌊r⌋
  else if 1 / 2 < r - ⌊r⌋ then ⌊r⌋ + 1
  else if ⌊r⌋ % 2 = 0 then ⌊r⌋ else ⌊r⌋ + 1

/-- The exponent of the unit in the last place at `q`: for `2 ^ e ≤ |q| < 2 ^ (e + 1)`
it is `e - (prec - 1)`, and below the normal range it is that of the least
normal number. -/
def Format.ulpExponent (fmt : Format) (q : ℚ) : Int :=
  max (Int.log 2 |q|) fmt.emin - (fmt.prec - 1)

/-- Rounding to the nearest multiple of the unit in the last place, ties to
even, with no bound on the exponent. -/
def Format.round (fmt : Format) (q : ℚ) : ℚ :=
  roundHalfEven (q / 2 ^ fmt.ulpExponent q) * 2 ^ fmt.ulpExponent q

/-- The largest finite value of the format. -/
def Format.maxFinite (fmt : Format) : ℚ :=
  (2 ^ fmt.prec - 1) * 2 ^ (fmt.emax - (fmt.prec - 1))

/-- The values of a binary format. -/
inductive IEEE (fmt : Format) where
  | nan
  | inf (negative : Bool)
  | fin (q : ℚ)
deriving DecidableEq

/-- Go's `float32`. -/
abbrev Float32 := IEEE binary32

/-- Go's `float64`. -/
abbrev Float64 := IEEE binary64

namespace IEEE

variable {fmt : Format}

/-- The value a rational rounds to: an infinity when the rounded magnitude is
beyond the largest finite value. -/
def ofRat (q : ℚ) : IEEE fmt :=
  if fmt.maxFinite < |fmt.round q| then inf (decide (q < 0)) else fin (fmt.round q)

/-- Negation. -/
def neg : IEEE fmt → IEEE fmt
  | nan => nan
  | inf s => inf (!s)
  | fin q => fin (-q)

/-- Addition. -/
def add : IEEE fmt → IEEE fmt → IEEE fmt
  | fin x, fin y => ofRat (x + y)
  | fin _, inf t => inf t
  | inf s, fin _ => inf s
  | inf s, inf t => if s = t then inf s else nan
  | _, _ => nan

/-- Subtraction. -/
def sub (a b : IEEE fmt) : IEEE fmt :=
  add a (neg b)

/-- Multiplication. -/
def mul : IEEE fmt → IEEE fmt → IEEE fmt
  | fin x, fin y => ofRat (x * y)
  | fin x, inf t => if x = 0 then nan else inf (decide (x < 0) != t)
  | inf s, fin y => if y = 0 then nan else inf (s != decide (y < 0))
  | inf s, inf t => inf (s != t)
  | _, _ => nan

/-- Division. -/
def div : IEEE fmt → IEEE fmt → IEEE fmt
  | fin x, fin y =>
    if y = 0 then (if x = 0 then nan else inf (decide (x < 0))) else ofRat (x / y)
  | fin _, inf _ => fin 0
  | inf s, fin y => inf (s != decide (y < 0))
  | _, _ => nan

/-- The comparison `<`: false as soon as one side is NaN. -/
def lt : IEEE fmt → IEEE fmt → Bool
  | fin x, fin y => decide (x < y)
  | fin _, inf t => !t
  | inf s, fin _ => s
  | inf s, inf t => s && !t
  | _, _ => false

/-- The comparison `<=`: false as soon as one side is NaN. -/
def le : IEEE fmt → IEEE fmt → Bool
  | fin x, fin y => decide (x ≤ y)
  | fin _, inf t => !t
  | inf s, fin _ => s
  | inf s, inf t => s || !t
  | _, _ => false

instance : Neg (IEEE fmt) := ⟨neg⟩
instance : Add (IEEE fmt) := ⟨add⟩
instance : Sub (IEEE fmt) := ⟨sub⟩
instance : Mul (IEEE fmt) := ⟨mul⟩
instance : Div (IEEE fmt) := ⟨div⟩
instance : Zero (IEEE fmt) := ⟨fin 0⟩
instance : One (IEEE fmt) := ⟨fin 1⟩
instance : LT (IEEE fmt) := ⟨fun a b => lt a b = true⟩
instance : DecidableRel (fun a b : IEEE fmt => a < b) := fun a b =>
  inferInstanceAs (Decidable (lt a b = true))
instance : LE (IEEE fmt) := ⟨fun a b => le a b = true⟩
instance : DecidableRel (fun a b : IEEE fmt => a ≤ b) := fun a b =>
  inferInstanceAs (Decidable (le a b = true))
instance (n : Nat) [n.AtLeastTwo] : OfNat (IEEE fmt) n := ⟨ofRat n⟩
instance : OfScientific (IEEE fmt) :=
  ⟨fun mantissa exponentSign decimalExponent =>
    ofRat (OfScientific.ofScientific mantissa exponentSign decimalExponent)⟩

/-- Go's conversion `float32(x)` of a `float64`. -/
def toFloat32 : Float64 → Float32
  | nan => nan
  | inf s => inf s
  | fin q => ofRat q

/-- Go's conversion `float64(x)` of a `float32`, which is exact. -/
def toFloat64 : Float32 → Float64
  | nan => nan
  | inf s => inf s
  | fin q => fin q

instance : Float32Of Float64 Float32 := ⟨toFloat32, toFloat64⟩

/-- A value of the format: NaN, an infinity, or a rational that rounding leaves
as it is and that is not beyond the largest finite value. -/
def IsFloat : IEEE fmt → Prop
  | fin q => fmt.round q = q ∧ |q| ≤ fmt.maxFinite
  | _ => True

end IEEE

/-! ## Notions of the floating-point reading -/

/-- Whether the float64 difference `lastY - y` is NaN: one of the two is NaN, or
both are the same infinity. -/
def nanDifference : Float64 → Float64 → Bool
  | .nan, _ => true
  | _, .nan => true
  | .inf s, .inf t => s == t
  | _, _ => false

/-- Whether a call sequence holds a mouse sample whose vertical difference with
the sample before it is NaN; `last` is the vertical position of the sample
before the sequence, if there is one. -/
def hasNaNDifference : Option Float64 → List (Call Float32 Float64) → Bool
  | _, [] => false
  | none, .ProcessMouseMove _ y :: rest => hasNaNDifference (some y) rest
  | some lastY, .ProcessMouseMove _ y :: rest =>
    nanDifference lastY y || hasNaNDifference (some y) rest
  | last, _ :: rest => hasNaNDifference last rest

/-- Whether a value is finite: neither NaN nor an infinity. -/
def IEEE.isFinite {fmt : Format} : IEEE fmt → Bool
  | .fin _ => true
  | _ => false

/-- One component of position after `Update(0)` in `float32`, as the
specification of the zero step gives it: NaN when a pressed key has a NaN step in
this component, which is the case for `w` or `s` (`forward`) when the speed or the
component `f` of front is NaN or infinite, and for `a` or `d` (`sideways`) when
the speed or the component `c` of `front x up` is; the component `p` the position
had otherwise. -/
def zeroStepComponent (forward sideways : Bool) (speed f c p : Float32) : Float32 :=
  if (forward && !(speed.isFinite && f.isFinite)) ||
      (sideways && !(speed.isFinite && c.isFinite)) then IEEE.nan
  else p

/-! ## Theorems -/

/-! ### Lemmas for every number type -/

section Generic

set_option linter.unusedSectionVars false

variable {F32 F64 : Type} [HAdd F32 F32 F32] [HSub F32 F32 F32] [HMul F32 F32 F32]
  [HDiv F32 F32 F32] [Neg F32] [Zero F32] [One F32] [OfScientific F32]
  [HAdd F64 F64 F64] [HSub F64 F64 F64] [HMul F64 F64 F64] [HDiv F64 F64 F64] [Neg F64]
  [Zero F64] [LT F64] [DecidableRel (fun a b : F64 => a < b)] [OfScientific F64]
  [OfNat F64 90] [OfNat F64 180] [Float32Of F64 F32]

/-- The loop of `ProcessKeyPress` keeps the names of the key map, in order. -/
theorem loop_names (key action : Int) (keys : List (String × Key)) :
    (ProcessKeyPress.loop key action keys).map Prod.fst = keys.map Prod.fst := by
  induction keys with
  | nil => rfl
  | cons e rest ih =>
    obtain ⟨name, k⟩ := e
    unfold ProcessKeyPress.loop
    split_ifs <;> simp [ih]

/-- A key map with the names `w`, `a`, `s`, `d` answers all four lookups of
`Update`. -/
theorem lookup_of_names (keys : List (String × Key))
    (h : keys.map Prod.fst = ["w", "a", "s", "d"]) :
    ∃ w a s d : Key, keys.lookup "w" = some w ∧ keys.lookup "a" = some a ∧
      keys.lookup "s" = some s ∧ keys.lookup "d" = some d := by
  match keys, h with
  | [(n1, k1), (n2, k2), (n3, k3), (n4, k4)], h =>
    simp at h
    obtain ⟨rfl, rfl, rfl, rfl⟩ := h
    exact ⟨k1, k2, k3, k4, by simp [List.lookup], by simp [List.lookup],
      by simp [List.lookup], by simp [List.lookup]⟩

/-- With the four names present, `Update` returns: the four movement statements
in source order, then the view recomputed and sent to the backend. -/
theorem Update_eq_some (m : GoMath F64) (c : Camera F32 F64) (gl : GLState F32)
    (deltaTime : F32) (w a s d : Key) (hw : c.keys.lookup "w" = some w)
    (ha : c.keys.lookup "a" = some a) (hs : c.keys.lookup "s" = some s)
    (hd : c.keys.lookup "d" = some d) :
    c.Update m gl deltaTime =
      some (
        let p1 := if w.Pressed then c.position.Add (c.front.Mul (c.cameraSpeed * deltaTime))
          else c.position
        let p2 := if a.Pressed then
            p1.Sub ((c.front.Cross c.up).Mul (c.cameraSpeed * deltaTime))
          else p1
        let p3 := if s.Pressed then p2.Sub (c.front.Mul (c.cameraSpeed * deltaTime)) else p2
        let p4 := if d.Pressed then
            p3.Add ((c.front.Cross c.up).Mul (c.cameraSpeed * deltaTime))
          else p3
        let view := c.view.UpdateCameraLocation m p4 (p4.Add c.front) c.up
        ({ c with position := p4, view := view }, view.UpdateUniform gl)) := by
  simp [Camera.Update, hw, ha, hs, hd]

/-- The fields a `ProcessMouseMove` made in the Tracking state stores, apart from
front. -/
theorem ProcessMouseMove_tracking (m : GoMath F64) (c : Camera F32 F64) (xpos ypos : F64)
    (h : c.firstPos = false) :
    (c.ProcessMouseMove m xpos ypos).firstPos = false ∧
      (c.ProcessMouseMove m xpos ypos).xpos = xpos ∧
      (c.ProcessMouseMove m xpos ypos).ypos = ypos ∧
      (c.ProcessMouseMove m xpos ypos).yaw = c.yaw + -(c.xpos - xpos) * 0.2 ∧
      (c.ProcessMouseMove m xpos ypos).pitch = clampPitch (c.pitch + (c.ypos - ypos) * 0.2) ∧
      (c.ProcessMouseMove m xpos ypos).keys = c.keys := by
  simp [Camera.ProcessMouseMove, h]

/-- The camera a `ProcessMouseMove` made in the Uninitialized state returns. -/
theorem ProcessMouseMove_uninitialized (m : GoMath F64) (c : Camera F32 F64)
    (xpos ypos : F64) (h : c.firstPos = true) :
    c.ProcessMouseMove m xpos ypos = { c with xpos := xpos, ypos := ypos, firstPos := false } := by
  simp [Camera.ProcessMouseMove, h]

/-- A `ProcessKeyPress` or `Update` call returns when the key map has the four
names, keeps the names, and leaves yaw, pitch, the last mouse position and
`firstPos` as they were. -/
theorem apply_frame (m : GoMath F64) (s : Camera F32 F64 × GLState F32)
    (call : Call F32 F64) (hn : s.1.keys.map Prod.fst = ["w", "a", "s", "d"])
    (hcall : ∀ xpos ypos, call ≠ Call.ProcessMouseMove xpos ypos) :
    ∃ s', call.apply m s = some s' ∧ s'.1.keys.map Prod.fst = ["w", "a", "s", "d"] ∧
      s'.1.yaw = s.1.yaw ∧ s'.1.pitch = s.1.pitch ∧ s'.1.xpos = s.1.xpos ∧
      s'.1.ypos = s.1.ypos ∧ s'.1.firstPos = s.1.firstPos := by
  cases call with
  | ProcessMouseMove xpos ypos => exact absurd rfl (hcall xpos ypos)
  | ProcessKeyPress key action mods =>
    exact ⟨_, rfl, (loop_names key action s.1.keys).trans hn, rfl, rfl, rfl, rfl, rfl⟩
  | Update deltaTime =>
    obtain ⟨w, a, sk, d, hw, ha, hs, hd⟩ := lookup_of_names s.1.keys hn
    exact ⟨_, Update_eq_some m s.1 s.2 deltaTime w a sk d hw ha hs hd, hn, rfl, rfl, rfl,
      rfl, rfl⟩

end Generic


/-! ### Rounding -/

/-- An integer within half a unit of a rational, and even if exactly half a unit
away, is what the rational rounds to. -/
theorem roundHalfEven_eq (r : ℚ) (n : Int) (h1 : (n : ℚ) - 1 / 2 ≤ r)
    (h2 : r ≤ n + 1 / 2) (he : r = n - 1 / 2 ∨ r = n + 1 / 2 → n % 2 = 0) :
    roundHalfEven r = n := by
  unfold roundHalfEven
  rcases lt_trichotomy r (n : ℚ) with hlt | heq | hgt
  · -- floor is n - 1
    have hf : ⌊r⌋ = n - 1 := by
      rw [Int.floor_eq_iff]
      push_cast
      constructor <;> linarith
    rw [hf]
    push_cast
    split_ifs with a b c
    · exfalso
      push_cast at a
      linarith
    · ring
    · exfalso
      push_cast at a b
      have : r = n - 1 / 2 := by linarith
      have hn := he (Or.inl this)
      omega
    · ring
  · have hf : ⌊r⌋ = n := by rw [heq]; exact Int.floor_intCast n
    rw [hf, heq]
    simp
  · have hf : ⌊r⌋ = n := by
      rw [Int.floor_eq_iff]
      constructor <;> linarith
    rw [hf]
    split_ifs with a b c
    · rfl
    · exfalso; linarith
    · rfl
    · exfalso
      have : r = n + 1 / 2 := by linarith
      have hn := he (Or.inr this)
      omega

/-- An integer rounds to itself. -/
theorem roundHalfEven_intCast (n : Int) : roundHalfEven (n : ℚ) = n :=
  roundHalfEven_eq _ n (by linarith) (by linarith) (by intro h; rcases h with h | h <;> linarith)

/-- The rounded value is within half a unit, and even in a tie. -/
theorem roundHalfEven_spec (r : ℚ) :
    ((roundHalfEven r : Int) : ℚ) - 1 / 2 ≤ r ∧ r ≤ (roundHalfEven r : Int) + 1 / 2 ∧
      (r = (roundHalfEven r : Int) - 1 / 2 ∨ r = (roundHalfEven r : Int) + 1 / 2 →
        roundHalfEven r % 2 = 0) := by
  have h1 := Int.floor_le r
  have h2 := Int.lt_floor_add_one r
  unfold roundHalfEven
  split_ifs with a b c
  · refine ⟨by linarith, by linarith, ?_⟩
    intro h
    rcases h with h | h <;> linarith
  · push_cast
    refine ⟨by linarith, by linarith, ?_⟩
    intro h
    rcases h with h | h <;> linarith
  · refine ⟨by linarith, by linarith, fun _ => c⟩
  · push_cast
    refine ⟨by linarith, by linarith, fun _ => by omega⟩

/-- Rounding commutes with negation. -/
theorem roundHalfEven_neg (r : ℚ) : roundHalfEven (-r) = -roundHalfEven r := by
  obtain ⟨h1, h2, h3⟩ := roundHalfEven_spec r
  apply roundHalfEven_eq
  · push_cast; linarith
  · push_cast; linarith
  · intro h
    have : roundHalfEven r % 2 = 0 := by
      apply h3
      rcases h with h | h
      · right; push_cast at h; linarith
      · left; push_cast at h; linarith
    omega

/-- Rounding does not go below an integer that is below the rational. -/
theorem le_roundHalfEven (r : ℚ) (n : Int) (h : (n : ℚ) ≤ r) : n ≤ roundHalfEven r := by
  obtain ⟨h1, h2, h3⟩ := roundHalfEven_spec r
  by_contra hlt
  have hlt2 : roundHalfEven r + 1 ≤ n := by omega
  have : ((roundHalfEven r : Int) : ℚ) + 1 ≤ n := by exact_mod_cast hlt2
  linarith

/-- Rounding does not go above an integer that is above the rational. -/
theorem roundHalfEven_le (r : ℚ) (n : Int) (h : r ≤ (n : ℚ)) : roundHalfEven r ≤ n := by
  obtain ⟨h1, h2, h3⟩ := roundHalfEven_spec r
  by_contra hlt
  have hlt2 : n + 1 ≤ roundHalfEven r := by omega
  have : (n : ℚ) + 1 ≤ (roundHalfEven r : Int) := by exact_mod_cast hlt2
  linarith

/-- The exponent of the unit in the last place of a rational in a binade of the
normal range. -/
theorem ulpExponent_eq (fmt : Format) (q : ℚ) (e : Int) (h1 : (2 : ℚ) ^ e ≤ |q|)
    (h2 : |q| < (2 : ℚ) ^ (e + 1)) (he : fmt.emin ≤ e) :
    fmt.ulpExponent q = e - (fmt.prec - 1) := by
  have hpos : (0 : ℚ) < |q| := lt_of_lt_of_le (by positivity) h1
  have hlog : Int.log 2 |q| = e := by
    apply le_antisymm
    · have := (Int.lt_zpow_iff_log_lt (b := 2) (by norm_num) hpos (x := e + 1)).mp
        (by simpa using h2)
      omega
    · exact (Int.zpow_le_iff_le_log (b := 2) (by norm_num) hpos).mp (by simpa using h1)
  unfold Format.ulpExponent
  rw [hlog, max_eq_left he]

/-- The exponent of the unit in the last place below the normal range. -/
theorem ulpExponent_subnormal (fmt : Format) (q : ℚ) (h0 : q ≠ 0)
    (h : |q| < (2 : ℚ) ^ fmt.emin) :
    fmt.ulpExponent q = fmt.emin - (fmt.prec - 1) := by
  unfold Format.ulpExponent
  have hpos : (0 : ℚ) < |q| := abs_pos.mpr h0
  have hlog : Int.log 2 |q| < fmt.emin :=
    (Int.lt_zpow_iff_log_lt (b := 2) (by norm_num) hpos).mp (by simpa using h)
  rw [max_eq_right hlog.le]

/-- Zero rounds to zero. -/
theorem round_zero (fmt : Format) : fmt.round 0 = 0 := by
  unfold Format.round
  rw [zero_div]
  have : roundHalfEven 0 = 0 := by
    have := roundHalfEven_intCast 0
    simpa using this
  rw [this]
  simp

/-- Rounding commutes with negation. -/
theorem round_neg (fmt : Format) (q : ℚ) : fmt.round (-q) = -fmt.round q := by
  unfold Format.round Format.ulpExponent
  rw [abs_neg, neg_div, roundHalfEven_neg]
  push_cast
  ring

/-- The value a rational of a binade of the normal range rounds to. -/
theorem round_eq (fmt : Format) (q : ℚ) (e n : Int) (h1 : (2 : ℚ) ^ e ≤ |q|)
    (h2 : |q| < (2 : ℚ) ^ (e + 1)) (he : fmt.emin ≤ e)
    (hlo : (n : ℚ) - 1 / 2 ≤ q / 2 ^ (e - (fmt.prec - 1)))
    (hhi : q / 2 ^ (e - (fmt.prec - 1)) ≤ n + 1 / 2)
    (heven : q / 2 ^ (e - (fmt.prec - 1)) = n - 1 / 2 ∨
      q / 2 ^ (e - (fmt.prec - 1)) = n + 1 / 2 → n % 2 = 0) :
    fmt.round q = n * 2 ^ (e - (fmt.prec - 1)) := by
  unfold Format.round
  rw [ulpExponent_eq fmt q e h1 h2 he, roundHalfEven_eq _ n hlo hhi heven]

/-- The sign of a rational is kept by rounding. -/
theorem round_nonneg (fmt : Format) (q : ℚ) (h : 0 ≤ q) : 0 ≤ fmt.round q := by
  unfold Format.round
  apply mul_nonneg _ (by positivity)
  have : (0 : Int) ≤ roundHalfEven (q / 2 ^ fmt.ulpExponent q) :=
    le_roundHalfEven _ 0 (by push_cast; positivity)
  exact_mod_cast this


/-- A rational that is a multiple of the unit in the last place of its binade
rounds to itself. -/
theorem round_eq_self (fmt : Format) (q : ℚ) (e n : Int) (h1 : (2 : ℚ) ^ e ≤ |q|)
    (h2 : |q| < (2 : ℚ) ^ (e + 1)) (he : fmt.emin ≤ e)
    (hn : q = n * 2 ^ (e - (fmt.prec - 1))) : fmt.round q = q := by
  have hu : (0 : ℚ) < 2 ^ (e - ((fmt.prec : Int) - 1)) := by positivity
  have hdiv : q / 2 ^ (e - ((fmt.prec : Int) - 1)) = n := by
    rw [hn]; field_simp
  rw [round_eq fmt q e n h1 h2 he (by rw [hdiv]; linarith) (by rw [hdiv]; linarith)
    (by rw [hdiv]; intro h; rcases h with h | h <;> linarith)]
  exact hn.symm

/-- The value a positive rational of a binade of the normal range rounds to. -/
theorem round_eq_of_pos (fmt : Format) (q : ℚ) (e n : Int) (h1 : (2 : ℚ) ^ e ≤ q)
    (h2 : q < (2 : ℚ) ^ (e + 1)) (he : fmt.emin ≤ e)
    (hlo : (n : ℚ) - 1 / 2 ≤ q / 2 ^ (e - (fmt.prec - 1)))
    (hhi : q / 2 ^ (e - (fmt.prec - 1)) ≤ n + 1 / 2)
    (heven : q / 2 ^ (e - (fmt.prec - 1)) = n - 1 / 2 ∨
      q / 2 ^ (e - (fmt.prec - 1)) = n + 1 / 2 → n % 2 = 0) :
    fmt.round q = n * 2 ^ (e - (fmt.prec - 1)) := by
  have hq : 0 < q := lt_of_lt_of_le (by positivity) h1
  exact round_eq fmt q e n (by rwa [abs_of_pos hq]) (by rwa [abs_of_pos hq]) he hlo hhi heven

namespace IEEE

variable {fmt : Format}

/-- A rational whose rounded value is not beyond the largest finite value gives
a finite value. -/
theorem ofRat_eq_fin (q r : ℚ) (h : fmt.round q = r) (hmax : |r| ≤ fmt.maxFinite) :
    (ofRat q : IEEE fmt) = fin r := by
  unfold ofRat
  rw [h, if_neg (not_lt.mpr hmax)]

end IEEE

/-! ### Arithmetic of the binary formats -/

namespace IEEE

variable {fmt : Format}

/-- The sum of two finite values is the rounded exact sum. -/
theorem fin_add_fin (x y : ℚ) : (fin x + fin y : IEEE fmt) = ofRat (x + y) := rfl

/-- The difference of two finite values is the rounded exact difference. -/
theorem fin_sub_fin (x y : ℚ) : (fin x - fin y : IEEE fmt) = ofRat (x - y) := by
  show add (fin x) (neg (fin y)) = _
  simp only [neg, add, sub_eq_add_neg]

/-- The product of two finite values is the rounded exact product. -/
theorem fin_mul_fin (x y : ℚ) : (fin x * fin y : IEEE fmt) = ofRat (x * y) := rfl

/-- Negation of a finite value is exact. -/
theorem neg_fin (x : ℚ) : (-(fin x) : IEEE fmt) = fin (-x) := rfl

/-- The negation of NaN is NaN. -/
theorem neg_nan : (-(nan) : IEEE fmt) = nan := rfl

/-- Negation swaps the two infinities. -/
theorem neg_inf (s : Bool) : (-(inf s) : IEEE fmt) = inf (!s) := rfl

/-- A sum with NaN on the left is NaN. -/
theorem nan_add (a : IEEE fmt) : nan + a = nan := by
  cases a <;> rfl

/-- A sum with NaN on the right is NaN. -/
theorem add_nan (a : IEEE fmt) : a + nan = nan := by
  cases a <;> rfl

/-- A difference with NaN on the left is NaN. -/
theorem nan_sub (a : IEEE fmt) : nan - a = nan := by
  cases a <;> rfl

/-- A difference with NaN on the right is NaN. -/
theorem sub_nan (a : IEEE fmt) : a - nan = nan := by
  cases a <;> rfl

/-- A product with NaN on the left is NaN. -/
theorem nan_mul (a : IEEE fmt) : nan * a = nan := by
  cases a <;> rfl

/-- A product with NaN on the right is NaN. -/
theorem mul_nan (a : IEEE fmt) : a * nan = nan := by
  cases a <;> rfl

/-- The constant zero is the finite value 0. -/
theorem zero_eq_fin : (0 : IEEE fmt) = fin 0 := rfl

/-- The constant one is the finite value 1. -/
theorem one_eq_fin : (1 : IEEE fmt) = fin 1 := rfl

/-- The comparison `<` of finite values is that of the rationals. -/
theorem fin_lt_fin (x y : ℚ) : (fin x : IEEE fmt) < fin y ↔ x < y := by
  show lt (fin x) (fin y) = true ↔ _
  simp [lt]

/-- The comparison `<=` of finite values is that of the rationals. -/
theorem fin_le_fin (x y : ℚ) : (fin x : IEEE fmt) ≤ fin y ↔ x ≤ y := by
  show le (fin x) (fin y) = true ↔ _
  simp [le]

/-- NaN is below nothing. -/
theorem not_nan_lt (a : IEEE fmt) : ¬ (nan < a) := by
  show ¬ (lt nan a = true)
  cases a <;> simp [lt]

/-- Nothing is below NaN. -/
theorem not_lt_nan (a : IEEE fmt) : ¬ (a < nan) := by
  show ¬ (lt a nan = true)
  cases a <;> simp [lt]

/-- NaN is at most nothing. -/
theorem not_nan_le (a : IEEE fmt) : ¬ (nan ≤ a) := by
  show ¬ (le nan a = true)
  cases a <;> simp [le]

/-- Nothing is at most NaN. -/
theorem not_le_nan (a : IEEE fmt) : ¬ (a ≤ nan) := by
  show ¬ (le a nan = true)
  cases a <;> simp [le]

/-- Rounding a rational never gives NaN. -/
theorem ofRat_ne_nan (q : ℚ) : (ofRat q : IEEE fmt) ≠ nan := by
  unfold ofRat
  split_ifs <;> simp

/-- The result of rounding is a value of the format when the format has at
least one bit. -/
theorem ofRat_cases (fmt : Format) (q : ℚ) :
    (ofRat q : IEEE fmt) = fin (fmt.round q) ∧ |fmt.round q| ≤ fmt.maxFinite ∨
      (ofRat q : IEEE fmt) = inf (decide (q < 0)) ∧ fmt.maxFinite < |fmt.round q| := by
  unfold ofRat
  split_ifs with h
  · exact Or.inr ⟨rfl, h⟩
  · exact Or.inl ⟨rfl, not_lt.mp h⟩

/-- The largest finite value is not negative. -/
theorem maxFinite_nonneg (fmt : Format) : 0 ≤ fmt.maxFinite := by
  unfold Format.maxFinite
  apply mul_nonneg _ (by positivity)
  have : (1 : ℚ) ≤ 2 ^ fmt.prec := one_le_pow₀ (by norm_num)
  linarith

/-- Negation commutes with rounding a rational into the format. -/
theorem ofRat_neg (q : ℚ) : (ofRat (-q) : IEEE fmt) = -(ofRat q) := by
  show _ = neg _
  unfold ofRat
  rw [round_neg, abs_neg]
  split_ifs with h
  · have hq : q ≠ 0 := by
      rintro rfl
      rw [round_zero, abs_zero] at h
      exact absurd h (not_lt.mpr (maxFinite_nonneg fmt))
    simp only [neg]
    congr 1
    rcases lt_or_gt_of_ne hq with h1 | h1
    · have : ¬ (-q < 0) := by linarith
      simp [h1, this]
    · have : ¬ (q < 0) := by linarith
      have h2 : -q < 0 := by linarith
      simp [h2, this]
  · rfl

/-- Negating the difference swaps its sides. -/
theorem neg_sub_eq (a b : IEEE fmt) : -(a - b) = b - a := by
  cases a with
  | nan => cases b <;> rfl
  | inf s =>
    cases b with
    | nan => rfl
    | inf t => cases s <;> cases t <;> rfl
    | fin y => rfl
  | fin x =>
    cases b with
    | nan => rfl
    | inf t => cases t <;> rfl
    | fin y =>
      rw [fin_sub_fin, fin_sub_fin, ← ofRat_neg, neg_sub]

/-- Multiplication does not depend on the order of the factors. -/
theorem mul_comm_eq (a b : IEEE fmt) : a * b = b * a := by
  cases a with
  | nan => cases b <;> rfl
  | inf s =>
    cases b with
    | nan => rfl
    | inf t => cases s <;> cases t <;> rfl
    | fin y =>
      show mul _ _ = mul _ _
      simp only [mul]
      split_ifs
      · rfl
      · cases s <;> simp
  | fin x =>
    cases b with
    | nan => rfl
    | inf t =>
      show mul _ _ = mul _ _
      simp only [mul]
      split_ifs
      · rfl
      · cases t <;> simp
    | fin y =>
      rw [fin_mul_fin, fin_mul_fin, mul_comm]

end IEEE

/-! ### Rounding is monotone -/

/-- Rounding to the nearest integer is monotone. -/
theorem roundHalfEven_mono (r1 r2 : ℚ) (h : r1 ≤ r2) : roundHalfEven r1 ≤ roundHalfEven r2 := by
  obtain ⟨a1, b1, c1⟩ := roundHalfEven_spec r1
  obtain ⟨a2, b2, c2⟩ := roundHalfEven_spec r2
  by_contra hlt
  have hlt2 : roundHalfEven r2 + 1 ≤ roundHalfEven r1 := by omega
  have hc : ((roundHalfEven r2 : Int) : ℚ) + 1 ≤ (roundHalfEven r1 : Int) := by
    exact_mod_cast hlt2
  have e1 : r1 = (roundHalfEven r1 : Int) - 1 / 2 := by linarith
  have e2 : r2 = (roundHalfEven r2 : Int) + 1 / 2 := by linarith
  have p1 := c1 (Or.inl e1)
  have p2 := c2 (Or.inr e2)
  have : ((roundHalfEven r1 : Int) : ℚ) = (roundHalfEven r2 : Int) + 1 := by linarith
  have : roundHalfEven r1 = roundHalfEven r2 + 1 := by exact_mod_cast this
  omega

/-- The binade exponent used for rounding: the rational is below the next power
of two. -/
theorem lt_zpow_ulp (fmt : Format) (q : ℚ) :
    |q| < (2 : ℚ) ^ (max (Int.log 2 |q|) fmt.emin + 1) := by
  have h1 : |q| < (2 : ℚ) ^ (Int.log 2 |q| + 1) := Int.lt_zpow_succ_log_self (by norm_num) _
  have h2 : (2 : ℚ) ^ (Int.log 2 |q| + 1) ≤ (2 : ℚ) ^ (max (Int.log 2 |q|) fmt.emin + 1) :=
    zpow_le_zpow_right₀ (by norm_num) (by have := le_max_left (Int.log 2 |q|) fmt.emin; omega)
  exact lt_of_lt_of_le h1 h2

/-- Rounding is monotone on the positive rationals. -/
theorem round_mono_of_pos (fmt : Format) (hprec : 0 < fmt.prec) (q1 q2 : ℚ) (h0 : 0 < q1)
    (h : q1 ≤ q2) :
    fmt.round q1 ≤ fmt.round q2 := by
  have h02 : 0 < q2 := lt_of_lt_of_le h0 h
  have hlog : Int.log 2 |q1| ≤ Int.log 2 |q2| := by
    rw [abs_of_pos h0, abs_of_pos h02]
    exact Int.log_mono_right h0 h
  set E1 := max (Int.log 2 |q1|) fmt.emin with hE1
  set E2 := max (Int.log 2 |q2|) fmt.emin with hE2
  have hE : E1 ≤ E2 := max_le_max hlog le_rfl
  have hu1 : fmt.ulpExponent q1 = E1 - (fmt.prec - 1) := rfl
  have hu2 : fmt.ulpExponent q2 = E2 - (fmt.prec - 1) := rfl
  rcases hE.lt_or_eq with hlt | heq
  · -- different binades: the power of two between them separates the results
    have hE2log : E2 = Int.log 2 |q2| := by
      rcases le_total (Int.log 2 |q2|) fmt.emin with hc | hc
      · exfalso
        have : E2 = fmt.emin := max_eq_right hc
        have : fmt.emin ≤ E1 := le_max_right _ _
        omega
      · exact max_eq_left hc
    have hq2 : (2 : ℚ) ^ E2 ≤ q2 := by
      rw [hE2log, abs_of_pos h02]
      exact Int.zpow_log_le_self (by norm_num) h02
    have hq1 : q1 < (2 : ℚ) ^ (E1 + 1) := by
      have h3 : |q1| < (2 : ℚ) ^ (E1 + 1) := lt_zpow_ulp fmt q1
      rwa [abs_of_pos h0] at h3
    have hq1' : q1 ≤ (2 : ℚ) ^ E2 :=
      le_trans hq1.le (zpow_le_zpow_right₀ (by norm_num) (by omega))
    have hmid1 : fmt.round q1 ≤ (2 : ℚ) ^ E2 := by
      unfold Format.round
      rw [hu1]
      obtain ⟨k, hk⟩ : ∃ k : Nat, (k : Int) = E2 - (E1 - (fmt.prec - 1)) :=
        ⟨(E2 - (E1 - (fmt.prec - 1))).toNat, Int.toNat_of_nonneg (by omega)⟩
      have hpow : (2 : ℚ) ^ E2 = ((2 ^ k : Int) : ℚ) * 2 ^ (E1 - ((fmt.prec : Int) - 1)) := by
        push_cast
        rw [← zpow_natCast, hk, ← zpow_add₀ (by norm_num)]
        congr 1
        ring
      have hle : roundHalfEven (q1 / 2 ^ (E1 - ((fmt.prec : Int) - 1))) ≤ (2 ^ k : Int) := by
        apply roundHalfEven_le
        rw [div_le_iff₀ (by positivity), ← hpow]
        exact hq1'
      rw [hpow]
      apply mul_le_mul_of_nonneg_right _ (by positivity)
      exact_mod_cast hle
    have hmid2 : (2 : ℚ) ^ E2 ≤ fmt.round q2 := by
      unfold Format.round
      rw [hu2]
      have hpow : (2 : ℚ) ^ E2 =
          ((2 ^ (fmt.prec - 1) : Int) : ℚ) * 2 ^ (E2 - ((fmt.prec : Int) - 1)) := by
        push_cast
        rw [← zpow_natCast, ← zpow_add₀ (by norm_num)]
        congr 1
        have : ((fmt.prec - 1 : Nat) : Int) = (fmt.prec : Int) - 1 := by
          have := hprec
          omega
        rw [this]
        ring
      have hle : (2 ^ (fmt.prec - 1) : Int) ≤
          roundHalfEven (q2 / 2 ^ (E2 - ((fmt.prec : Int) - 1))) := by
        apply le_roundHalfEven
        rw [le_div_iff₀ (by positivity), ← hpow]
        exact hq2
      rw [hpow]
      apply mul_le_mul_of_nonneg_right _ (by positivity)
      exact_mod_cast hle
    exact le_trans hmid1 hmid2
  · unfold Format.round
    rw [hu1, hu2, heq]
    apply mul_le_mul_of_nonneg_right _ (by positivity)
    have := roundHalfEven_mono (q1 / 2 ^ (E2 - ((fmt.prec : Int) - 1)))
      (q2 / 2 ^ (E2 - ((fmt.prec : Int) - 1)))
      (div_le_div_of_nonneg_right h (by positivity))
    exact_mod_cast this

/-- Rounding keeps a rational that is not positive from becoming positive. -/
theorem round_nonpos (fmt : Format) (q : ℚ) (h : q ≤ 0) : fmt.round q ≤ 0 := by
  have h1 := round_nonneg fmt (-q) (by linarith)
  rw [round_neg] at h1
  linarith

/-- Rounding is monotone. -/
theorem round_mono (fmt : Format) (hprec : 0 < fmt.prec) (q1 q2 : ℚ) (h : q1 ≤ q2) :
    fmt.round q1 ≤ fmt.round q2 := by
  rcases lt_or_le 0 q1 with h1 | h1
  · exact round_mono_of_pos fmt hprec q1 q2 h1 h
  · rcases lt_or_le q2 0 with h2 | h2
    · have := round_mono_of_pos fmt hprec (-q2) (-q1) (by linarith) (by linarith)
      rw [round_neg, round_neg] at this
      linarith
    · exact le_trans (round_nonpos fmt q1 h1) (round_nonneg fmt q2 h2)

namespace IEEE

variable {fmt : Format}

/-- A representable rational is not above the rounded value of a rational it is
not above. -/
theorem fin_le_ofRat (hprec : 0 < fmt.prec) (p q : ℚ) (hp : IsFloat (fin p : IEEE fmt))
    (h : p ≤ q) : (fin p : IEEE fmt) ≤ ofRat q := by
  obtain ⟨hr, hm⟩ := hp
  have hmono := round_mono fmt hprec p q h
  rw [hr] at hmono
  rcases ofRat_cases fmt q with ⟨e, _⟩ | ⟨e, hbig⟩
  · rw [e, fin_le_fin]
    exact hmono
  · rw [e]
    have hq : ¬ (q < 0) := by
      intro hq
      have h1 := round_nonpos fmt q hq.le
      rw [abs_of_nonpos h1] at hbig
      have := neg_abs_le p
      linarith
    simp only [hq, decide_False]
    rfl

/-- A value that is zero or above. -/
theorem zero_le_cases (a : IEEE fmt) (h : (fin 0 : IEEE fmt) ≤ a) :
    a = inf false ∨ ∃ r, a = fin r ∧ 0 ≤ r := by
  cases a with
  | nan => exact absurd h (not_le_nan _)
  | inf s =>
    cases s
    · exact Or.inl rfl
    · exact absurd h (by show ¬ (le _ _ = true); simp [le])
  | fin r => exact Or.inr ⟨r, rfl, (fin_le_fin 0 r).mp h⟩

/-- The rounded value of a rational that is not negative is zero or above. -/
theorem zero_le_ofRat (q : ℚ) (h : 0 ≤ q) : (fin 0 : IEEE fmt) ≤ ofRat q := by
  rcases ofRat_cases fmt q with ⟨e, _⟩ | ⟨e, _⟩
  · rw [e, fin_le_fin]
    exact round_nonneg fmt q h
  · rw [e]
    simp only [not_lt.mpr h, decide_False]
    rfl

/-- The difference of a value and one that is not above it is zero or above,
unless it is NaN. -/
theorem zero_le_sub (a b : IEEE fmt) (h : b ≤ a) (hn : a - b ≠ nan) :
    (fin 0 : IEEE fmt) ≤ a - b := by
  cases a with
  | nan => exact absurd h (not_le_nan _)
  | inf s =>
    cases b with
    | nan => exact absurd h (not_nan_le _)
    | inf t =>
      cases s <;> cases t
      · exact absurd rfl hn
      · rfl
      · exact absurd h (by show ¬ (le _ _ = true); simp [le])
      · exact absurd rfl hn
    | fin y =>
      cases s
      · rfl
      · exact absurd h (by show ¬ (le _ _ = true); simp [le])
  | fin x =>
    cases b with
    | nan => exact absurd h (not_nan_le _)
    | inf t =>
      cases t
      · exact absurd h (by show ¬ (le _ _ = true); simp [le])
      · rfl
    | fin y =>
      rw [fin_sub_fin]
      exact zero_le_ofRat _ (by have := (fin_le_fin y x).mp h; linarith)

/-- The product of a value that is zero or above and a positive rational is
zero or above. -/
theorem zero_le_mul_fin (a : IEEE fmt) (k : ℚ) (h : (fin 0 : IEEE fmt) ≤ a) (hk : 0 < k) :
    (fin 0 : IEEE fmt) ≤ a * fin k := by
  rcases zero_le_cases a h with rfl | ⟨r, rfl, hr⟩
  · show (fin 0 : IEEE fmt) ≤ mul (inf false) (fin k)
    simp only [mul, hk.ne', if_false, not_lt.mpr hk.le, decide_False]
    rfl
  · rw [fin_mul_fin]
    exact zero_le_ofRat _ (mul_nonneg hr hk.le)

/-- Adding a value that is zero or above to a representable rational does not
give less. -/
theorem fin_le_add (hprec : 0 < fmt.prec) (p : ℚ) (o : IEEE fmt)
    (hp : IsFloat (fin p : IEEE fmt)) (h : (fin 0 : IEEE fmt) ≤ o) :
    (fin p : IEEE fmt) ≤ fin p + o := by
  rcases zero_le_cases o h with rfl | ⟨r, rfl, hr⟩
  · rfl
  · rw [fin_add_fin]
    exact fin_le_ofRat hprec p _ hp (by linarith)

end IEEE

/-! ### The constants of the source in the binary formats -/

namespace IEEE

/-- The constant `89.0` as a `float64`. -/
theorem f64_89 : (89.0 : Float64) = fin 89 := by
  show IEEE.ofRat _ = _
  apply IEEE.ofRat_eq_fin
  · norm_num
    exact round_eq_self binary64 89 6 (89 * 2 ^ 46) (by norm_num) (by norm_num)
      (by norm_num [binary64]) (by norm_num [binary64])
  · norm_num [Format.maxFinite, binary64]

/-- The constant `-89.0` as a `float64`. -/
theorem f64_neg_89 : (-89.0 : Float64) = fin (-89) := by
  rw [f64_89]
  rfl

/-- The constant `.2` as a `float64`: the nearest value is a little above 1/5. -/
theorem f64_02 : (0.2 : Float64) = fin (3602879701896397 / 18014398509481984) := by
  show IEEE.ofRat _ = _
  apply IEEE.ofRat_eq_fin
  · norm_num
    have := round_eq_of_pos binary64 (1 / 5) (-3) 7205759403792794 (by norm_num) (by norm_num)
      (by norm_num [binary64]) (by norm_num [binary64]) (by norm_num [binary64])
      (by norm_num [binary64])
    rw [this]
    norm_num [binary64]
  · rw [abs_of_pos (by norm_num)]
    norm_num [Format.maxFinite, binary64]

/-- The constant `90` as a `float64`. -/
theorem f64_90 : (90 : Float64) = fin 90 := by
  show IEEE.ofRat _ = _
  apply IEEE.ofRat_eq_fin
  · norm_num
    exact round_eq_self binary64 90 6 (90 * 2 ^ 46) (by norm_num) (by norm_num)
      (by norm_num [binary64]) (by norm_num [binary64])
  · norm_num [Format.maxFinite, binary64]

/-- The initial yaw `-90` as a `float64`. -/
theorem f64_neg_90 : (-90 : Float64) = fin (-90) := by
  rw [f64_90]
  rfl

/-- The constant `2.5` as a `float32`. -/
theorem f32_25 : (2.5 : Float32) = fin (5 / 2) := by
  show IEEE.ofRat _ = _
  apply IEEE.ofRat_eq_fin
  · norm_num
    exact round_eq_self binary32 (5 / 2) 1 (5 * 2 ^ 21)
      (by rw [abs_of_pos (by norm_num)]; norm_num)
      (by rw [abs_of_pos (by norm_num)]; norm_num)
      (by norm_num [binary32]) (by norm_num [binary32])
  · rw [abs_of_pos (by norm_num)]
    norm_num [Format.maxFinite, binary32]

end IEEE

/-! ### The clamp of the pitch in `float64` -/

open IEEE in
/-- A NaN pitch passes both comparisons of the clamp. -/
theorem clampPitch_nan : clampPitch (nan : Float64) = nan := by
  unfold clampPitch
  simp only [gt_iff_lt, not_lt_nan, not_nan_lt, if_false]

open IEEE in
/-- The clamp of an infinity is the bound on its side. -/
theorem clampPitch_inf (s : Bool) :
    clampPitch (inf s : Float64) = fin (if s then -89 else 89) := by
  unfold clampPitch
  simp only [gt_iff_lt, f64_89, f64_neg_89, neg_fin]
  cases s
  · have h1 : (fin 89 : Float64) < inf false := rfl
    have h2 : ¬ ((fin 89 : Float64) < fin (-89)) := by rw [fin_lt_fin]; norm_num
    simp [h1, h2]
  · have h1 : ¬ ((fin 89 : Float64) < inf true) := by show ¬ (lt _ _ = true); simp [lt]
    have h2 : (inf true : Float64) < fin (-89) := rfl
    simp [h1, h2]

open IEEE in
/-- The clamp of a finite pitch. -/
theorem clampPitch_fin (q : ℚ) :
    clampPitch (fin q : Float64) = fin (if 89 < q then 89 else if q < -89 then -89 else q) := by
  unfold clampPitch
  simp only [gt_iff_lt, f64_89, neg_fin]
  by_cases h1 : 89 < q
  · have h2 : ¬ ((fin 89 : Float64) < fin (-89)) := by rw [fin_lt_fin]; norm_num
    simp only [(fin_lt_fin 89 q).mpr h1, if_true, h2, if_false, h1]
  · have h2 : ¬ ((fin 89 : Float64) < fin q) := by rw [fin_lt_fin]; exact h1
    simp only [h2, if_false, h1, fin_lt_fin]
    split_ifs <;> rfl

open IEEE in
/-- The two comparisons of the range hold for the finite values between the
bounds and for no other value. -/
theorem range_iff (x : Float64) :
    (-89.0 ≤ x ∧ x ≤ 89.0) ↔ ∃ q, x = fin q ∧ -89 ≤ q ∧ q ≤ 89 := by
  rw [f64_89, neg_fin]
  cases x with
  | nan => exact ⟨fun h => absurd h.1 (not_le_nan _), fun ⟨q, h, _⟩ => by cases h⟩
  | inf s =>
    constructor
    · rintro ⟨h1, h2⟩
      cases s
      · exact absurd h2 (by show ¬ (le _ _ = true); simp [le])
      · exact absurd h1 (by show ¬ (le _ _ = true); simp [le])
    · rintro ⟨q, h, _⟩
      cases h
  | fin r =>
    rw [fin_le_fin, fin_le_fin]
    constructor
    · rintro ⟨h1, h2⟩
      exact ⟨r, rfl, h1, h2⟩
    · rintro ⟨q, h, h1, h2⟩
      cases h
      exact ⟨h1, h2⟩

open IEEE in
/-- The clamp of a pitch that is not NaN lies in the range. -/
theorem clampPitch_range (x : Float64) (h : x ≠ nan) :
    ∃ q, clampPitch x = fin q ∧ -89 ≤ q ∧ q ≤ 89 := by
  cases x with
  | nan => exact absurd rfl h
  | inf s =>
    rw [clampPitch_inf]
    cases s
    · exact ⟨89, rfl, by norm_num, le_rfl⟩
    · exact ⟨-89, rfl, le_rfl, by norm_num⟩
  | fin r =>
    rw [clampPitch_fin]
    refine ⟨_, rfl, ?_, ?_⟩ <;> split_ifs <;> linarith

open IEEE in
/-- The difference of two values is NaN exactly when one of them is NaN or both
are the same infinity. -/
theorem sub_eq_nan_iff (a b : Float64) : a - b = nan ↔ nanDifference a b = true := by
  cases a with
  | nan => simp [nan_sub, nanDifference]
  | inf s =>
    cases b with
    | nan => simp [sub_nan, nanDifference]
    | inf t => cases s <;> cases t <;> simp [nanDifference] <;> first | rfl | (intro h; cases h)
    | fin y => simp only [nanDifference]; constructor <;> intro h <;> cases h
  | fin x =>
    cases b with
    | nan => simp [sub_nan, nanDifference]
    | inf t => simp only [nanDifference]; constructor <;> intro h <;> cases h
    | fin y =>
      simp only [nanDifference, fin_sub_fin]
      constructor
      · intro h
        exact absurd h (ofRat_ne_nan _)
      · intro h
        cases h

open IEEE in
/-- The product with the sensitivity is NaN exactly when the factor is. -/
theorem mul_02_eq_nan_iff (a : Float64) : a * 0.2 = nan ↔ a = nan := by
  rw [f64_02]
  cases a with
  | nan => simp [nan_mul]
  | inf s =>
    have : (inf s : Float64) * fin (3602879701896397 / 18014398509481984) ≠ nan := by
      show mul _ _ ≠ _
      simp [mul]
    simp [this]
  | fin x =>
    rw [fin_mul_fin]
    simp [ofRat_ne_nan]

open IEEE in
/-- The sum of a finite value and another value is NaN exactly when the other
value is. -/
theorem fin_add_eq_nan_iff (p : ℚ) (b : Float64) : fin p + b = nan ↔ b = nan := by
  cases b with
  | nan => simp [add_nan]
  | inf s =>
    have : (fin p : Float64) + inf s ≠ nan := by
      show add _ _ ≠ _
      simp [add]
    simp [this]
  | fin x =>
    rw [fin_add_fin]
    simp [ofRat_ne_nan]

/-! ### The pitch along call sequences in `float64` -/

open IEEE in
/-- One tracking step of the pitch: NaN when the pitch or the difference of the
vertical positions is NaN, and inside the range otherwise. -/
theorem pitch_step (p lastY y : Float64) :
    (p = nan ∨ nanDifference lastY y = true → clampPitch (p + (lastY - y) * 0.2) = nan) ∧
      (∀ q, p = fin q → nanDifference lastY y = false →
        ∃ q', clampPitch (p + (lastY - y) * 0.2) = fin q' ∧ -89 ≤ q' ∧ q' ≤ 89) := by
  constructor
  · rintro (rfl | h)
    · rw [nan_add, clampPitch_nan]
    · rw [(sub_eq_nan_iff lastY y).mpr h, nan_mul, add_nan, clampPitch_nan]
  · rintro q rfl h
    apply clampPitch_range
    rw [Ne, fin_add_eq_nan_iff, mul_02_eq_nan_iff, sub_eq_nan_iff, h]
    simp

open IEEE in
/-- Along a call sequence the stored pitch stays inside the range as long as no
difference of vertical positions is NaN, and is NaN from the first such
difference on. -/
theorem pitch_runCalls (m : GoMath Float64) (calls : List (Call Float32 Float64)) :
    ∀ (s : Camera Float32 Float64 × GLState Float32) (last : Option Float64),
      s.1.keys.map Prod.fst = ["w", "a", "s", "d"] →
      (last = none ∧ s.1.firstPos = true ∨ last = some s.1.ypos ∧ s.1.firstPos = false) →
      ∃ s', runCalls m s calls = some s' ∧
        ((∃ q, s.1.pitch = fin q ∧ -89 ≤ q ∧ q ≤ 89) → hasNaNDifference last calls = false →
          ∃ q, s'.1.pitch = fin q ∧ -89 ≤ q ∧ q ≤ 89) ∧
        (s.1.pitch = nan ∨ hasNaNDifference last calls = true → s'.1.pitch = nan) := by
  induction calls with
  | nil =>
    intro s last _ _
    refine ⟨s, rfl, fun h _ => h, ?_⟩
    rintro (h | h)
    · exact h
    · cases last <;> simp [hasNaNDifference] at h
  | cons call rest ih =>
    intro s last hn hl
    cases call with
    | ProcessMouseMove x y =>
      rcases hl with ⟨rfl, hf⟩ | ⟨rfl, hf⟩
      · obtain ⟨s', hs', h1, h2⟩ := ih (s.1.ProcessMouseMove m x y, s.2) (some y)
          (by rw [ProcessMouseMove_uninitialized m s.1 x y hf]; exact hn)
          (Or.inr (by rw [ProcessMouseMove_uninitialized m s.1 x y hf]; exact ⟨rfl, rfl⟩))
        refine ⟨s', hs', ?_, ?_⟩
        · intro hp hh
          apply h1 _ hh
          rw [ProcessMouseMove_uninitialized m s.1 x y hf]
          exact hp
        · intro hp
          apply h2
          rw [ProcessMouseMove_uninitialized m s.1 x y hf]
          exact hp
      · obtain ⟨t1, t2, t3, t4, t5, t6⟩ := ProcessMouseMove_tracking m s.1 x y hf
        obtain ⟨s', hs', h1, h2⟩ := ih (s.1.ProcessMouseMove m x y, s.2) (some y)
          (by show ((s.1.ProcessMouseMove m x y).keys.map Prod.fst) = _; rw [t6]; exact hn)
          (Or.inr ⟨by show some y = some (s.1.ProcessMouseMove m x y).ypos; rw [t3], t1⟩)
        obtain ⟨st1, st2⟩ := pitch_step s.1.pitch s.1.ypos y
        refine ⟨s', hs', ?_, ?_⟩
        · rintro ⟨q, hq, _⟩ hh
          simp only [hasNaNDifference, Bool.or_eq_false_iff] at hh
          apply h1 _ hh.2
          show ∃ q, (s.1.ProcessMouseMove m x y).pitch = fin q ∧ _
          rw [t5]
          exact st2 q hq hh.1
        · intro hp
          simp only [hasNaNDifference, Bool.or_eq_true] at hp
          apply h2
          rcases hp with hp | hp | hp
          · left
            show (s.1.ProcessMouseMove m x y).pitch = nan
            rw [t5]
            exact st1 (Or.inl hp)
          · left
            show (s.1.ProcessMouseMove m x y).pitch = nan
            rw [t5]
            exact st1 (Or.inr hp)
          · exact Or.inr hp
    | ProcessKeyPress key action mods =>
      obtain ⟨s1, hs1, k1, _, k3, _, k5, k6⟩ := apply_frame m s
        (Call.ProcessKeyPress key action mods) hn (by intro _ _ h; cases h)
      obtain ⟨s', hs', h1, h2⟩ := ih s1 last k1 (by rw [k5, k6]; exact hl)
      have hh : hasNaNDifference last (Call.ProcessKeyPress key action mods :: rest) =
          hasNaNDifference last rest := by cases last <;> rfl
      refine ⟨s', ?_, ?_, ?_⟩
      · show (Call.apply m s _).bind _ = _
        rw [hs1]
        exact hs'
      · rw [hh, ← k3]
        exact h1
      · rw [hh, ← k3]
        exact h2
    | Update deltaTime =>
      obtain ⟨s1, hs1, k1, _, k3, _, k5, k6⟩ := apply_frame m s
        (Call.Update deltaTime) hn (by intro _ _ h; cases h)
      obtain ⟨s', hs', h1, h2⟩ := ih s1 last k1 (by rw [k5, k6]; exact hl)
      have hh : hasNaNDifference last (Call.Update deltaTime :: rest) =
          hasNaNDifference last rest := by cases last <;> rfl
      refine ⟨s', ?_, ?_, ?_⟩
      · show (Call.apply m s _).bind _ = _
        rw [hs1]
        exact hs'
      · rw [hh, ← k3]
        exact h1
      · rw [hh, ← k3]
        exact h2

open IEEE in
/-- The clamp does not go below a value of the range that the pitch is not
below. -/
theorem le_clampPitch (p : ℚ) (x : Float64) (h1 : -89 ≤ p) (h2 : p ≤ 89)
    (h : (fin p : Float64) ≤ x) : (fin p : Float64) ≤ clampPitch x := by
  cases x with
  | nan => exact absurd h (not_le_nan _)
  | inf s =>
    rw [clampPitch_inf]
    cases s
    · rw [fin_le_fin]
      simpa using h2
    · exact absurd h (by show ¬ (le _ _ = true); simp [le])
  | fin r =>
    rw [clampPitch_fin, fin_le_fin]
    have := (fin_le_fin p r).mp h
    split_ifs <;> linarith

open IEEE in
/-- The four outcomes of the clamp. -/
theorem clampPitch_cases (x : Float64) :
    (x = nan → clampPitch x = nan) ∧ (89.0 < x → clampPitch x = 89.0) ∧
      (x < -89.0 → clampPitch x = -89.0) ∧ (-89.0 ≤ x ∧ x ≤ 89.0 → clampPitch x = x) := by
  rw [f64_89, neg_fin]
  refine ⟨?_, ?_, ?_, ?_⟩
  · rintro rfl
    exact clampPitch_nan
  · intro h
    cases x with
    | nan => exact absurd h (not_lt_nan _)
    | inf s =>
      cases s
      · rw [clampPitch_inf]; rfl
      · exact absurd h (by show ¬ (lt _ _ = true); simp [lt])
    | fin r =>
      rw [clampPitch_fin, if_pos ((fin_lt_fin 89 r).mp h)]
  · intro h
    cases x with
    | nan => exact absurd h (not_nan_lt _)
    | inf s =>
      cases s
      · exact absurd h (by show ¬ (lt _ _ = true); simp [lt])
      · rw [clampPitch_inf]; rfl
    | fin r =>
      have hr := (fin_lt_fin r (-89)).mp h
      rw [clampPitch_fin, if_neg (by linarith), if_pos hr]
  · rintro ⟨h1, h2⟩
    cases x with
    | nan => exact absurd h2 (not_nan_le _)
    | inf s =>
      cases s
      · exact absurd h2 (by show ¬ (le _ _ = true); simp [le])
      · exact absurd h1 (by show ¬ (le _ _ = true); simp [le])
    | fin r =>
      have a1 := (fin_le_fin (-89) r).mp h1
      have a2 := (fin_le_fin r 89).mp h2
      rw [clampPitch_fin, if_neg (by linarith), if_neg (by linarith)]

namespace IEEE

variable {fmt : Format}

/-- The value a rational of a binade of the normal range rounds to in the
format. -/
theorem ofRat_eq (q r : ℚ) (e n : Int) (h1 : (2 : ℚ) ^ e ≤ |q|)
    (h2 : |q| < (2 : ℚ) ^ (e + 1)) (he : fmt.emin ≤ e)
    (hlo : (n : ℚ) - 1 / 2 ≤ q / 2 ^ (e - (fmt.prec - 1)))
    (hhi : q / 2 ^ (e - (fmt.prec - 1)) ≤ n + 1 / 2)
    (heven : q / 2 ^ (e - (fmt.prec - 1)) = n - 1 / 2 ∨
      q / 2 ^ (e - (fmt.prec - 1)) = n + 1 / 2 → n % 2 = 0)
    (hr : (n : ℚ) * 2 ^ (e - (fmt.prec - 1)) = r) (hmax : |r| ≤ fmt.maxFinite) :
    (ofRat q : IEEE fmt) = fin r :=
  ofRat_eq_fin q r ((round_eq fmt q e n h1 h2 he hlo hhi heven).trans hr) hmax

/-- A rational that is a multiple of the unit in the last place of its binade
is a value of the format. -/
theorem ofRat_eq_self (q : ℚ) (e n : Int) (h1 : (2 : ℚ) ^ e ≤ |q|)
    (h2 : |q| < (2 : ℚ) ^ (e + 1)) (he : fmt.emin ≤ e)
    (hn : q = n * 2 ^ (e - (fmt.prec - 1))) (hmax : |q| ≤ fmt.maxFinite) :
    (ofRat q : IEEE fmt) = fin q :=
  ofRat_eq_fin q q (round_eq_self fmt q e n h1 h2 he hn) hmax

/-- Zero is a value of the format. -/
theorem ofRat_zero : (ofRat 0 : IEEE fmt) = fin 0 :=
  ofRat_eq_fin 0 0 (round_zero fmt) (by rw [abs_zero]; exact maxFinite_nonneg fmt)

end IEEE

/-! ### The yaw along call sequences in `float64` -/

/-- Along a call sequence the stored yaw is the running sum over the mouse
samples: the first sample of an Uninitialized camera is only recorded, and every
other sample adds 0.2 times its distance from the sample before it. -/
theorem yaw_runCalls_float64 (m : GoMath Float64) (calls : List (Call Float32 Float64)) :
    ∀ s : Camera Float32 Float64 × GLState Float32,
      s.1.keys.map Prod.fst = ["w", "a", "s", "d"] →
      ∃ s', runCalls m s calls = some s' ∧
        s'.1.yaw = yawAfter s.1.yaw
          (if s.1.firstPos then mouseXs calls else s.1.xpos :: mouseXs calls) := by
  induction calls with
  | nil =>
    intro s _
    refine ⟨s, rfl, ?_⟩
    cases s.1.firstPos <;> rfl
  | cons call rest ih =>
    intro s hn
    cases call with
    | ProcessMouseMove x y =>
      cases hf : s.1.firstPos with
      | true =>
        obtain ⟨s', hs', h1⟩ := ih (s.1.ProcessMouseMove m x y, s.2)
          (by rw [ProcessMouseMove_uninitialized m s.1 x y hf]; exact hn)
        refine ⟨s', hs', ?_⟩
        rw [h1, ProcessMouseMove_uninitialized m s.1 x y hf]
        rfl
      | false =>
        obtain ⟨t1, t2, -, t4, -, t6⟩ := ProcessMouseMove_tracking m s.1 x y hf
        obtain ⟨s', hs', h1⟩ := ih (s.1.ProcessMouseMove m x y, s.2)
          (by show ((s.1.ProcessMouseMove m x y).keys.map Prod.fst) = _; rw [t6]; exact hn)
        refine ⟨s', hs', ?_⟩
        rw [h1]
        show yawAfter (s.1.ProcessMouseMove m x y).yaw
          (if (s.1.ProcessMouseMove m x y).firstPos then mouseXs rest
            else (s.1.ProcessMouseMove m x y).xpos :: mouseXs rest) = _
        rw [t1, t2, t4, IEEE.neg_sub_eq, IEEE.mul_comm_eq]
        rfl
    | ProcessKeyPress key action mods =>
      obtain ⟨s1, hs1, k1, k2, -, k4, -, k6⟩ := apply_frame m s
        (Call.ProcessKeyPress key action mods) hn (by intro _ _ h; cases h)
      obtain ⟨s', hs', h1⟩ := ih s1 k1
      refine ⟨s', ?_, ?_⟩
      · show (Call.apply m s _).bind _ = _
        rw [hs1]
        exact hs'
      · rw [h1, k2, k4, k6]
        rfl
    | Update deltaTime =>
      obtain ⟨s1, hs1, k1, k2, -, k4, -, k6⟩ := apply_frame m s
        (Call.Update deltaTime) hn (by intro _ _ h; cases h)
      obtain ⟨s', hs', h1⟩ := ih s1 k1
      refine ⟨s', ?_, ?_⟩
      · show (Call.apply m s _).bind _ = _
        rw [hs1]
        exact hs'
      · rw [h1, k2, k4, k6]
        rfl

/-- A rational that is an integer multiple of the unit in the last place at it
rounds to itself. -/
theorem round_of_multiple (fmt : Format) (q : ℚ) (k : Int)
    (h : q = k * 2 ^ fmt.ulpExponent q) : fmt.round q = q := by
  unfold Format.round
  have hk : q / 2 ^ fmt.ulpExponent q = k := by
    rw [div_eq_iff (by positivity)]
    exact h
  rw [hk, roundHalfEven_intCast]
  exact h.symm

/-- The natural numbers up to `2 ^ 24` are values of `float32`. -/
theorem f32_round_natCast (n : Nat) (h : n ≤ 2 ^ 24) : binary32.round (n : ℚ) = n := by
  rcases Nat.eq_zero_or_pos n with rfl | hpos
  · simpa using round_zero binary32
  rcases Nat.lt_or_ge n (2 ^ 24) with hlt | hge
  · have hq : (0 : ℚ) < (n : ℚ) := by exact_mod_cast hpos
    have hlog : Int.log 2 |(n : ℚ)| < 24 := by
      rw [abs_of_pos hq]
      apply (Int.lt_zpow_iff_log_lt (b := 2) (by norm_num) hq).mp
      show (n : ℚ) < ((2 : Nat) : ℚ) ^ (24 : Int)
      norm_num
      exact_mod_cast hlt
    have hu : binary32.ulpExponent (n : ℚ) ≤ 0 := by
      unfold Format.ulpExponent
      have h1 : max (Int.log 2 |(n : ℚ)|) binary32.emin ≤ 23 := max_le (by omega) (by decide)
      have h2 : ((binary32.prec : Int) - 1) = 23 := by decide
      omega
    obtain ⟨j, hj⟩ : ∃ j : Nat, (j : Int) = -binary32.ulpExponent (n : ℚ) :=
      ⟨(-binary32.ulpExponent (n : ℚ)).toNat, Int.toNat_of_nonneg (by omega)⟩
    apply round_of_multiple binary32 (n : ℚ) ((n : Int) * 2 ^ j)
    have hu2 : binary32.ulpExponent (n : ℚ) = -(j : Int) := by omega
    rw [hu2]
    push_cast
    rw [zpow_neg, zpow_natCast]
    field_simp
  · have hn : n = 2 ^ 24 := le_antisymm h hge
    subst hn
    push_cast
    exact round_eq_self binary32 _ 24 (2 ^ 23) (by norm_num) (by norm_num)
      (by norm_num [binary32]) (by norm_num [binary32])

namespace IEEE

/-- The natural numbers up to `2 ^ 24` are values of `float32`. -/
theorem f32_ofRat_natCast (n : Nat) (h : n ≤ 2 ^ 24) :
    (ofRat (n : ℚ) : Float32) = fin (n : ℚ) := by
  apply ofRat_eq_fin _ _ (f32_round_natCast n h)
  rw [abs_of_nonneg (by positivity)]
  have : (n : ℚ) ≤ ((2 ^ 24 : Nat) : ℚ) := by exact_mod_cast h
  refine le_trans this ?_
  norm_num [Format.maxFinite, binary32]

/-- The numerals up to `2 ^ 24` are values of `float32`. -/
theorem f32_ofRat_ofNat (n : Nat) [n.AtLeastTwo] (h : n ≤ 2 ^ 24) :
    (ofRat (no_index (OfNat.ofNat n) : ℚ) : Float32) = fin (OfNat.ofNat n : ℚ) := by
  have := f32_ofRat_natCast n h
  simpa using this

/-- One is a value of `float32`. -/
theorem f32_ofRat_one : (ofRat 1 : Float32) = fin 1 := by
  have := f32_ofRat_natCast 1 (by norm_num)
  simpa using this

/-- The negated numerals up to `2 ^ 24` are values of `float32`. -/
theorem f32_ofRat_neg_ofNat (n : Nat) [n.AtLeastTwo] (h : n ≤ 2 ^ 24) :
    (ofRat (-(no_index (OfNat.ofNat n) : ℚ)) : Float32) = fin (-(OfNat.ofNat n : ℚ)) := by
  rw [ofRat_neg, f32_ofRat_ofNat n h]
  rfl

/-- Minus one is a value of `float32`. -/
theorem f32_ofRat_neg_one : (ofRat (-1) : Float32) = fin (-1) := by
  rw [ofRat_neg, f32_ofRat_one]
  rfl

end IEEE

/-! ### Steps of length zero in `float32` -/

namespace IEEE

variable {fmt : Format}

/-- Adding zero leaves a value of the format as it is. -/
theorem add_fin_zero (p : IEEE fmt) (h : p.IsFloat) : p + fin 0 = p := by
  cases p with
  | nan => rfl
  | inf s => rfl
  | fin q =>
    rw [fin_add_fin, add_zero]
    exact ofRat_eq_fin q q h.1 h.2

/-- Subtracting zero leaves a value of the format as it is. -/
theorem sub_fin_zero (p : IEEE fmt) (h : p.IsFloat) : p - fin 0 = p := by
  cases p with
  | nan => rfl
  | inf s => rfl
  | fin q =>
    rw [fin_sub_fin, sub_zero]
    exact ofRat_eq_fin q q h.1 h.2

/-- A finite value times zero is zero. -/
theorem fin_mul_zero (x : ℚ) : (fin x * fin 0 : IEEE fmt) = fin 0 := by
  rw [fin_mul_fin, mul_zero, ofRat_zero]

end IEEE

open IEEE in
/-- A component of a step of length zero: zero when the speed and the component
of the vector are finite, NaN otherwise. -/
theorem mul_speed_zero (v speed : Float32) :
    v * (speed * 0) = if speed.isFinite && v.isFinite then fin 0 else nan := by
  cases speed with
  | nan => rw [nan_mul, mul_nan]; rfl
  | inf s =>
    have h : (inf s : Float32) * 0 = nan := by
      show mul (inf s) (fin 0) = nan
      simp [mul]
    rw [h, mul_nan]
    rfl
  | fin k =>
    rw [zero_eq_fin, fin_mul_zero]
    cases v with
    | nan => rfl
    | inf t =>
      show mul (inf t) (fin 0) = _
      simp [mul, isFinite]
    | fin x =>
      rw [fin_mul_zero]
      rfl

open IEEE in
/-- One component of position through the four conditional steps of `Update(0)`:
it is left as it was unless a pressed key has a NaN step in it. -/
theorem zero_step_component (w a s d : Bool) (speed f c p : Float32) (hp : p.IsFloat) :
    (if d then
        (if s then
          (if a then (if w then p + f * (speed * 0) else p) - c * (speed * 0)
            else (if w then p + f * (speed * 0) else p)) - f * (speed * 0)
          else (if a then (if w then p + f * (speed * 0) else p) - c * (speed * 0)
            else (if w then p + f * (speed * 0) else p))) + c * (speed * 0)
      else
        (if s then
          (if a then (if w then p + f * (speed * 0) else p) - c * (speed * 0)
            else (if w then p + f * (speed * 0) else p)) - f * (speed * 0)
          else (if a then (if w then p + f * (speed * 0) else p) - c * (speed * 0)
            else (if w then p + f * (speed * 0) else p)))) =
      zeroStepComponent (w || s) (a || d) speed f c p := by
  have A := add_fin_zero p hp
  have S := sub_fin_zero p hp
  rw [mul_speed_zero f speed, mul_speed_zero c speed]
  unfold zeroStepComponent
  cases speed.isFinite <;> cases f.isFinite <;> cases c.isFinite <;>
    cases w <;> cases a <;> cases s <;> cases d <;>
    simp [A, S, add_nan, nan_add, nan_sub, sub_nan]

/-- The position through the four conditional steps of `Update(0)`, component by
component. -/
theorem zero_step_vector (w a s d : Bool) (speed : Float32) (p f c : Vec3 Float32)
    (hx : p.x.IsFloat) (hy : p.y.IsFloat) (hz : p.z.IsFloat) :
    (if d then
        (if s then
          (if a then (if w then p.Add (f.Mul (speed * 0)) else p).Sub (c.Mul (speed * 0))
            else (if w then p.Add (f.Mul (speed * 0)) else p)).Sub (f.Mul (speed * 0))
          else (if a then (if w then p.Add (f.Mul (speed * 0)) else p).Sub (c.Mul (speed * 0))
            else (if w then p.Add (f.Mul (speed * 0)) else p))).Add (c.Mul (speed * 0))
      else
        (if s then
          (if a then (if w then p.Add (f.Mul (speed * 0)) else p).Sub (c.Mul (speed * 0))
            else (if w then p.Add (f.Mul (speed * 0)) else p)).Sub (f.Mul (speed * 0))
          else (if a then (if w then p.Add (f.Mul (speed * 0)) else p).Sub (c.Mul (speed * 0))
            else (if w then p.Add (f.Mul (speed * 0)) else p)))) =
      ⟨zeroStepComponent (w || s) (a || d) speed f.x c.x p.x,
        zeroStepComponent (w || s) (a || d) speed f.y c.y p.y,
        zeroStepComponent (w || s) (a || d) speed f.z c.z p.z⟩ := by
  rw [← zero_step_component w a s d speed f.x c.x p.x hx,
    ← zero_step_component w a s d speed f.y c.y p.y hy,
    ← zero_step_component w a s d speed f.z c.z p.z hz]
  cases w <;> cases a <;> cases s <;> cases d <;> rfl

/-- The natural numbers up to `2 ^ 53` are values of `float64`. -/
theorem f64_round_natCast (n : Nat) (h : n ≤ 2 ^ 53) : binary64.round (n : ℚ) = n := by
  rcases Nat.eq_zero_or_pos n with rfl | hpos
  · simpa using round_zero binary64
  rcases Nat.lt_or_ge n (2 ^ 53) with hlt | hge
  · have hq : (0 : ℚ) < (n : ℚ) := by exact_mod_cast hpos
    have hlog : Int.log 2 |(n : ℚ)| < 53 := by
      rw [abs_of_pos hq]
      apply (Int.lt_zpow_iff_log_lt (b := 2) (by norm_num) hq).mp
      show (n : ℚ) < ((2 : Nat) : ℚ) ^ (53 : Int)
      norm_num
      exact_mod_cast hlt
    have hu : binary64.ulpExponent (n : ℚ) ≤ 0 := by
      unfold Format.ulpExponent
      have h1 : max (Int.log 2 |(n : ℚ)|) binary64.emin ≤ 52 := max_le (by omega) (by decide)
      have h2 : ((binary64.prec : Int) - 1) = 52 := by decide
      omega
    obtain ⟨j, hj⟩ : ∃ j : Nat, (j : Int) = -binary64.ulpExponent (n : ℚ) :=
      ⟨(-binary64.ulpExponent (n : ℚ)).toNat, Int.toNat_of_nonneg (by omega)⟩
    apply round_of_multiple binary64 (n : ℚ) ((n : Int) * 2 ^ j)
    have hu2 : binary64.ulpExponent (n : ℚ) = -(j : Int) := by omega
    rw [hu2]
    push_cast
    rw [zpow_neg, zpow_natCast]
    field_simp
  · have hn : n = 2 ^ 53 := le_antisymm h hge
    subst hn
    push_cast
    exact round_eq_self binary64 _ 53 (2 ^ 52) (by norm_num) (by norm_num)
      (by norm_num [binary64]) (by norm_num [binary64])

namespace IEEE

/-- The natural numbers up to `2 ^ 53` are values of `float64`. -/
theorem f64_ofRat_natCast (n : Nat) (h : n ≤ 2 ^ 53) :
    (ofRat (n : ℚ) : Float64) = fin (n : ℚ) := by
  apply ofRat_eq_fin _ _ (f64_round_natCast n h)
  rw [abs_of_nonneg (by positivity)]
  have : (n : ℚ) ≤ ((2 ^ 53 : Nat) : ℚ) := by exact_mod_cast h
  refine le_trans this ?_
  norm_num [Format.maxFinite, binary64]

/-- The numerals up to `2 ^ 53` are values of `float64`. -/
theorem f64_ofRat_ofNat (n : Nat) [n.AtLeastTwo] (h : n ≤ 2 ^ 53) :
    (ofRat (no_index (OfNat.ofNat n) : ℚ) : Float64) = fin (OfNat.ofNat n : ℚ) := by
  have := f64_ofRat_natCast n h
  simpa using this

/-- One is a value of `float64`. -/
theorem f64_ofRat_one : (ofRat 1 : Float64) = fin 1 := by
  have := f64_ofRat_natCast 1 (by norm_num)
  simpa using this

/-- The negated numerals up to `2 ^ 53` are values of `float64`. -/
theorem f64_ofRat_neg_ofNat (n : Nat) [n.AtLeastTwo] (h : n ≤ 2 ^ 53) :
    (ofRat (-(no_index (OfNat.ofNat n) : ℚ)) : Float64) = fin (-(OfNat.ofNat n : ℚ)) := by
  rw [ofRat_neg, f64_ofRat_ofNat n h]
  rfl

/-- Minus one is a value of `float64`. -/
theorem f64_ofRat_neg_one : (ofRat (-1) : Float64) = fin (-1) := by
  rw [ofRat_neg, f64_ofRat_one]
  rfl

end IEEE

/-! ### Large vertical moves in `float64` -/

namespace IEEE

variable {fmt : Format}

end IEEE

/-- Rounding commutes with the absolute value. -/
theorem round_abs (fmt : Format) (q : ℚ) : fmt.round |q| = |fmt.round q| := by
  rcases le_total 0 q with h | h
  · rw [abs_of_nonneg h, abs_of_nonneg (round_nonneg fmt q h)]
  · rw [abs_of_nonpos h, abs_of_nonpos (round_nonpos fmt q h), round_neg]

/-- A power of two of the normal range rounds to itself. -/
theorem round_two_zpow (fmt : Format) (hprec : 0 < fmt.prec) (e : Int) (he : fmt.emin ≤ e) :
    fmt.round ((2 : ℚ) ^ e) = (2 : ℚ) ^ e := by
  have hpos : (0 : ℚ) < 2 ^ e := by positivity
  apply round_eq_self fmt _ e (2 ^ (fmt.prec - 1))
  · rw [abs_of_pos hpos]
  · rw [abs_of_pos hpos]
    exact zpow_lt_zpow_right₀ (by norm_num) (by omega)
  · exact he
  · push_cast
    rw [← zpow_natCast, ← zpow_add₀ (by norm_num)]
    congr 1
    have : ((fmt.prec - 1 : Nat) : Int) = (fmt.prec : Int) - 1 := by omega
    rw [this]
    ring

/-- The distance from a rational to its rounded value is at most half a unit in
the last place. -/
theorem abs_round_sub_le (fmt : Format) (q : ℚ) :
    |fmt.round q - q| ≤ (2 : ℚ) ^ fmt.ulpExponent q / 2 := by
  obtain ⟨h1, h2, -⟩ := roundHalfEven_spec (q / 2 ^ fmt.ulpExponent q)
  have hu : (0 : ℚ) < 2 ^ fmt.ulpExponent q := by positivity
  have hq : q = q / 2 ^ fmt.ulpExponent q * 2 ^ fmt.ulpExponent q := by field_simp
  unfold Format.round
  rw [abs_le]
  constructor
  · nlinarith
  · nlinarith

/-- The exponent of the unit in the last place of a rational below a power of
two of the normal range. -/
theorem ulpExponent_le (fmt : Format) (q : ℚ) (e : Int) (h : |q| < (2 : ℚ) ^ (e + 1))
    (he : fmt.emin ≤ e) (he0 : 0 ≤ e) : fmt.ulpExponent q ≤ e - (fmt.prec - 1) := by
  unfold Format.ulpExponent
  have hlog : Int.log 2 |q| ≤ e := by
    rcases eq_or_ne q 0 with rfl | h0
    · rw [abs_zero, Int.log_zero_right]
      exact he0
    · have hpos : (0 : ℚ) < |q| := abs_pos.mpr h0
      have := (Int.lt_zpow_iff_log_lt (b := 2) (by norm_num) hpos (x := e + 1)).mp
        (by simpa using h)
      omega
  have := max_le hlog he
  omega

namespace IEEE

variable {fmt : Format}

/-- A power of two between the least and the greatest exponent is a value of
the format. -/
theorem isFloat_two_zpow (hprec : 0 < fmt.prec) (e : Int) (he : fmt.emin ≤ e)
    (he2 : e ≤ fmt.emax) : (fin ((2 : ℚ) ^ e) : IEEE fmt).IsFloat := by
  refine ⟨round_two_zpow fmt hprec e he, ?_⟩
  rw [abs_of_pos (by positivity)]
  unfold Format.maxFinite
  have h1 : (2 : ℚ) ^ e ≤ 2 ^ fmt.emax := zpow_le_zpow_right₀ (by norm_num) he2
  have h2 : (2 : ℚ) ^ fmt.emax =
      2 ^ (fmt.prec - 1) * 2 ^ (fmt.emax - ((fmt.prec : Int) - 1)) := by
    rw [← zpow_natCast, ← zpow_add₀ (by norm_num)]
    congr 1
    have : ((fmt.prec - 1 : Nat) : Int) = (fmt.prec : Int) - 1 := by omega
    rw [this]
    ring
  rw [h2] at h1
  refine le_trans h1 (mul_le_mul_of_nonneg_right ?_ (by positivity))
  have h3 : (2 : ℚ) ^ fmt.prec = 2 * 2 ^ (fmt.prec - 1) := by
    rw [← pow_succ']
    congr 1
    omega
  have h4 : (1 : ℚ) ≤ 2 ^ (fmt.prec - 1) := one_le_pow₀ (by norm_num)
  linarith

/-- A rational whose magnitude lies between two values of the format rounds to
a finite value whose magnitude lies between them, with the same sign. -/
theorem ofRat_mag (fmt : Format) (hprec : 0 < fmt.prec) (q lo hi : ℚ) (hlo : (fin lo : IEEE fmt).IsFloat)
    (hhi : (fin hi : IEEE fmt).IsFloat) (h1 : lo ≤ |q|) (h2 : |q| ≤ hi) :
    (ofRat q : IEEE fmt) = fin (fmt.round q) ∧ lo ≤ |fmt.round q| ∧ |fmt.round q| ≤ hi ∧
      (0 ≤ q → 0 ≤ fmt.round q) ∧ (q ≤ 0 → fmt.round q ≤ 0) := by
  have a1 := round_mono fmt hprec lo |q| h1
  have a2 := round_mono fmt hprec |q| hi h2
  rw [hlo.1, round_abs] at a1
  rw [hhi.1, round_abs] at a2
  have hmax : |fmt.round q| ≤ fmt.maxFinite :=
    le_trans a2 (le_trans (le_abs_self hi) hhi.2)
  exact ⟨ofRat_eq_fin q _ rfl hmax, a1, a2, round_nonneg fmt q, round_nonpos fmt q⟩

/-- Zero is a value of the format. -/
theorem isFloat_zero : (fin 0 : IEEE fmt).IsFloat :=
  ⟨round_zero fmt, by rw [abs_zero]; exact maxFinite_nonneg fmt⟩

end IEEE

/-! ### The front vector in `float32` -/

open IEEE in
/-- The powers of two from `2 ^ -126` to `2 ^ 127` are values of `float32`. -/
theorem f32_isFloat_two_zpow (e : Int) (h1 : -126 ≤ e) (h2 : e ≤ 127) :
    (fin ((2 : ℚ) ^ e) : Float32).IsFloat :=
  isFloat_two_zpow (by decide) e h1 h2

open IEEE in
/-- The powers of two from `2 ^ -1022` to `2 ^ 1023` are values of `float64`. -/
theorem f64_isFloat_two_zpow (e : Int) (h1 : -1022 ≤ e) (h2 : e ≤ 1023) :
    (fin ((2 : ℚ) ^ e) : Float64).IsFloat :=
  isFloat_two_zpow (by decide) e h1 h2

open IEEE in
/-- A component of the spherical direction: the `float32` value of the product
of a cosine or sine of the yaw, of magnitude at most 1, and the cosine of the
pitch, between 1/128 and 1, has magnitude at most 1, and at least 1/256 when the
first factor has magnitude at least 1/2. -/
theorem spherical_component (a r : ℚ) (ha : |a| ≤ 1) (hr1 : 1 / 128 ≤ r) (hr2 : r ≤ 1) :
    ∃ X : ℚ, Float32Of.toFloat32 (fin a * fin r : Float64) = (fin X : Float32) ∧ |X| ≤ 1 ∧
      (1 / 2 ≤ |a| → 1 / 256 ≤ |X|) := by
  have g1 : (fin 1 : Float64).IsFloat := by
    simpa using f64_isFloat_two_zpow 0 (by norm_num) (by norm_num)
  have g2 : (fin (1 / 256) : Float64).IsFloat := by
    have := f64_isFloat_two_zpow (-8) (by norm_num) (by norm_num)
    norm_num at this
    simpa using this
  have k1 : (fin 1 : Float32).IsFloat := by
    simpa using f32_isFloat_two_zpow 0 (by norm_num) (by norm_num)
  have k2 : (fin (1 / 256) : Float32).IsFloat := by
    have := f32_isFloat_two_zpow (-8) (by norm_num) (by norm_num)
    norm_num at this
    simpa using this
  have hr0 : 0 < r := by linarith
  have habs : |a * r| = |a| * r := by rw [abs_mul, abs_of_pos hr0]
  have hup : |a * r| ≤ 1 := by
    rw [habs]
    nlinarith [abs_nonneg a]
  rw [fin_mul_fin]
  by_cases h : 1 / 2 ≤ |a|
  · have hlo : 1 / 256 ≤ |a * r| := by
      rw [habs]
      nlinarith
    obtain ⟨e1, b1, b2, -, -⟩ := ofRat_mag binary64 (by decide) (a * r) (1 / 256) 1
      g2 g1 hlo hup
    obtain ⟨e2, c1, c2, -, -⟩ := ofRat_mag binary32 (by decide)
      (binary64.round (a * r)) (1 / 256) 1 k2 k1 b1 b2
    refine ⟨_, ?_, c2, fun _ => c1⟩
    rw [e1]
    exact e2
  · obtain ⟨e1, -, b2, -, -⟩ := ofRat_mag binary64 (by decide) (a * r) 0 1
      isFloat_zero g1 (abs_nonneg _) hup
    obtain ⟨e2, -, c2, -, -⟩ := ofRat_mag binary32 (by decide)
      (binary64.round (a * r)) 0 1 isFloat_zero k1 (abs_nonneg _) b2
    refine ⟨_, ?_, c2, fun h' => absurd h' h⟩
    rw [e1]
    exact e2

namespace IEEE

variable {fmt : Format}

/-- Division of finite values by a divisor other than zero. -/
theorem fin_div_fin (x y : ℚ) (hy : y ≠ 0) : (fin x / fin y : IEEE fmt) = ofRat (x / y) := by
  show div (fin x) (fin y) = _
  simp only [div, hy, if_false]

/-- The constant `1.0` as a `float32`. -/
theorem f32_one_lit : (1.0 : Float32) = fin 1 := by
  show IEEE.ofRat _ = _
  norm_num [f32_ofRat_one]

end IEEE

open IEEE in
/-- The square of a `float32` value of magnitude at most 1 is a value between 0
and 1, and at least `2 ^ -16` when the magnitude is at least 1/256. -/
theorem f32_square (X : ℚ) (hX : |X| ≤ 1) :
    ∃ xx : ℚ, (fin X * fin X : Float32) = fin xx ∧ 0 ≤ xx ∧ xx ≤ 1 ∧
      (1 / 256 ≤ |X| → 1 / 65536 ≤ xx) := by
  have k1 : (fin 1 : Float32).IsFloat := by
    simpa using f32_isFloat_two_zpow 0 (by norm_num) (by norm_num)
  have k2 : (fin (1 / 65536) : Float32).IsFloat := by
    have := f32_isFloat_two_zpow (-16) (by norm_num) (by norm_num)
    norm_num at this
    simpa using this
  have hsq : |X * X| = |X| * |X| := abs_mul X X
  have h0 : 0 ≤ X * X := mul_self_nonneg X
  have hup : |X * X| ≤ 1 := by
    rw [hsq]
    nlinarith [abs_nonneg X]
  rw [fin_mul_fin]
  by_cases h : 1 / 256 ≤ |X|
  · have hlo : 1 / 65536 ≤ |X * X| := by
      rw [hsq]
      nlinarith
    obtain ⟨e1, b1, b2, b3, -⟩ := ofRat_mag binary32 (by decide) (X * X) (1 / 65536) 1
      k2 k1 hlo hup
    have hn := b3 h0
    rw [abs_of_nonneg hn] at b1 b2
    exact ⟨_, e1, hn, b2, fun _ => b1⟩
  · obtain ⟨e1, -, b2, b3, -⟩ := ofRat_mag binary32 (by decide) (X * X) 0 1
      isFloat_zero k1 (abs_nonneg _) hup
    have hn := b3 h0
    rw [abs_of_nonneg hn] at b2
    exact ⟨_, e1, hn, b2, fun h' => absurd h' h⟩

open IEEE in
/-- The sum of two `float32` values between 0 and a power of two `hi` with
`2 * hi` still finite lies between 0 and `2 * hi`, and is at least a value `lo`
of the format that one of the two is at least. -/
theorem f32_add_nonneg (x y lo : ℚ) (e : Int) (he1 : -126 ≤ e) (he2 : e + 1 ≤ 127)
    (hlo : (fin lo : Float32).IsFloat)
    (hx0 : 0 ≤ x) (hx : x ≤ 2 ^ e) (hy0 : 0 ≤ y) (hy : y ≤ 2 ^ e) :
    ∃ s : ℚ, (fin x + fin y : Float32) = fin s ∧ 0 ≤ s ∧ s ≤ 2 ^ (e + 1) ∧
      (lo ≤ x ∨ lo ≤ y → lo ≤ s) := by
  have khi := f32_isFloat_two_zpow (e + 1) (by omega) he2
  have h0 : 0 ≤ x + y := by linarith
  have hup : |x + y| ≤ 2 ^ (e + 1) := by
    rw [abs_of_nonneg h0, zpow_add_one₀ (by norm_num)]
    linarith
  rw [fin_add_fin]
  by_cases h : lo ≤ x ∨ lo ≤ y
  · have hl : lo ≤ |x + y| := by
      rw [abs_of_nonneg h0]
      rcases h with h | h <;> linarith
    obtain ⟨e1, b1, b2, b3, -⟩ := ofRat_mag binary32 (by decide) (x + y) lo _
      hlo khi hl hup
    have hn := b3 h0
    rw [abs_of_nonneg hn] at b1 b2
    exact ⟨_, e1, hn, b2, fun _ => b1⟩
  · obtain ⟨e1, -, b2, b3, -⟩ := ofRat_mag binary32 (by decide) (x + y) 0 _
      isFloat_zero khi (abs_nonneg _) hup
    have hn := b3 h0
    rw [abs_of_nonneg hn] at b2
    exact ⟨_, e1, hn, b2, fun h' => absurd h' h⟩

open IEEE in
/-- The product of a `float32` value of magnitude at most 1 and a factor between
1/2 and 256 has magnitude at most 256, and at least 1/512 when the value has
magnitude at least 1/256. -/
theorem f32_scale (X l : ℚ) (hX : |X| ≤ 1) (hl1 : 1 / 2 ≤ l) (hl2 : l ≤ 256) :
    ∃ fx : ℚ, (fin X * fin l : Float32) = fin fx ∧ |fx| ≤ 256 ∧
      (1 / 256 ≤ |X| → 1 / 512 ≤ |fx|) := by
  have k1 : (fin 256 : Float32).IsFloat := by
    have := f32_isFloat_two_zpow 8 (by norm_num) (by norm_num)
    norm_num at this
    simpa using this
  have k2 : (fin (1 / 512) : Float32).IsFloat := by
    have := f32_isFloat_two_zpow (-9) (by norm_num) (by norm_num)
    norm_num at this
    simpa using this
  have hl0 : 0 < l := by linarith
  have habs : |X * l| = |X| * l := by rw [abs_mul, abs_of_pos hl0]
  have hup : |X * l| ≤ 256 := by
    rw [habs]
    nlinarith [abs_nonneg X]
  rw [fin_mul_fin]
  by_cases h : 1 / 256 ≤ |X|
  · have hlo : 1 / 512 ≤ |X * l| := by
      rw [habs]
      nlinarith
    obtain ⟨e1, b1, b2, -, -⟩ := ofRat_mag binary32 (by decide) (X * l) (1 / 512) 256
      k2 k1 hlo hup
    exact ⟨_, e1, b2, fun _ => b1⟩
  · obtain ⟨e1, -, b2, -, -⟩ := ofRat_mag binary32 (by decide) (X * l) 0 256
      isFloat_zero k1 (abs_nonneg _) hup
    exact ⟨_, e1, b2, fun h' => absurd h' h⟩

open IEEE in
/-- Normalizing a `float32` vector with components of magnitude at most 1, one of
the two horizontal components of magnitude at least 1/256, gives finite
components of magnitude at most 256, the same horizontal component of magnitude
at least 1/512, when the square root of a number between `2 ^ -16` and 4 lies
between `2 ^ -8` and 2. -/
theorem normalize_bounds (m : GoMath Float64)
    (hsqrt : ∀ q : ℚ, 1 / 65536 ≤ q → q ≤ 4 → ∃ r, m.Sqrt (fin q) = fin r ∧ 1 / 256 ≤ r ∧ r ≤ 2)
    (X Y Z : ℚ) (hX : |X| ≤ 1) (hY : |Y| ≤ 1) (hZ : |Z| ≤ 1)
    (hxz : 1 / 256 ≤ |X| ∨ 1 / 256 ≤ |Z|) :
    ∃ fx fy fz : ℚ,
      (Vec3.mk (fin X) (fin Y) (fin Z) : Vec3 Float32).Normalize m = ⟨fin fx, fin fy, fin fz⟩ ∧
      |fx| ≤ 256 ∧ |fy| ≤ 256 ∧ |fz| ≤ 256 ∧ (1 / 512 ≤ |fx| ∨ 1 / 512 ≤ |fz|) := by
  have k2 : (fin (1 / 65536) : Float32).IsFloat := by
    have := f32_isFloat_two_zpow (-16) (by norm_num) (by norm_num)
    norm_num at this
    simpa using this
  have k3 : (fin (1 / 256) : Float32).IsFloat := by
    have := f32_isFloat_two_zpow (-8) (by norm_num) (by norm_num)
    norm_num at this
    simpa using this
  have k4 : (fin 2 : Float32).IsFloat := by
    have := f32_isFloat_two_zpow 1 (by norm_num) (by norm_num)
    norm_num at this
    simpa using this
  have k5 : (fin (1 / 2) : Float32).IsFloat := by
    have := f32_isFloat_two_zpow (-1) (by norm_num) (by norm_num)
    norm_num at this
    simpa using this
  have k6 : (fin 256 : Float32).IsFloat := by
    have := f32_isFloat_two_zpow 8 (by norm_num) (by norm_num)
    norm_num at this
    simpa using this
  obtain ⟨xx, ex, x0, x1, xl⟩ := f32_square X hX
  obtain ⟨yy, ey, y0, y1, -⟩ := f32_square Y hY
  obtain ⟨zz, ez, z0, z1, zl⟩ := f32_square Z hZ
  obtain ⟨s1, es1, s10, s11, s1l⟩ := f32_add_nonneg xx yy (1 / 65536) 0 (by norm_num)
    (by norm_num) k2 x0 (by simpa using x1) y0 (by simpa using y1)
  obtain ⟨s, es, s0, s2, sl⟩ := f32_add_nonneg s1 zz (1 / 65536) 1 (by norm_num)
    (by norm_num) k2 s10 (by simpa using s11) z0
    (by have : zz ≤ 1 := z1; norm_num; linarith)
  have hs : 1 / 65536 ≤ s := by
    apply sl
    rcases hxz with h | h
    · exact Or.inl (s1l (Or.inl (xl h)))
    · exact Or.inr (zl h)
  obtain ⟨r, er, r1, r2⟩ := hsqrt s hs (by norm_num at s2; linarith)
  have hr0 : 0 < r := by linarith
  obtain ⟨er', c1, c2, c3, -⟩ := ofRat_mag binary32 (by decide) r (1 / 256) 2 k3 k4
    (by rw [abs_of_pos hr0]; exact r1) (by rw [abs_of_pos hr0]; exact r2)
  have hr'0 := c3 hr0.le
  rw [abs_of_nonneg hr'0] at c1 c2
  have hr'pos : 0 < binary32.round r := by linarith
  have hLen : (Vec3.mk (fin X) (fin Y) (fin Z) : Vec3 Float32).Len m =
      fin (binary32.round r) := by
    show Float32Of.toFloat32 (m.Sqrt (Float32Of.toFloat64
      ((fin X * fin X + fin Y * fin Y + fin Z * fin Z : Float32)))) = _
    rw [ex, ey, ez, es1, es]
    show IEEE.toFloat32 (m.Sqrt (fin s)) = _
    rw [er]
    exact er'
  have hinv0 : (0 : ℚ) < 1 / binary32.round r := by positivity
  obtain ⟨el, d1, d2, -, -⟩ := ofRat_mag binary32 (by decide) (1 / binary32.round r)
    (1 / 2) 256 k5 k6
    (by
      rw [abs_of_pos hinv0, div_le_div_iff₀ (by norm_num) hr'pos]
      linarith)
    (by
      rw [abs_of_pos hinv0, div_le_iff₀ hr'pos]
      linarith)
  have hl0 : 0 ≤ binary32.round (1 / binary32.round r) := round_nonneg _ _ hinv0.le
  rw [abs_of_nonneg hl0] at d1 d2
  have hl : (1.0 : Float32) / (Vec3.mk (fin X) (fin Y) (fin Z) : Vec3 Float32).Len m =
      fin (binary32.round (1 / binary32.round r)) := by
    rw [hLen, f32_one_lit, fin_div_fin _ _ hr'pos.ne']
    exact el
  obtain ⟨fx, efx, fx1, fxl⟩ := f32_scale X _ hX d1 d2
  obtain ⟨fy, efy, fy1, -⟩ := f32_scale Y _ hY d1 d2
  obtain ⟨fz, efz, fz1, fzl⟩ := f32_scale Z _ hZ d1 d2
  refine ⟨fx, fy, fz, ?_, fx1, fy1, fz1, ?_⟩
  · show Vec3.mk (fin X * ((1.0 : Float32) / (Vec3.mk (fin X) (fin Y) (fin Z)).Len m))
      (fin Y * ((1.0 : Float32) / (Vec3.mk (fin X) (fin Y) (fin Z)).Len m))
      (fin Z * ((1.0 : Float32) / (Vec3.mk (fin X) (fin Y) (fin Z)).Len m)) = _
    rw [hl, efx, efy, efz]
  · rcases hxz with h | h
    · exact Or.inl (fxl h)
    · exact Or.inr (fzl h)

open IEEE in
/-- The cross product with `(0, 1, 0)` of a `float32` vector of finite components
is not the zero vector when one of the two horizontal components has magnitude at
least a positive value of the format. -/
theorem cross_up_ne_zero (a b c β M : ℚ) (hβ : (fin β : Float32).IsFloat)
    (hM : (fin M : Float32).IsFloat) (hβ0 : 0 < β) (ha : |a| ≤ M) (hc : |c| ≤ M)
    (h : β ≤ |a| ∨ β ≤ |c|) :
    (Vec3.mk (fin a) (fin b) (fin c) : Vec3 Float32).Cross ⟨0, 1, 0⟩ ≠ ⟨0, 0, 0⟩ := by
  have hx : ((Vec3.mk (fin a) (fin b) (fin c) : Vec3 Float32).Cross ⟨0, 1, 0⟩).x =
      fin b * fin 0 - fin c * fin 1 := rfl
  have hz : ((Vec3.mk (fin a) (fin b) (fin c) : Vec3 Float32).Cross ⟨0, 1, 0⟩).z =
      fin a * fin 1 - fin b * fin 0 := rfl
  intro hzero
  rcases h with h | h
  · obtain ⟨e1, b1, b2, -, -⟩ := ofRat_mag binary32 (by decide) (a * 1) β M hβ hM
      (by rwa [mul_one]) (by rwa [mul_one])
    obtain ⟨e2, c1, -, -, -⟩ := ofRat_mag binary32 (by decide)
      (binary32.round (a * 1) - 0) β M hβ hM (by rwa [sub_zero]) (by rwa [sub_zero])
    have hz0 := congrArg Vec3.z hzero
    rw [hz, fin_mul_zero, fin_mul_fin, e1, fin_sub_fin, e2] at hz0
    have hz1 : binary32.round (binary32.round (a * 1) - 0) = 0 := by
      injection hz0
    rw [hz1, abs_zero] at c1
    linarith
  · obtain ⟨e1, b1, b2, -, -⟩ := ofRat_mag binary32 (by decide) (c * 1) β M hβ hM
      (by rwa [mul_one]) (by rwa [mul_one])
    obtain ⟨e2, c1, -, -, -⟩ := ofRat_mag binary32 (by decide)
      (0 - binary32.round (c * 1)) β M hβ hM
      (by rwa [zero_sub, abs_neg]) (by rwa [zero_sub, abs_neg])
    have hx0 := congrArg Vec3.x hzero
    rw [hx, fin_mul_zero, fin_mul_fin, e1, fin_sub_fin, e2] at hx0
    have hx1 : binary32.round (0 - binary32.round (c * 1)) = 0 := by
      injection hx0
    rw [hx1, abs_zero] at c1
    linarith

open IEEE in
/-- The sum of the squares of the two horizontal components, computed in
`float32`, is positive when one of them has magnitude at least 1/512 and both
have magnitude at most 256. -/
theorem horizontal_squares_pos (fx fz : ℚ) (hx : |fx| ≤ 256) (hz : |fz| ≤ 256)
    (h : 1 / 512 ≤ |fx| ∨ 1 / 512 ≤ |fz|) :
    (0 : Float32) < fin fx * fin fx + fin fz * fin fz := by
  have k1 : (fin 65536 : Float32).IsFloat := by
    have := f32_isFloat_two_zpow 16 (by norm_num) (by norm_num)
    norm_num at this
    simpa using this
  have k2 : (fin (1 / 262144) : Float32).IsFloat := by
    have := f32_isFloat_two_zpow (-18) (by norm_num) (by norm_num)
    norm_num at this
    simpa using this
  have k3 : (fin 131072 : Float32).IsFloat := by
    have := f32_isFloat_two_zpow 17 (by norm_num) (by norm_num)
    norm_num at this
    simpa using this
  have sq : ∀ f : ℚ, |f| ≤ 256 → ∃ r : ℚ, (fin f * fin f : Float32) = fin r ∧ 0 ≤ r ∧
      r ≤ 65536 ∧ (1 / 512 ≤ |f| → 1 / 262144 ≤ r) := by
    intro f hf
    have hsq : |f * f| = |f| * |f| := abs_mul f f
    have h0 : 0 ≤ f * f := mul_self_nonneg f
    have hup : |f * f| ≤ 65536 := by
      rw [hsq]
      nlinarith [abs_nonneg f]
    rw [fin_mul_fin]
    by_cases h : 1 / 512 ≤ |f|
    · have hlo : 1 / 262144 ≤ |f * f| := by
        rw [hsq]
        nlinarith
      obtain ⟨e1, b1, b2, b3, -⟩ := ofRat_mag binary32 (by decide) (f * f) _ _
        k2 k1 hlo hup
      have hn := b3 h0
      rw [abs_of_nonneg hn] at b1 b2
      exact ⟨_, e1, hn, b2, fun _ => b1⟩
    · obtain ⟨e1, -, b2, b3, -⟩ := ofRat_mag binary32 (by decide) (f * f) 0 _
        isFloat_zero k1 (abs_nonneg _) hup
      have hn := b3 h0
      rw [abs_of_nonneg hn] at b2
      exact ⟨_, e1, hn, b2, fun h' => absurd h' h⟩
  obtain ⟨xx, ex, x0, x1, xl⟩ := sq fx hx
  obtain ⟨zz, ez, z0, z1, zl⟩ := sq fz hz
  have hsum0 : 0 ≤ xx + zz := by linarith
  have hlo : 1 / 262144 ≤ |xx + zz| := by
    rw [abs_of_nonneg hsum0]
    rcases h with h | h
    · linarith [xl h]
    · linarith [zl h]
  obtain ⟨e1, b1, -, b3, -⟩ := ofRat_mag binary32 (by decide) (xx + zz) _ _ k2 k3 hlo
    (by rw [abs_of_nonneg hsum0]; linarith)
  rw [ex, ez, fin_add_fin, e1, zero_eq_fin, fin_lt_fin]
  have hn := b3 hsum0
  rw [abs_of_nonneg hn] at b1
  linarith

open IEEE in
/-- One component of the view direction `(position + front) - position` in
`float32`: for a position of magnitude at most 16384 and a front component of
magnitude at most 256 it is finite, of magnitude at most 512, and of magnitude
at least 1/1024 when the front component has magnitude at least 1/512. -/
theorem view_component (p f : ℚ) (hp : |p| ≤ 16384) (hf : |f| ≤ 256) :
    ∃ d : ℚ, ((fin p + fin f) - fin p : Float32) = fin d ∧ |d| ≤ 512 ∧
      (1 / 512 ≤ |f| → 1 / 1024 ≤ |d|) := by
  have k1 : (fin 32768 : Float32).IsFloat := by
    have := f32_isFloat_two_zpow 15 (by norm_num) (by norm_num)
    norm_num at this
    simpa using this
  have k2 : (fin 512 : Float32).IsFloat := by
    have := f32_isFloat_two_zpow 9 (by norm_num) (by norm_num)
    norm_num at this
    simpa using this
  have k3 : (fin (1 / 1024) : Float32).IsFloat := by
    have := f32_isFloat_two_zpow (-10) (by norm_num) (by norm_num)
    norm_num at this
    simpa using this
  have hpf : |p + f| ≤ 16640 := le_trans (abs_add p f) (by linarith)
  obtain ⟨e1, -, -, -, -⟩ := ofRat_mag binary32 (by decide) (p + f) 0 32768
    isFloat_zero k1 (abs_nonneg _) (by linarith)
  have hu : binary32.ulpExponent (p + f) ≤ -9 := by
    have := ulpExponent_le binary32 (p + f) 14 (by norm_num; linarith) (by decide) (by norm_num)
    have h2 : ((binary32.prec : Int) - 1) = 23 := by decide
    omega
  have herr : |binary32.round (p + f) - (p + f)| ≤ 1 / 1024 := by
    refine le_trans (abs_round_sub_le binary32 (p + f)) ?_
    have : (2 : ℚ) ^ binary32.ulpExponent (p + f) ≤ 2 ^ (-9 : Int) :=
      zpow_le_zpow_right₀ (by norm_num) hu
    norm_num at this
    linarith
  obtain ⟨er1, er2⟩ := abs_le.mp herr
  obtain ⟨f1, f2⟩ := abs_le.mp hf
  have hup : |binary32.round (p + f) - p| ≤ 512 := by
    rw [abs_le]
    constructor <;> linarith
  rw [fin_add_fin, e1, fin_sub_fin]
  by_cases h : 1 / 512 ≤ |f|
  · have hlo : 1 / 1024 ≤ |binary32.round (p + f) - p| := by
      rcases le_total 0 f with h0 | h0
      · rw [abs_of_nonneg h0] at h
        exact le_trans (by linarith) (le_abs_self _)
      · rw [abs_of_nonpos h0] at h
        exact le_trans (by linarith) (neg_le_abs _)
    obtain ⟨e2, b1, b2, -, -⟩ := ofRat_mag binary32 (by decide)
      (binary32.round (p + f) - p) _ _ k3 k2 hlo hup
    exact ⟨_, e2, b2, fun _ => b1⟩
  · obtain ⟨e2, -, b2, -, -⟩ := ofRat_mag binary32 (by decide)
      (binary32.round (p + f) - p) 0 _ isFloat_zero k2 (abs_nonneg _) hup
    exact ⟨_, e2, b2, fun h' => absurd h' h⟩

/-- The front a `ProcessMouseMove` made in the Tracking state stores: the
normalized `float32` spherical direction of the yaw and pitch it stores. -/
theorem ProcessMouseMove_front (m : GoMath Float64) (c : Camera Float32 Float64)
    (x y : Float64) (h : c.firstPos = false) :
    (c.ProcessMouseMove m x y).front =
      (Vec3.mk
        (Float32Of.toFloat32 (m.Cos (DegToRad m (c.ProcessMouseMove m x y).yaw) *
          m.Cos (DegToRad m (c.ProcessMouseMove m x y).pitch)))
        (Float32Of.toFloat32 (m.Sin (DegToRad m (c.ProcessMouseMove m x y).pitch)))
        (Float32Of.toFloat32 (m.Sin (DegToRad m (c.ProcessMouseMove m x y).yaw) *
          m.Cos (DegToRad m (c.ProcessMouseMove m x y).pitch)))).Normalize m := by
  simp only [Camera.ProcessMouseMove, h, Bool.false_eq_true, if_false]

open IEEE in
/-- In `float32`, with a math library whose cosine, sine and square root stay
within loose bounds of the real functions, the front a Tracking-state
`ProcessMouseMove` stores has finite components of magnitude at most 256, one of
the two horizontal ones of magnitude at least 1/512, when the stored pitch is not
NaN and the stored yaw in radians is finite; the stored pitch is finite and in
the range, and the cosine of its radians is at least 1/128. -/
theorem front_after_move (m : GoMath Float64) (c : Camera Float32 Float64) (x y : Float64)
    (hcos : ∀ p : ℚ, -89 ≤ p → p ≤ 89 → ∃ r b, m.Cos (DegToRad m (fin p)) = fin r ∧
      m.Sin (DegToRad m (fin p)) = fin b ∧ 1 / 128 ≤ r ∧ r ≤ 1 ∧ |b| ≤ 1)
    (hyaw : ∀ t : ℚ, ∃ a b, m.Cos (fin t) = fin a ∧ m.Sin (fin t) = fin b ∧ |a| ≤ 1 ∧
      |b| ≤ 1 ∧ (1 / 2 ≤ |a| ∨ 1 / 2 ≤ |b|))
    (hsqrt : ∀ q : ℚ, 1 / 65536 ≤ q → q ≤ 4 → ∃ r, m.Sqrt (fin q) = fin r ∧ 1 / 256 ≤ r ∧ r ≤ 2)
    (h : c.firstPos = false) (hp : (c.ProcessMouseMove m x y).pitch ≠ nan)
    (hy : ∃ t : ℚ, DegToRad m (c.ProcessMouseMove m x y).yaw = fin t) :
    (∃ p r, (c.ProcessMouseMove m x y).pitch = fin p ∧ -89 ≤ p ∧ p ≤ 89 ∧
      m.Cos (DegToRad m (c.ProcessMouseMove m x y).pitch) = fin r ∧ 1 / 128 ≤ r) ∧
    ∃ fx fy fz : ℚ, (c.ProcessMouseMove m x y).front = ⟨fin fx, fin fy, fin fz⟩ ∧
      |fx| ≤ 256 ∧ |fy| ≤ 256 ∧ |fz| ≤ 256 ∧ (1 / 512 ≤ |fx| ∨ 1 / 512 ≤ |fz|) := by
  have k1 : (fin 1 : Float32).IsFloat := by
    simpa using f32_isFloat_two_zpow 0 (by norm_num) (by norm_num)
  obtain ⟨p, hpq, hlo, hhi⟩ : ∃ p, (c.ProcessMouseMove m x y).pitch = fin p ∧ -89 ≤ p ∧
      p ≤ 89 := by
    have e := (ProcessMouseMove_tracking m c x y h).2.2.2.2.1
    rw [e] at hp ⊢
    apply clampPitch_range
    intro hn
    rw [hn, clampPitch_nan] at hp
    exact hp rfl
  obtain ⟨t, ht⟩ := hy
  obtain ⟨r, b', er, eb', r1, r2, hb'⟩ := hcos p hlo hhi
  obtain ⟨a, b, ea, eb, ha, hb, hab⟩ := hyaw t
  obtain ⟨X, eX, hX, lX⟩ := spherical_component a r ha r1 r2
  obtain ⟨Z, eZ, hZ, lZ⟩ := spherical_component b r hb r1 r2
  obtain ⟨eY, -, hY, -, -⟩ := ofRat_mag binary32 (by decide) b' 0 1
    isFloat_zero k1 (abs_nonneg _) hb'
  have hxz : 1 / 256 ≤ |X| ∨ 1 / 256 ≤ |Z| := by
    rcases hab with h1 | h1
    · exact Or.inl (lX h1)
    · exact Or.inr (lZ h1)
  obtain ⟨fx, fy, fz, ef, b1, b2, b3, b4⟩ := normalize_bounds m hsqrt X _ Z hX hY hZ hxz
  refine ⟨⟨p, r, hpq, hlo, hhi, ?_, r1⟩, fx, fy, fz, ?_, b1, b2, b3, b4⟩
  · rw [hpq]
    exact er
  · rw [ProcessMouseMove_front m c x y h, ht, hpq, er, ea, eb, eb', eX, eZ]
    show (Vec3.mk (fin X) (IEEE.toFloat32 (fin b')) (fin Z) : Vec3 Float32).Normalize m = _
    rw [show IEEE.toFloat32 (fin b') = (ofRat b' : Float32) from rfl, eY]
    exact ef

/-! ### Exact arithmetic, and the claims -/

section Proofs

variable {F : Type} [LinearOrderedField F]

/-! ### Auxiliary lemmas of the exact reading -/

/-- In exact arithmetic the conversion to `float32` returns its argument. -/
@[simp]
theorem toFloat32_exact (x : F) : (Float32Of.toFloat32 x : F) = x :=
  rfl

/-- In exact arithmetic the conversion to `float64` returns its argument. -/
@[simp]
theorem toFloat64_exact (x : F) : (Float32Of.toFloat64 x : F) = x :=
  rfl

/-- The two clamping statements leave a pitch inside `[-89, 89]`. -/
theorem clampPitch_bounds (pitch : F) : -89 ≤ clampPitch pitch ∧ clampPitch pitch ≤ 89 := by
  unfold clampPitch
  norm_num only
  split_ifs <;> constructor <;> linarith

/-- The camera `NewCamera` returns satisfies the invariant. -/
theorem Invariant_NewCamera (m : GoMath F) (gl : GLState F) (program : Nat) (name : String)
    (position front up : Vec3 F) :
    Invariant (NewCamera m gl program name position front up).1 := by
  refine ⟨rfl, ?_, ?_⟩ <;> simp [NewCamera]

/-- The spherical-coordinate vector of `ProcessMouseMove` has squared length one. -/
theorem spherical_sq (a b : ℝ) :
    Real.cos a * Real.cos b * (Real.cos a * Real.cos b) + Real.sin b * Real.sin b +
      Real.sin a * Real.cos b * (Real.sin a * Real.cos b) = 1 := by
  have ha := Real.cos_sq_add_sin_sq a
  have hb := Real.cos_sq_add_sin_sq b
  linear_combination (Real.cos b) ^ 2 * ha + hb

/-- Over the reals, normalizing a vector of squared length one gives a vector of
length one. -/
theorem Len_Normalize_of_sq (v : Vec3 ℝ) (hv : v.x * v.x + v.y * v.y + v.z * v.z = 1) :
    Vec3.Len ⟨Real.cos, Real.sin, Real.sqrt, Real.pi⟩
      (Vec3.Normalize ⟨Real.cos, Real.sin, Real.sqrt, Real.pi⟩ v) = 1 := by
  simp only [Vec3.Normalize, Vec3.Len, hv, Real.sqrt_one]
  norm_num
  exact hv

/-- On a key map whose entries have pairwise different keys, the loop of
`ProcessKeyPress` gives every entry the flag `flagAfterEvent` names. -/
theorem loop_eq_map (key action : Int) (keys : List (String × Key))
    (h : keys.Pairwise (fun e1 e2 => e1.2.Key ≠ e2.2.Key)) :
    ProcessKeyPress.loop key action keys =
      keys.map (fun e => (e.1, ⟨e.2.Key, flagAfterEvent e.2.Key key action e.2.Pressed⟩)) := by
  induction keys with
  | nil => rfl
  | cons e rest ih =>
    obtain ⟨name, k⟩ := e
    rw [List.pairwise_cons] at h
    obtain ⟨hhead, hrest⟩ := h
    have hfix : key = k.Key →
        rest.map (fun e => (e.1, (⟨e.2.Key, flagAfterEvent e.2.Key key action e.2.Pressed⟩ : Key)))
          = rest := by
      intro hk
      refine (List.map_congr_left ?_).trans (List.map_id rest)
      intro e he
      have hne : key ≠ e.2.Key := fun h2 => hhead e he (hk.symm.trans h2)
      simp [flagAfterEvent, hne]
    unfold ProcessKeyPress.loop
    split_ifs with h1 h2 h3
    · rw [List.map_cons, hfix h1]
      simp [flagAfterEvent, h1, h2]
    · rw [List.map_cons, hfix h1]
      have hp : ¬(Release = Press ∨ Release = Repeat) := by decide
      simp [flagAfterEvent, h1, h3, hp]
    · rw [List.map_cons, ih hrest]
      simp [flagAfterEvent, h2, h3]
    · rw [List.map_cons, ih hrest]
      simp [flagAfterEvent, h1]

/-- A run of `UpdateMatrix` calls leaves the location and the backend as they
were and stores the last matrix given. -/
theorem runTransformationCalls_UpdateMatrix {G : Type} (Ms : List (Mat4 G)) :
    ∀ (t : Transformation G) (gl : GLState G),
      runTransformationCalls (t, gl) (Ms.map TransformationCall.UpdateMatrix) =
        (⟨t.addr, Ms.getLast?.getD t.matrix⟩, gl) := by
  induction Ms with
  | nil => intro t gl; rfl
  | cons M rest ih =>
    intro t gl
    simp only [List.map_cons, runTransformationCalls, TransformationCall.apply, ih,
      Transformation.UpdateMatrix, List.getLast?_cons]
    cases rest.getLast? <;> rfl

/-- Over the reals, normalizing a vector of squared length one returns it. -/
theorem Normalize_of_sq (v : Vec3 ℝ) (hv : v.x * v.x + v.y * v.y + v.z * v.z = 1) :
    Vec3.Normalize ⟨Real.cos, Real.sin, Real.sqrt, Real.pi⟩ v = v := by
  simp only [Vec3.Normalize, Vec3.Len, hv, Real.sqrt_one]
  norm_num

/-- Over the reals, the cosine of a pitch of `[-89, 89]` degrees is positive. -/
theorem cos_DegToRad_pos (pitch : ℝ) (hlo : -89 ≤ pitch) (hhi : pitch ≤ 89) :
    0 < Real.cos (DegToRad ⟨Real.cos, Real.sin, Real.sqrt, Real.pi⟩ pitch) := by
  have hpi := Real.pi_pos
  apply Real.cos_pos_of_mem_Ioo
  constructor <;> simp only [DegToRad] <;> nlinarith

/-- A `ProcessKeyPress` or `Update` call returns on a state satisfying the
invariant, keeps it, and leaves yaw, the last mouse x position and `firstPos` as
they were. -/
theorem Invariant_apply_frame (m : GoMath F) (s : Camera F × GLState F) (call : Call F)
    (h : Invariant s.1) (hcall : ∀ xpos ypos, call ≠ Call.ProcessMouseMove xpos ypos) :
    ∃ s', call.apply m s = some s' ∧ Invariant s'.1 ∧ s'.1.yaw = s.1.yaw ∧
      s'.1.xpos = s.1.xpos ∧ s'.1.firstPos = s.1.firstPos := by
  obtain ⟨hn, hlo, hhi⟩ := h
  cases call with
  | ProcessMouseMove xpos ypos => exact absurd rfl (hcall xpos ypos)
  | ProcessKeyPress key action mods =>
    exact ⟨_, rfl, ⟨(loop_names key action s.1.keys).trans hn, hlo, hhi⟩, rfl, rfl, rfl⟩
  | Update deltaTime =>
    obtain ⟨w, a, sk, d, hw, ha, hs, hd⟩ := lookup_of_names s.1.keys hn
    exact ⟨_, Update_eq_some m s.1 s.2 deltaTime w a sk d hw ha hs hd, ⟨hn, hlo, hhi⟩,
      rfl, rfl, rfl⟩

/-- From a Tracking state, a call sequence runs to the end and changes yaw by 0.2
times the distance from the last mouse x position before the sequence to the
last one in it. -/
theorem yaw_runCalls_tracking (m : GoMath F) (calls : List (Call F)) :
    ∀ s : Camera F × GLState F, Invariant s.1 → s.1.firstPos = false →
      ∃ s', runCalls m s calls = some s' ∧
        s'.1.yaw = s.1.yaw + 0.2 * ((mouseXs calls).getLast?.getD s.1.xpos - s.1.xpos) := by
  induction calls with
  | nil =>
    intro s _ _
    exact ⟨s, rfl, by simp [mouseXs]⟩
  | cons call rest ih =>
    intro s hinv hf
    cases call with
    | ProcessMouseMove xpos ypos =>
      obtain ⟨hf1, hx1, -, hyaw1, hp1, hk1⟩ := ProcessMouseMove_tracking m s.1 xpos ypos hf
      have hinv1 : Invariant (s.1.ProcessMouseMove m xpos ypos) := by
        refine ⟨hk1 ▸ hinv.1, ?_, ?_⟩ <;> rw [hp1]
        · exact (clampPitch_bounds _).1
        · exact (clampPitch_bounds _).2
      obtain ⟨s', hrun, hyaw⟩ := ih (s.1.ProcessMouseMove m xpos ypos, s.2) hinv1 hf1
      refine ⟨s', by simpa [runCalls, Call.apply] using hrun, ?_⟩
      rw [hyaw]
      simp only [mouseXs, List.getLast?_cons, Option.getD_some, hyaw1, hx1]
      ring
    | ProcessKeyPress key action mods =>
      obtain ⟨s1, h1, hinv1, hy1, hx1, hf1⟩ :=
        Invariant_apply_frame m s (Call.ProcessKeyPress key action mods) hinv
          (fun _ _ hc => by cases hc)
      obtain ⟨s', hrun, hyaw⟩ := ih s1 hinv1 (hf1.trans hf)
      refine ⟨s', by simp [runCalls, h1, hrun], ?_⟩
      rw [hyaw, hy1, hx1]
      rfl
    | Update deltaTime =>
      obtain ⟨s1, h1, hinv1, hy1, hx1, hf1⟩ :=
        Invariant_apply_frame m s (Call.Update deltaTime) hinv (fun _ _ hc => by cases hc)
      obtain ⟨s', hrun, hyaw⟩ := ih s1 hinv1 (hf1.trans hf)
      refine ⟨s', by simp [runCalls, h1, hrun], ?_⟩
      rw [hyaw, hy1, hx1]
      rfl

/-- From an Uninitialized state, a call sequence runs to the end and changes yaw
by 0.2 times the distance from the first mouse x position in it to the last. -/
theorem yaw_runCalls_uninitialized (m : GoMath F) (calls : List (Call F)) :
    ∀ s : Camera F × GLState F, Invariant s.1 → s.1.firstPos = true →
      ∃ s', runCalls m s calls = some s' ∧
        ∀ x0 xn : F, (mouseXs calls).head? = some x0 → (mouseXs calls).getLast? = some xn →
          s'.1.yaw = s.1.yaw + 0.2 * (xn - x0) := by
  induction calls with
  | nil =>
    intro s _ _
    exact ⟨s, rfl, by simp [mouseXs]⟩
  | cons call rest ih =>
    intro s hinv hf
    cases call with
    | ProcessMouseMove xpos ypos =>
      have hc1 : s.1.ProcessMouseMove m xpos ypos =
          { s.1 with xpos := xpos, ypos := ypos, firstPos := false } := by
        simp [Camera.ProcessMouseMove, hf]
      have hinv1 : Invariant (s.1.ProcessMouseMove m xpos ypos) := by
        rw [hc1]; exact hinv
      obtain ⟨s', hrun, hyaw⟩ :=
        yaw_runCalls_tracking m rest (s.1.ProcessMouseMove m xpos ypos, s.2) hinv1
          (by rw [hc1])
      refine ⟨s', by simpa [runCalls, Call.apply] using hrun, ?_⟩
      intro x0 xn h0 hn
      simp only [mouseXs, List.head?_cons, Option.some.injEq, List.getLast?_cons] at h0 hn
      rw [hyaw, hc1]
      simp only []
      rw [hn, h0]
    | ProcessKeyPress key action mods =>
      obtain ⟨s1, h1, hinv1, hy1, -, hf1⟩ :=
        Invariant_apply_frame m s (Call.ProcessKeyPress key action mods) hinv
          (fun _ _ hc => by cases hc)
      obtain ⟨s', hrun, hyaw⟩ := ih s1 hinv1 (hf1.trans hf)
      refine ⟨s', by simp [runCalls, h1, hrun], ?_⟩
      intro x0 xn h0 hn
      rw [← hy1]
      exact hyaw x0 xn h0 hn
    | Update deltaTime =>
      obtain ⟨s1, h1, hinv1, hy1, -, hf1⟩ :=
        Invariant_apply_frame m s (Call.Update deltaTime) hinv (fun _ _ hc => by cases hc)
      obtain ⟨s', hrun, hyaw⟩ := ih s1 hinv1 (hf1.trans hf)
      refine ⟨s', by simp [runCalls, h1, hrun], ?_⟩
      intro x0 xn h0 hn
      rw [← hy1]
      exact hyaw x0 xn h0 hn

/-- C1, as stated, fails in `float64`: on the camera `NewCamera` returns, the
mouse samples `(0, 0)` and `(0, NaN)` leave the stored pitch NaN, whatever the
math library; both comparisons of `-89 <= pitch <= 89` are false for NaN. -/
theorem C1_nan_sample_stores_nan_pitch :
    (∀ m : GoMath Float64, ∃ s,
      runCalls m (NewCamera m ⟨fun _ _ => 0, []⟩ 1 "camera" ⟨0, 0, 3⟩ ⟨0, 0, -1⟩ ⟨0, 1, 0⟩)
        [Call.ProcessMouseMove 0 0, Call.ProcessMouseMove 0 IEEE.nan] = some s ∧
      s.1.pitch = IEEE.nan) ∧
    ¬ ((-89.0 : Float64) ≤ IEEE.nan ∧ (IEEE.nan : Float64) ≤ 89.0) := by
  constructor
  · intro m
    refine ⟨_, rfl, ?_⟩
    show clampPitch ((0 : Float64) + ((0 : Float64) - IEEE.nan) * 0.2) = IEEE.nan
    rw [IEEE.sub_nan, IEEE.nan_mul, IEEE.add_nan, clampPitch_nan]
  · intro h
    exact IEEE.not_nan_le _ h.2

/-- C1, amended: in `float64`, every call sequence of `ProcessMouseMove`,
`ProcessKeyPress` and `Update` with arbitrary arguments, started on the camera
`NewCamera` returns, runs to the end (no call fails). When no mouse sample after
the first has a NaN difference `lastY - y` with the sample before it (one of the
two vertical positions NaN, or both the same infinity), the stored pitch
satisfies `-89 <= pitch <= 89`; otherwise the stored pitch is NaN. -/
theorem C1_pitch_is_clamped_or_nan (m : GoMath Float64) (gl : GLState Float32)
    (program : Nat) (name : String) (position front up : Vec3 Float32)
    (calls : List (Call Float32 Float64)) :
    ∃ s, runCalls m (NewCamera m gl program name position front up) calls = some s ∧
      (hasNaNDifference none calls = false → -89.0 ≤ s.1.pitch ∧ s.1.pitch ≤ 89.0) ∧
      (hasNaNDifference none calls = true → s.1.pitch = IEEE.nan) := by
  obtain ⟨s, hs, h1, h2⟩ := pitch_runCalls m calls
    (NewCamera m gl program name position front up) none rfl (Or.inl ⟨rfl, rfl⟩)
  refine ⟨s, hs, ?_, ?_⟩
  · intro h
    rw [range_iff]
    exact h1 ⟨0, rfl, by norm_num, by norm_num⟩ h
  · intro h
    exact h2 (Or.inr h)

/-- C2: over the reals, with `math.Cos`, `math.Sin`, `math.Sqrt` and `math.Pi` the
real cosine, sine, square root and pi, the front vector stored by a
`ProcessMouseMove` made in the Tracking state (`firstPos = false`) has Euclidean
length exactly 1, whatever the yaw, the pitch and the mouse position. -/
theorem C2_front_has_unit_length (c : Camera ℝ) (xpos ypos : ℝ) (h : c.firstPos = false) :
    Vec3.Len ⟨Real.cos, Real.sin, Real.sqrt, Real.pi⟩
      (c.ProcessMouseMove ⟨Real.cos, Real.sin, Real.sqrt, Real.pi⟩ xpos ypos).front = 1 := by
  simp only [Camera.ProcessMouseMove, h, Bool.false_eq_true, if_false]
  exact Len_Normalize_of_sq _ (spherical_sq _ _)

/-- Witness of C2: the camera `NewCamera` returns, after its baseline sample at
`(400, 300)`, receives the sample `(410, 280)`. -/
theorem C2_front_has_unit_length_witness :
    let m : GoMath ℝ := ⟨Real.cos, Real.sin, Real.sqrt, Real.pi⟩
    let s := NewCamera m ⟨fun _ _ => 0, []⟩ 1 "camera" ⟨0, 0, 3⟩ ⟨0, 0, -1⟩ ⟨0, 1, 0⟩
    let c := s.1.ProcessMouseMove m 400 300
    c.firstPos = false ∧ Vec3.Len m (c.ProcessMouseMove m 410 280).front = 1 := by
  intro m s c
  exact ⟨rfl, C2_front_has_unit_length c 410 280 rfl⟩

/-- C3: in the Uninitialized state (`firstPos = true`) `ProcessMouseMove(x, y)`
records `(x, y)` as the last mouse position, switches to Tracking
(`firstPos = false`) and leaves front, position, yaw and pitch, and every other
field, unchanged. -/
theorem C3_first_sample_sets_baseline (m : GoMath F) (c : Camera F) (xpos ypos : F)
    (h : c.firstPos = true) :
    c.ProcessMouseMove m xpos ypos = { c with xpos := xpos, ypos := ypos, firstPos := false } ∧
      (c.ProcessMouseMove m xpos ypos).xpos = xpos ∧
      (c.ProcessMouseMove m xpos ypos).ypos = ypos ∧
      (c.ProcessMouseMove m xpos ypos).firstPos = false ∧
      (c.ProcessMouseMove m xpos ypos).front = c.front ∧
      (c.ProcessMouseMove m xpos ypos).position = c.position ∧
      (c.ProcessMouseMove m xpos ypos).yaw = c.yaw ∧
      (c.ProcessMouseMove m xpos ypos).pitch = c.pitch := by
  simp [Camera.ProcessMouseMove, h]

/-- Witness of C3: the camera `NewCamera` returns receives its first sample. -/
theorem C3_first_sample_sets_baseline_witness :
    let m : GoMath ℝ := ⟨Real.cos, Real.sin, Real.sqrt, Real.pi⟩
    let c := (NewCamera m ⟨fun _ _ => 0, []⟩ 1 "camera" ⟨0, 0, 3⟩ ⟨0, 0, -1⟩ ⟨0, 1, 0⟩).1
    c.firstPos = true ∧
      c.ProcessMouseMove m 400 300 = { c with xpos := 400, ypos := 300, firstPos := false } ∧
      (c.ProcessMouseMove m 400 300).xpos = 400 ∧
      (c.ProcessMouseMove m 400 300).ypos = 300 ∧
      (c.ProcessMouseMove m 400 300).firstPos = false ∧
      (c.ProcessMouseMove m 400 300).front = c.front ∧
      (c.ProcessMouseMove m 400 300).position = c.position ∧
      (c.ProcessMouseMove m 400 300).yaw = c.yaw ∧
      (c.ProcessMouseMove m 400 300).pitch = c.pitch :=
  ⟨rfl, C3_first_sample_sets_baseline _ _ 400 300 rfl⟩

/-- C4, as stated, fails in `float32`: for the camera `NewCamera` returns at
`(0, 0, 3)` with front `(NaN, 0, -1)`, and likewise with front `(+Inf, 0, -1)`,
with `w` pressed, `Update(0)` stores the position `(NaN, 0, 3)`: the step
`front * (speed * 0)` has the component `NaN * 0 = NaN`, respectively
`Inf * 0 = NaN`. -/
theorem C4_update_zero_moves_to_nan :
    (∀ m : GoMath Float64,
      let s := NewCamera m ⟨fun _ _ => 0, []⟩ 1 "camera"
        ⟨IEEE.fin 0, IEEE.fin 0, IEEE.fin 3⟩ ⟨IEEE.nan, IEEE.fin 0, IEEE.fin (-1)⟩
        ⟨IEEE.fin 0, IEEE.fin 1, IEEE.fin 0⟩
      let c := s.1.ProcessKeyPress KeyW Press 0
      ∃ c' gl', c.Update m s.2 0 = some (c', gl') ∧
        c.position = ⟨IEEE.fin 0, IEEE.fin 0, IEEE.fin 3⟩ ∧
        c'.position = ⟨IEEE.nan, IEEE.fin 0, IEEE.fin 3⟩ ∧ c'.position ≠ c.position) ∧
    (∀ m : GoMath Float64,
      let s := NewCamera m ⟨fun _ _ => 0, []⟩ 1 "camera"
        ⟨IEEE.fin 0, IEEE.fin 0, IEEE.fin 3⟩ ⟨IEEE.inf false, IEEE.fin 0, IEEE.fin (-1)⟩
        ⟨IEEE.fin 0, IEEE.fin 1, IEEE.fin 0⟩
      let c := s.1.ProcessKeyPress KeyW Press 0
      ∃ c' gl', c.Update m s.2 0 = some (c', gl') ∧
        c.position = ⟨IEEE.fin 0, IEEE.fin 0, IEEE.fin 3⟩ ∧
        c'.position = ⟨IEEE.nan, IEEE.fin 0, IEEE.fin 3⟩ ∧ c'.position ≠ c.position) := by
  have k0 : (2.5 : Float32) * 0 = IEEE.fin 0 := by
    rw [IEEE.f32_25]
    exact IEEE.fin_mul_zero _
  have h3 : (IEEE.fin 3 + IEEE.fin (-1) * IEEE.fin 0 : Float32) = IEEE.fin 3 := by
    norm_num [IEEE.fin_add_fin, IEEE.fin_mul_fin, IEEE.f32_ofRat_ofNat, IEEE.ofRat_zero]
  have h0 : (IEEE.fin 0 + IEEE.fin 0 * IEEE.fin 0 : Float32) = IEEE.fin 0 := by
    norm_num [IEEE.fin_add_fin, IEEE.fin_mul_fin, IEEE.ofRat_zero]
  have hne : (Vec3.mk IEEE.nan (IEEE.fin 0) (IEEE.fin 3) : Vec3 Float32) ≠
      ⟨IEEE.fin 0, IEEE.fin 0, IEEE.fin 3⟩ := by
    intro h
    have := congrArg Vec3.x h
    cases this
  constructor
  · intro m s c
    have hp : (Vec3.mk (IEEE.fin 0) (IEEE.fin 0) (IEEE.fin 3) : Vec3 Float32).Add
        ((Vec3.mk IEEE.nan (IEEE.fin 0) (IEEE.fin (-1))).Mul ((2.5 : Float32) * 0)) =
        ⟨IEEE.nan, IEEE.fin 0, IEEE.fin 3⟩ := by
      rw [k0]
      show Vec3.mk (IEEE.fin 0 + IEEE.nan * IEEE.fin 0) (IEEE.fin 0 + IEEE.fin 0 * IEEE.fin 0)
        (IEEE.fin 3 + IEEE.fin (-1) * IEEE.fin 0) = _
      rw [h3, h0, IEEE.nan_mul, IEEE.add_nan]
    refine ⟨_, _, Update_eq_some m c s.2 0 ⟨KeyW, true⟩ ⟨KeyA, false⟩ ⟨KeyS, false⟩
      ⟨KeyD, false⟩ rfl rfl rfl rfl, rfl, hp, ?_⟩
    exact hp.trans_ne hne
  · intro m s c
    have hp : (Vec3.mk (IEEE.fin 0) (IEEE.fin 0) (IEEE.fin 3) : Vec3 Float32).Add
        ((Vec3.mk (IEEE.inf false) (IEEE.fin 0) (IEEE.fin (-1))).Mul ((2.5 : Float32) * 0)) =
        ⟨IEEE.nan, IEEE.fin 0, IEEE.fin 3⟩ := by
      rw [k0]
      show Vec3.mk (IEEE.fin 0 + IEEE.inf false * IEEE.fin 0)
        (IEEE.fin 0 + IEEE.fin 0 * IEEE.fin 0) (IEEE.fin 3 + IEEE.fin (-1) * IEEE.fin 0) = _
      rw [h3, h0]
      rfl
    refine ⟨_, _, Update_eq_some m c s.2 0 ⟨KeyW, true⟩ ⟨KeyA, false⟩ ⟨KeyS, false⟩
      ⟨KeyD, false⟩ rfl rfl rfl rfl, rfl, hp, ?_⟩
    exact hp.trans_ne hne

/-- C4, amended: in `float32`, for every camera state and every combination of
the pressed flags of the four tracked keys, `Update(0)` returns and leaves front
unchanged. When the components of position are `float32` values, each of them is
left as it was, unless a pressed key has a NaN step in it, and then it becomes
NaN: that is so for `w` or `s` when the speed or that component of front is NaN
or infinite, and for `a` or `d` when the speed or that component of `front x up`
is. In particular position is unchanged when, for every pressed key, the speed
and the components of its vector are finite. -/
theorem C4_update_zero_keeps_position_unless_nan_step (m : GoMath Float64)
    (c : Camera Float32 Float64) (gl : GLState Float32) (w a s d : Bool) :
    ∃ c' gl', Camera.Update m { c with keys := trackedKeys w a s d } gl 0 = some (c', gl') ∧
      c'.front = c.front ∧
      (c.position.x.IsFloat ∧ c.position.y.IsFloat ∧ c.position.z.IsFloat →
        c'.position =
          ⟨zeroStepComponent (w || s) (a || d) c.cameraSpeed c.front.x
              (c.front.Cross c.up).x c.position.x,
            zeroStepComponent (w || s) (a || d) c.cameraSpeed c.front.y
              (c.front.Cross c.up).y c.position.y,
            zeroStepComponent (w || s) (a || d) c.cameraSpeed c.front.z
              (c.front.Cross c.up).z c.position.z⟩ ∧
        ((w = true ∨ s = true → c.cameraSpeed.isFinite = true ∧ c.front.x.isFinite = true ∧
            c.front.y.isFinite = true ∧ c.front.z.isFinite = true) →
          (a = true ∨ d = true → c.cameraSpeed.isFinite = true ∧
            (c.front.Cross c.up).x.isFinite = true ∧ (c.front.Cross c.up).y.isFinite = true ∧
            (c.front.Cross c.up).z.isFinite = true) →
          c'.position = c.position)) := by
  refine ⟨_, _, Update_eq_some m _ gl 0 ⟨KeyW, w⟩ ⟨KeyA, a⟩ ⟨KeyS, s⟩ ⟨KeyD, d⟩
    rfl rfl rfl rfl, rfl, ?_⟩
  rintro ⟨hx, hy, hz⟩
  have hv := zero_step_vector w a s d c.cameraSpeed c.position c.front (c.front.Cross c.up)
    hx hy hz
  refine ⟨hv, ?_⟩
  intro hf hc
  refine hv.trans ?_
  have key : ∀ f x p : Float32,
      (w = true ∨ s = true → c.cameraSpeed.isFinite = true ∧ f.isFinite = true) →
      (a = true ∨ d = true → c.cameraSpeed.isFinite = true ∧ x.isFinite = true) →
      zeroStepComponent (w || s) (a || d) c.cameraSpeed f x p = p := by
    intro f x p h1 h2
    unfold zeroStepComponent
    cases w <;> cases a <;> cases s <;> cases d <;> simp_all
  rw [key c.front.x (c.front.Cross c.up).x c.position.x
      (fun h => ⟨(hf h).1, (hf h).2.1⟩) (fun h => ⟨(hc h).1, (hc h).2.1⟩),
    key c.front.y (c.front.Cross c.up).y c.position.y
      (fun h => ⟨(hf h).1, (hf h).2.2.1⟩) (fun h => ⟨(hc h).1, (hc h).2.2.1⟩),
    key c.front.z (c.front.Cross c.up).z c.position.z
      (fun h => ⟨(hf h).1, (hf h).2.2.2⟩) (fun h => ⟨(hc h).1, (hc h).2.2.2⟩)]

/-- Witness of C4: the camera `NewCamera` returns at `(0, 0, 3)` with front
`(0, 0, -1)` and up `(0, 1, 0)`, with `w` and `d` pressed: the speed 2.5, front
and `front x up = (1, 0, 0)` are finite and position is unchanged. -/
theorem C4_update_zero_keeps_position_unless_nan_step_witness :
    (∀ m : GoMath Float64,
      let s := NewCamera m ⟨fun _ _ => 0, []⟩ 1 "camera"
        ⟨IEEE.fin 0, IEEE.fin 0, IEEE.fin 3⟩ ⟨IEEE.fin 0, IEEE.fin 0, IEEE.fin (-1)⟩
        ⟨IEEE.fin 0, IEEE.fin 1, IEEE.fin 0⟩
      s.1.cameraSpeed = IEEE.fin (5 / 2) ∧
        s.1.front.Cross s.1.up = ⟨IEEE.fin 1, IEEE.fin 0, IEEE.fin 0⟩ ∧
        ∃ c' gl',
          Camera.Update m { s.1 with keys := trackedKeys true false false true } s.2 0 =
            some (c', gl') ∧
          c'.front = s.1.front ∧ c'.position = s.1.position) ∧
    (IEEE.fin 0 : Float32).IsFloat ∧ (IEEE.fin 3 : Float32).IsFloat := by
  have f0 : (IEEE.fin 0 : Float32).IsFloat := IEEE.isFloat_zero
  have f3 : (IEEE.fin 3 : Float32).IsFloat :=
    ⟨by simpa using f32_round_natCast 3 (by norm_num),
      by norm_num [Format.maxFinite, binary32]⟩
  refine ⟨?_, f0, f3⟩
  intro m s
  have hcross : s.1.front.Cross s.1.up = ⟨IEEE.fin 1, IEEE.fin 0, IEEE.fin 0⟩ := by
    show (Vec3.mk (IEEE.fin 0) (IEEE.fin 0) (IEEE.fin (-1)) : Vec3 Float32).Cross
      (Vec3.mk (IEEE.fin 0) (IEEE.fin 1) (IEEE.fin 0)) = _
    norm_num [Vec3.Cross, IEEE.fin_mul_fin, IEEE.fin_sub_fin, IEEE.ofRat_zero,
      IEEE.f32_ofRat_one, IEEE.f32_ofRat_neg_one]
  have hspeed : s.1.cameraSpeed = IEEE.fin (5 / 2) := IEEE.f32_25
  obtain ⟨c', gl', h1, h2, h3⟩ :=
    C4_update_zero_keeps_position_unless_nan_step m s.1 s.2 true false false true
  refine ⟨hspeed, hcross, c', gl', h1, h2, (h3 ⟨f0, f0, f3⟩).2 ?_ ?_⟩
  · intro _
    rw [hspeed]
    exact ⟨rfl, rfl, rfl, rfl⟩
  · intro _
    rw [hspeed, hcross]
    exact ⟨rfl, rfl, rfl, rfl⟩

/-- C5, as stated, fails in `float32`: for the camera `NewCamera` returns at
`(16777218, 0, 0)` with front `(1, 0, -1)` and up `(0, 1, 0)`, and `dt = 2`, the
displacement of `Update(dt)` with `w` and `d` pressed is `(10, 0, 0)`, while the
displacements with only `w` and with only `d` pressed, `(6, 0, -5)` and
`(6, 0, 5)`, add up to `(12, 0, 0)`. -/
theorem C5_diagonal_displacement_is_not_the_sum :
    (∀ m : GoMath Float64,
      let s := NewCamera m ⟨fun _ _ => 0, []⟩ 1 "camera"
        ⟨IEEE.fin 16777218, IEEE.fin 0, IEEE.fin 0⟩ ⟨IEEE.fin 1, IEEE.fin 0, IEEE.fin (-1)⟩
        ⟨IEEE.fin 0, IEEE.fin 1, IEEE.fin 0⟩
      ∃ cwd cw cd : Camera Float32 Float64 × GLState Float32,
        Camera.Update m { s.1 with keys := trackedKeys true false false true } s.2 (IEEE.fin 2)
          = some cwd ∧
        Camera.Update m { s.1 with keys := trackedKeys true false false false } s.2 (IEEE.fin 2)
          = some cw ∧
        Camera.Update m { s.1 with keys := trackedKeys false false false true } s.2 (IEEE.fin 2)
          = some cd ∧
        cwd.1.position.Sub s.1.position = ⟨IEEE.fin 10, IEEE.fin 0, IEEE.fin 0⟩ ∧
        cw.1.position.Sub s.1.position = ⟨IEEE.fin 6, IEEE.fin 0, IEEE.fin (-5)⟩ ∧
        cd.1.position.Sub s.1.position = ⟨IEEE.fin 6, IEEE.fin 0, IEEE.fin 5⟩ ∧
        (cw.1.position.Sub s.1.position).Add (cd.1.position.Sub s.1.position) =
          ⟨IEEE.fin 12, IEEE.fin 0, IEEE.fin 0⟩) ∧
    (IEEE.fin 16777218 : Float32).IsFloat := by
  have r0 : binary32.round 16777218 = 16777218 :=
    round_eq_self binary32 _ 24 8388609 (by norm_num) (by norm_num)
      (by norm_num [binary32]) (by norm_num [binary32])
  have e1 : (IEEE.ofRat 16777223 : Float32) = IEEE.fin 16777224 :=
    IEEE.ofRat_eq _ _ 24 8388612 (by norm_num) (by norm_num)
      (by norm_num [binary32]) (by norm_num [binary32]) (by norm_num [binary32])
      (by norm_num [binary32]) (by norm_num [binary32])
      (by norm_num [Format.maxFinite, binary32])
  have e2 : (IEEE.ofRat 16777229 : Float32) = IEEE.fin 16777228 :=
    IEEE.ofRat_eq _ _ 24 8388614 (by norm_num) (by norm_num)
      (by norm_num [binary32]) (by norm_num [binary32]) (by norm_num [binary32])
      (by norm_num [binary32]) (by norm_num [binary32])
      (by norm_num [Format.maxFinite, binary32])
  refine ⟨?_, ⟨r0, by norm_num [Format.maxFinite, binary32]⟩⟩
  intro m s
  have hwd : (((Vec3.mk (IEEE.fin 16777218) (IEEE.fin 0) (IEEE.fin 0) : Vec3 Float32).Add
      ((Vec3.mk (IEEE.fin 1) (IEEE.fin 0) (IEEE.fin (-1))).Mul
        ((2.5 : Float32) * IEEE.fin 2))).Add
      (((Vec3.mk (IEEE.fin 1) (IEEE.fin 0) (IEEE.fin (-1))).Cross
        (Vec3.mk (IEEE.fin 0) (IEEE.fin 1) (IEEE.fin 0))).Mul
          ((2.5 : Float32) * IEEE.fin 2))).Sub
      (Vec3.mk (IEEE.fin 16777218) (IEEE.fin 0) (IEEE.fin 0)) =
      ⟨IEEE.fin 10, IEEE.fin 0, IEEE.fin 0⟩ := by
    norm_num [Vec3.Add, Vec3.Sub, Vec3.Mul, Vec3.Cross, IEEE.f32_25, IEEE.fin_add_fin,
      IEEE.fin_mul_fin, IEEE.fin_sub_fin, IEEE.f32_ofRat_ofNat, IEEE.f32_ofRat_neg_ofNat,
      IEEE.ofRat_zero, IEEE.f32_ofRat_one, IEEE.f32_ofRat_neg_one, e1, e2]
  have hw : ((Vec3.mk (IEEE.fin 16777218) (IEEE.fin 0) (IEEE.fin 0) : Vec3 Float32).Add
      ((Vec3.mk (IEEE.fin 1) (IEEE.fin 0) (IEEE.fin (-1))).Mul
        ((2.5 : Float32) * IEEE.fin 2))).Sub
      (Vec3.mk (IEEE.fin 16777218) (IEEE.fin 0) (IEEE.fin 0)) =
      ⟨IEEE.fin 6, IEEE.fin 0, IEEE.fin (-5)⟩ := by
    norm_num [Vec3.Add, Vec3.Sub, Vec3.Mul, Vec3.Cross, IEEE.f32_25, IEEE.fin_add_fin,
      IEEE.fin_mul_fin, IEEE.fin_sub_fin, IEEE.f32_ofRat_ofNat, IEEE.f32_ofRat_neg_ofNat,
      IEEE.ofRat_zero, IEEE.f32_ofRat_one, IEEE.f32_ofRat_neg_one, e1, e2]
  have hd : ((Vec3.mk (IEEE.fin 16777218) (IEEE.fin 0) (IEEE.fin 0) : Vec3 Float32).Add
      (((Vec3.mk (IEEE.fin 1) (IEEE.fin 0) (IEEE.fin (-1))).Cross
        (Vec3.mk (IEEE.fin 0) (IEEE.fin 1) (IEEE.fin 0))).Mul
          ((2.5 : Float32) * IEEE.fin 2))).Sub
      (Vec3.mk (IEEE.fin 16777218) (IEEE.fin 0) (IEEE.fin 0)) =
      ⟨IEEE.fin 6, IEEE.fin 0, IEEE.fin 5⟩ := by
    norm_num [Vec3.Add, Vec3.Sub, Vec3.Mul, Vec3.Cross, IEEE.f32_25, IEEE.fin_add_fin,
      IEEE.fin_mul_fin, IEEE.fin_sub_fin, IEEE.f32_ofRat_ofNat, IEEE.f32_ofRat_neg_ofNat,
      IEEE.ofRat_zero, IEEE.f32_ofRat_one, IEEE.f32_ofRat_neg_one, e1, e2]
  refine ⟨_, _, _, Update_eq_some m _ s.2 (IEEE.fin 2) ⟨KeyW, true⟩ ⟨KeyA, false⟩
      ⟨KeyS, false⟩ ⟨KeyD, true⟩ rfl rfl rfl rfl,
    Update_eq_some m _ s.2 (IEEE.fin 2) ⟨KeyW, true⟩ ⟨KeyA, false⟩ ⟨KeyS, false⟩
      ⟨KeyD, false⟩ rfl rfl rfl rfl,
    Update_eq_some m _ s.2 (IEEE.fin 2) ⟨KeyW, false⟩ ⟨KeyA, false⟩ ⟨KeyS, false⟩
      ⟨KeyD, true⟩ rfl rfl rfl rfl, hwd, hw, hd, ?_⟩
  have hsum : (Vec3.mk (IEEE.fin 6) (IEEE.fin 0) (IEEE.fin (-5)) : Vec3 Float32).Add
      ⟨IEEE.fin 6, IEEE.fin 0, IEEE.fin 5⟩ = ⟨IEEE.fin 12, IEEE.fin 0, IEEE.fin 0⟩ := by
    norm_num [Vec3.Add, IEEE.fin_add_fin, IEEE.f32_ofRat_ofNat, IEEE.ofRat_zero]
  exact (congrArg₂ Vec3.Add hw hd).trans hsum

/-- C5, amended: from one starting state and for every `dt`, `Update(dt)` with
only `w` pressed moves position to `position + front * (speed * dt)`, with only
`d` pressed to `position + (front x up) * (speed * dt)`, and with both pressed to
the position of the `w` step plus `(front x up) * (speed * dt)`: the step of `d`
is added to the rounded result of the step of `w`, every operation rounded to
`float32`, and no step is renormalized. In exact arithmetic the displacement with
both keys pressed is the vector sum of the two single-key displacements,
`front * (speed * dt) + (front x up) * (speed * dt)`. -/
theorem C5_diagonal_is_the_forward_step_then_the_right_step (m : GoMath Float64)
    (c : Camera Float32 Float64) (gl : GLState Float32) (deltaTime : Float32)
    (mE : GoMath F) (cE : Camera F) (glE : GLState F) (deltaTimeE : F) :
    (∃ cwd cw cd : Camera Float32 Float64 × GLState Float32,
      Camera.Update m { c with keys := trackedKeys true false false true } gl deltaTime
        = some cwd ∧
      Camera.Update m { c with keys := trackedKeys true false false false } gl deltaTime
        = some cw ∧
      Camera.Update m { c with keys := trackedKeys false false false true } gl deltaTime
        = some cd ∧
      cw.1.position = c.position.Add (c.front.Mul (c.cameraSpeed * deltaTime)) ∧
      cd.1.position = c.position.Add ((c.front.Cross c.up).Mul (c.cameraSpeed * deltaTime)) ∧
      cwd.1.position =
        cw.1.position.Add ((c.front.Cross c.up).Mul (c.cameraSpeed * deltaTime))) ∧
    (∃ cwd cw cd : Camera F × GLState F,
      Camera.Update mE { cE with keys := trackedKeys true false false true } glE deltaTimeE
        = some cwd ∧
      Camera.Update mE { cE with keys := trackedKeys true false false false } glE deltaTimeE
        = some cw ∧
      Camera.Update mE { cE with keys := trackedKeys false false false true } glE deltaTimeE
        = some cd ∧
      cwd.1.position.Sub cE.position =
        (cw.1.position.Sub cE.position).Add (cd.1.position.Sub cE.position) ∧
      cwd.1.position.Sub cE.position =
        (cE.front.Mul (cE.cameraSpeed * deltaTimeE)).Add
          ((cE.front.Cross cE.up).Mul (cE.cameraSpeed * deltaTimeE))) := by
  constructor
  · exact ⟨_, _, _, Update_eq_some m _ gl deltaTime ⟨KeyW, true⟩ ⟨KeyA, false⟩ ⟨KeyS, false⟩
        ⟨KeyD, true⟩ rfl rfl rfl rfl,
      Update_eq_some m _ gl deltaTime ⟨KeyW, true⟩ ⟨KeyA, false⟩ ⟨KeyS, false⟩
        ⟨KeyD, false⟩ rfl rfl rfl rfl,
      Update_eq_some m _ gl deltaTime ⟨KeyW, false⟩ ⟨KeyA, false⟩ ⟨KeyS, false⟩
        ⟨KeyD, true⟩ rfl rfl rfl rfl, rfl, rfl, rfl⟩
  · refine ⟨_, _, _, Update_eq_some mE _ glE deltaTimeE ⟨KeyW, true⟩ ⟨KeyA, false⟩
        ⟨KeyS, false⟩ ⟨KeyD, true⟩ rfl rfl rfl rfl,
      Update_eq_some mE _ glE deltaTimeE ⟨KeyW, true⟩ ⟨KeyA, false⟩ ⟨KeyS, false⟩
        ⟨KeyD, false⟩ rfl rfl rfl rfl,
      Update_eq_some mE _ glE deltaTimeE ⟨KeyW, false⟩ ⟨KeyA, false⟩ ⟨KeyS, false⟩
        ⟨KeyD, true⟩ rfl rfl rfl rfl, ?_, ?_⟩ <;>
    simp [Vec3.Add, Vec3.Sub, Vec3.Mul, Vec3.Cross] <;> refine ⟨?_, ?_, ?_⟩ <;> ring

/-- C6, as stated, fails: over the reals, the camera built by `NewCamera` at
`(3,3,3)` with front `(0,0,0) - (3,3,3) = (-3,-3,-3)` and up `(0,1,0)`, with only
`w` pressed, is moved by `Update(1.0)` to `(-4.5,-4.5,-4.5)`; this is not
`(3,3,3) + 2.5 * front / |front|`, and the distance covered is not 2.5. -/
theorem C6_forward_step_is_not_unit_speed :
    let m : GoMath ℝ := ⟨Real.cos, Real.sin, Real.sqrt, Real.pi⟩
    let front : Vec3 ℝ := Vec3.Sub ⟨0, 0, 0⟩ ⟨3, 3, 3⟩
    let s := NewCamera m ⟨fun _ _ => 0, []⟩ 1 "camera" ⟨3, 3, 3⟩ front ⟨0, 1, 0⟩
    let c := s.1.ProcessKeyPress KeyW Press 0
    ∃ c' gl', c.Update m s.2 1.0 = some (c', gl') ∧
      c'.position = ⟨-4.5, -4.5, -4.5⟩ ∧
      c'.position ≠ (Vec3.mk 3 3 3).Add ((front.Normalize m).Mul 2.5) ∧
      (c'.position.Sub ⟨3, 3, 3⟩).Len m ≠ 2.5 := by
  intro m front s c
  have hsqrt : (5 : ℝ) ≤ Real.sqrt 27 := Real.le_sqrt_of_sq_le (by norm_num)
  refine ⟨_, _, Update_eq_some m c s.2 1.0 ⟨KeyW, true⟩ ⟨KeyA, false⟩ ⟨KeyS, false⟩
    ⟨KeyD, false⟩ rfl rfl rfl rfl, ?_, ?_, ?_⟩
  · simp [c, s, front, NewCamera, Camera.ProcessKeyPress, Vec3.Add, Vec3.Sub, Vec3.Mul]
    norm_num
  · intro h
    have hx := congrArg Vec3.x h
    simp [c, s, front, m, NewCamera, Camera.ProcessKeyPress, Vec3.Add, Vec3.Sub, Vec3.Mul,
      Vec3.Normalize, Vec3.Len] at hx
    norm_num at hx
    have hinv : (Real.sqrt 27)⁻¹ ≤ 5⁻¹ := inv_anti₀ (by norm_num) hsqrt
    linarith
  · simp [c, s, front, m, NewCamera, Camera.ProcessKeyPress, Vec3.Add, Vec3.Sub, Vec3.Mul,
      Vec3.Len]
    rw [Real.sqrt_eq_iff_mul_self_eq_of_pos (by norm_num)]
    norm_num

/-- C6, amended: for the camera built by `NewCamera` at `(3,3,3)` with front
`(0,0,0) - (3,3,3) = (-3,-3,-3)` and up `(0,1,0)`, with only `w` pressed,
`Update(1.0)` returns and moves position by 2.5 times the front vector as it was
passed to `NewCamera`: the new position is `(3,3,3) + front * 2.5`, which is
`(-4.5,-4.5,-4.5)`. -/
theorem C6_forward_step_is_speed_times_front (m : GoMath F) (gl : GLState F) (program : Nat)
    (name : String) :
    ∃ c' gl',
      Camera.Update m
          ((NewCamera m gl program name ⟨3, 3, 3⟩ (Vec3.Sub ⟨0, 0, 0⟩ ⟨3, 3, 3⟩)
            ⟨0, 1, 0⟩).1.ProcessKeyPress KeyW Press 0)
          (NewCamera m gl program name ⟨3, 3, 3⟩ (Vec3.Sub ⟨0, 0, 0⟩ ⟨3, 3, 3⟩) ⟨0, 1, 0⟩).2
          1.0 = some (c', gl') ∧
      c'.front = Vec3.Sub ⟨0, 0, 0⟩ ⟨3, 3, 3⟩ ∧
      c'.position = (Vec3.mk 3 3 3).Add ((Vec3.Sub ⟨0, 0, 0⟩ ⟨3, 3, 3⟩).Mul 2.5) ∧
      c'.position = ⟨-4.5, -4.5, -4.5⟩ := by
  refine ⟨_, _, Update_eq_some m _ _ 1.0 ⟨KeyW, true⟩ ⟨KeyA, false⟩ ⟨KeyS, false⟩
    ⟨KeyD, false⟩ rfl rfl rfl rfl, ?_, ?_, ?_⟩
  · simp [NewCamera, Camera.ProcessKeyPress]
  · simp [NewCamera, Camera.ProcessKeyPress, Vec3.Add, Vec3.Sub, Vec3.Mul]
    norm_num
  · simp [NewCamera, Camera.ProcessKeyPress, Vec3.Add, Vec3.Sub, Vec3.Mul]
    norm_num

/-- C7, as stated, fails in `float32`: the camera `NewCamera` returns at
`(16777218, 0, 0)` with front `(1, 0, 0)` and up `(0, 1, 0)`, with `w` and `s`
pressed, is moved by `Update(2)` to `(16777220, 0, 0)`: the forward step
`16777218 + 5` rounds to 16777224 and the backward step `16777224 - 5` to
16777220. The formula of the claim, with `w - s = 0` and `d - a = 0`, gives the
position `(16777218, 0, 0)` the camera had. -/
theorem C7_opposite_keys_do_not_cancel :
    (∀ m : GoMath Float64,
      let s := NewCamera m ⟨fun _ _ => 0, []⟩ 1 "camera"
        ⟨IEEE.fin 16777218, IEEE.fin 0, IEEE.fin 0⟩ ⟨IEEE.fin 1, IEEE.fin 0, IEEE.fin 0⟩
        ⟨IEEE.fin 0, IEEE.fin 1, IEEE.fin 0⟩
      let c := (s.1.ProcessKeyPress KeyW Press 0).ProcessKeyPress KeyS Press 0
      ∃ c' gl', c.Update m s.2 (IEEE.fin 2) = some (c', gl') ∧
        c'.position = ⟨IEEE.fin 16777220, IEEE.fin 0, IEEE.fin 0⟩ ∧
        c.position.Add
          (((c.front.Mul (indicator true - indicator true)).Add
            ((c.front.Cross c.up).Mul (indicator false - indicator false))).Mul
              (c.cameraSpeed * IEEE.fin 2)) =
          ⟨IEEE.fin 16777218, IEEE.fin 0, IEEE.fin 0⟩) ∧
    (IEEE.fin 16777218 : Float32).IsFloat ∧ (IEEE.fin 16777220 : Float32).IsFloat := by
  have r0 : binary32.round 16777218 = 16777218 :=
    round_eq_self binary32 _ 24 8388609 (by norm_num) (by norm_num)
      (by norm_num [binary32]) (by norm_num [binary32])
  have r0' : binary32.round 16777220 = 16777220 :=
    round_eq_self binary32 _ 24 8388610 (by norm_num) (by norm_num)
      (by norm_num [binary32]) (by norm_num [binary32])
  have e0 : (IEEE.ofRat 16777218 : Float32) = IEEE.fin 16777218 :=
    IEEE.ofRat_eq_fin _ _ r0 (by norm_num [Format.maxFinite, binary32])
  have e1 : (IEEE.ofRat 16777223 : Float32) = IEEE.fin 16777224 :=
    IEEE.ofRat_eq _ _ 24 8388612 (by norm_num) (by norm_num)
      (by norm_num [binary32]) (by norm_num [binary32]) (by norm_num [binary32])
      (by norm_num [binary32]) (by norm_num [binary32])
      (by norm_num [Format.maxFinite, binary32])
  have e2 : (IEEE.ofRat 16777219 : Float32) = IEEE.fin 16777220 :=
    IEEE.ofRat_eq _ _ 24 8388610 (by norm_num) (by norm_num)
      (by norm_num [binary32]) (by norm_num [binary32]) (by norm_num [binary32])
      (by norm_num [binary32]) (by norm_num [binary32])
      (by norm_num [Format.maxFinite, binary32])
  refine ⟨?_, ⟨r0, by norm_num [Format.maxFinite, binary32]⟩,
    ⟨r0', by norm_num [Format.maxFinite, binary32]⟩⟩
  intro m s c
  refine ⟨_, _, Update_eq_some m c s.2 (IEEE.fin 2) ⟨KeyW, true⟩ ⟨KeyA, false⟩ ⟨KeyS, true⟩
    ⟨KeyD, false⟩ rfl rfl rfl rfl, ?_, ?_⟩
  · show ((Vec3.mk (IEEE.fin 16777218) (IEEE.fin 0) (IEEE.fin 0) : Vec3 Float32).Add
      ((Vec3.mk (IEEE.fin 1) (IEEE.fin 0) (IEEE.fin 0)).Mul ((2.5 : Float32) * IEEE.fin 2))).Sub
      ((Vec3.mk (IEEE.fin 1) (IEEE.fin 0) (IEEE.fin 0)).Mul ((2.5 : Float32) * IEEE.fin 2)) = _
    norm_num [Vec3.Add, Vec3.Sub, Vec3.Mul, IEEE.f32_25, IEEE.fin_add_fin, IEEE.fin_mul_fin,
      IEEE.fin_sub_fin, IEEE.f32_ofRat_ofNat, IEEE.ofRat_zero, IEEE.f32_ofRat_one, e1, e2]
  · show (Vec3.mk (IEEE.fin 16777218) (IEEE.fin 0) (IEEE.fin 0) : Vec3 Float32).Add
      ((((Vec3.mk (IEEE.fin 1) (IEEE.fin 0) (IEEE.fin 0)).Mul
          ((IEEE.fin 1 : Float32) - IEEE.fin 1)).Add
        (((Vec3.mk (IEEE.fin 1) (IEEE.fin 0) (IEEE.fin 0)).Cross
          (Vec3.mk (IEEE.fin 0) (IEEE.fin 1) (IEEE.fin 0))).Mul
            ((IEEE.fin 0 : Float32) - IEEE.fin 0))).Mul ((2.5 : Float32) * IEEE.fin 2)) = _
    norm_num [Vec3.Add, Vec3.Sub, Vec3.Mul, Vec3.Cross, IEEE.f32_25, IEEE.fin_add_fin,
      IEEE.fin_mul_fin, IEEE.fin_sub_fin, IEEE.f32_ofRat_ofNat, IEEE.ofRat_zero,
      IEEE.f32_ofRat_one, e0]

/-- C7, amended: for every camera state, every `dt` and every combination of the
pressed flags `w`, `a`, `s`, `d` of the four tracked keys, `Update(dt)` returns
and applies one step per pressed key, in the order w, a, s, d, to the position it
has reached so far: forward adds `front * (speed * dt)`, left subtracts
`(front x up) * (speed * dt)`, backward subtracts `front * (speed * dt)`, right
adds `(front x up) * (speed * dt)`, every operation rounded to `float32`, and a
key that is not pressed contributes no step; front, up and speed are unchanged.
In exact arithmetic the new position is
`position + ((w - s) * front + (d - a) * (front x up)) * (speed * dt)`, the flags
counting 1 for a pressed key and 0 otherwise. -/
theorem C7_update_applies_the_pressed_steps_in_order (m : GoMath Float64)
    (c : Camera Float32 Float64) (gl : GLState Float32) (deltaTime : Float32)
    (w a s d : Bool) (mE : GoMath F) (cE : Camera F) (glE : GLState F) (deltaTimeE : F) :
    (∃ c' gl',
      Camera.Update m { c with keys := trackedKeys w a s d } gl deltaTime = some (c', gl') ∧
      c'.position =
        (let p1 :=
          if w then c.position.Add (c.front.Mul (c.cameraSpeed * deltaTime)) else c.position
        let p2 :=
          if a then p1.Sub ((c.front.Cross c.up).Mul (c.cameraSpeed * deltaTime)) else p1
        let p3 := if s then p2.Sub (c.front.Mul (c.cameraSpeed * deltaTime)) else p2
        if d then p3.Add ((c.front.Cross c.up).Mul (c.cameraSpeed * deltaTime)) else p3) ∧
      c'.front = c.front ∧ c'.up = c.up ∧ c'.cameraSpeed = c.cameraSpeed) ∧
    (∃ c' gl',
      Camera.Update mE { cE with keys := trackedKeys w a s d } glE deltaTimeE =
        some (c', gl') ∧
      c'.position =
        cE.position.Add
          (((cE.front.Mul (indicator w - indicator s)).Add
            ((cE.front.Cross cE.up).Mul (indicator d - indicator a))).Mul
              (cE.cameraSpeed * deltaTimeE)) ∧
      c'.front = cE.front ∧ c'.up = cE.up ∧ c'.cameraSpeed = cE.cameraSpeed) := by
  constructor
  · exact ⟨_, _, Update_eq_some m _ gl deltaTime ⟨KeyW, w⟩ ⟨KeyA, a⟩ ⟨KeyS, s⟩ ⟨KeyD, d⟩
      rfl rfl rfl rfl, rfl, rfl, rfl, rfl⟩
  · refine ⟨_, _, Update_eq_some mE _ glE deltaTimeE ⟨KeyW, w⟩ ⟨KeyA, a⟩ ⟨KeyS, s⟩ ⟨KeyD, d⟩
      rfl rfl rfl rfl, ?_, rfl, rfl, rfl⟩
    cases w <;> cases a <;> cases s <;> cases d <;>
      simp [Vec3.Add, Vec3.Sub, Vec3.Mul, Vec3.Cross, indicator] <;>
      (try refine ⟨?_, ?_, ?_⟩) <;> ring

/-- C8: when the four tracked names are in the key map, `Update(dt)` returns, the
view's matrix is the look-at matrix of the moved position, the moved position
plus front, and up, and the matrix last sent to the view's uniform location is
that matrix; the location itself is unchanged. -/
theorem C8_update_recomputes_and_pushes_view (m : GoMath F) (c : Camera F) (gl : GLState F)
    (deltaTime : F) (w a s d : Key) (hw : c.keys.lookup "w" = some w)
    (ha : c.keys.lookup "a" = some a) (hs : c.keys.lookup "s" = some s)
    (hd : c.keys.lookup "d" = some d) :
    ∃ c' gl', c.Update m gl deltaTime = some (c', gl') ∧
      c'.view.matrix = LookAtV m c'.position (c'.position.Add c.front) c.up ∧
      c'.front = c.front ∧ c'.up = c.up ∧ c'.view.addr = c.view.addr ∧
      gl'.lastWritten c'.view.addr = some c'.view.matrix := by
  refine ⟨_, _, Update_eq_some m c gl deltaTime w a s d hw ha hs hd, rfl, rfl, rfl, rfl, ?_⟩
  simp [GLState.lastWritten, GLState.UniformMatrix4fv, Transformation.UpdateUniform,
    View.UpdateCameraLocation]

/-- Witness of C8: the camera `NewCamera` returns, with `s` pressed, over a
sixtieth of a second. -/
theorem C8_update_recomputes_and_pushes_view_witness :
    let m : GoMath ℝ := ⟨Real.cos, Real.sin, Real.sqrt, Real.pi⟩
    let s := NewCamera m ⟨fun _ _ => 7, []⟩ 1 "camera" ⟨0, 0, 3⟩ ⟨0, 0, -1⟩ ⟨0, 1, 0⟩
    let c := s.1.ProcessKeyPress KeyS Press 0
    c.keys.lookup "w" = some ⟨KeyW, false⟩ ∧ c.keys.lookup "a" = some ⟨KeyA, false⟩ ∧
      c.keys.lookup "s" = some ⟨KeyS, true⟩ ∧ c.keys.lookup "d" = some ⟨KeyD, false⟩ ∧
      ∃ c' gl', c.Update m s.2 (1 / 60) = some (c', gl') ∧
        c'.view.matrix = LookAtV m c'.position (c'.position.Add c.front) c.up ∧
        c'.front = c.front ∧ c'.up = c.up ∧ c'.view.addr = c.view.addr ∧
        gl'.lastWritten c'.view.addr = some c'.view.matrix := by
  intro m s c
  exact ⟨rfl, rfl, rfl, rfl,
    C8_update_recomputes_and_pushes_view m c s.2 (1 / 60) ⟨KeyW, false⟩ ⟨KeyA, false⟩
      ⟨KeyS, true⟩ ⟨KeyD, false⟩ rfl rfl rfl rfl⟩

/-- C9: on a key map holding the four tracked keys `W`, `A`, `S`, `D` under the
names `w`, `a`, `s`, `d` (in any iteration order), `ProcessKeyPress` yields the
same map with each flag replaced by `flagAfterEvent`: a press or repeat of a
tracked key sets its flag, a release clears it, and every other flag is kept. An
event for a key different from the four leaves the map as it was, no other field
of the camera changes, and `HandleKeyPress` leaves this same camera. -/
theorem C9_key_event_sets_only_its_flag {G : Type} (c : Camera G) (w a s d : Bool)
    (h : c.keys.Perm (trackedKeys w a s d)) (key action mods : Int) :
    (c.ProcessKeyPress key action mods).keys.Perm
        (trackedKeys (flagAfterEvent KeyW key action w) (flagAfterEvent KeyA key action a)
          (flagAfterEvent KeyS key action s) (flagAfterEvent KeyD key action d)) ∧
      c.ProcessKeyPress key action mods =
        { c with keys := (c.ProcessKeyPress key action mods).keys } ∧
      (key ≠ KeyW → key ≠ KeyA → key ≠ KeyS → key ≠ KeyD →
        (c.ProcessKeyPress key action mods).keys = c.keys) ∧
      ∀ (win : Window) (scancode : Int),
        (HandleKeyPress win c key scancode action mods).2 =
          c.ProcessKeyPress key action mods := by
  have hpw : c.keys.Pairwise (fun e1 e2 => e1.2.Key ≠ e2.2.Key) := by
    refine (List.Perm.pairwise_iff (fun hxy => Ne.symm hxy) h).mpr ?_
    simp [trackedKeys, KeyW, KeyA, KeyS, KeyD]
  have hloop := loop_eq_map key action c.keys hpw
  refine ⟨?_, rfl, ?_, fun _ _ => rfl⟩
  · show (ProcessKeyPress.loop key action c.keys).Perm _
    rw [hloop]
    exact h.map _
  · intro hW hA hS hD
    show ProcessKeyPress.loop key action c.keys = c.keys
    rw [hloop]
    refine (List.map_congr_left ?_).trans (List.map_id c.keys)
    intro e he
    have hmem := h.subset he
    simp only [trackedKeys, List.mem_cons, List.mem_singleton, List.not_mem_nil, or_false]
      at hmem
    rcases hmem with rfl | rfl | rfl | rfl <;> simp [flagAfterEvent, hW, hA, hS, hD]

/-- Witness of C9: the camera `NewCamera` returns receives a press of `W`. -/
theorem C9_key_event_sets_only_its_flag_witness :
    let m : GoMath ℝ := ⟨Real.cos, Real.sin, Real.sqrt, Real.pi⟩
    let c := (NewCamera m ⟨fun _ _ => 0, []⟩ 1 "camera" ⟨0, 0, 3⟩ ⟨0, 0, -1⟩ ⟨0, 1, 0⟩).1
    c.keys.Perm (trackedKeys false false false false) ∧
      (c.ProcessKeyPress KeyW Press 0).keys.Perm
        (trackedKeys (flagAfterEvent KeyW KeyW Press false)
          (flagAfterEvent KeyA KeyW Press false) (flagAfterEvent KeyS KeyW Press false)
          (flagAfterEvent KeyD KeyW Press false)) ∧
      c.ProcessKeyPress KeyW Press 0 =
        { c with keys := (c.ProcessKeyPress KeyW Press 0).keys } ∧
      (KeyW ≠ KeyW → KeyW ≠ KeyA → KeyW ≠ KeyS → KeyW ≠ KeyD →
        (c.ProcessKeyPress KeyW Press 0).keys = c.keys) ∧
      ∀ (win : Window) (scancode : Int),
        (HandleKeyPress win c KeyW scancode Press 0).2 = c.ProcessKeyPress KeyW Press 0 := by
  intro m c
  exact ⟨List.Perm.refl _,
    C9_key_event_sets_only_its_flag c false false false false (List.Perm.refl _) KeyW Press 0⟩

/-- C10: after `t.UpdateMatrix(M)` the call `t.GetMatrix()` returns `M`. -/
theorem C10_update_then_get_matrix {G : Type} (t : Transformation G) (M : Mat4 G) :
    (t.UpdateMatrix M).GetMatrix = M := by
  rfl

/-- C11, as stated, fails: over the reals, for the eye `(0,0,0)`, the target
`(0,5,0)` and the up vector `(0,1,0)`, which is parallel to `target - eye` (their
cross product is zero), `NewView` does not fail: it returns a view holding
`LookAtV(eye, target, up)` and has sent that matrix to the uniform location. -/
theorem C11_NewView_returns_on_parallel_up :
    let m : GoMath ℝ := ⟨Real.cos, Real.sin, Real.sqrt, Real.pi⟩
    let eye : Vec3 ℝ := ⟨0, 0, 0⟩
    let target : Vec3 ℝ := ⟨0, 5, 0⟩
    let up : Vec3 ℝ := ⟨0, 1, 0⟩
    let r := NewView m ⟨fun _ _ => 3, []⟩ 1 "camera" eye target up
    (target.Sub eye).Cross up = ⟨0, 0, 0⟩ ∧
      r.1.matrix = LookAtV m eye target up ∧
      r.1.addr = 3 ∧
      r.2.lastWritten 3 = some (LookAtV m eye target up) := by
  intro m eye target up r
  refine ⟨?_, rfl, rfl, ?_⟩
  · simp [eye, target, up, Vec3.Sub, Vec3.Cross]
  · simp [r, NewView, GLState.lastWritten, GLState.UniformMatrix4fv]

/-- C11, amended: `NewView` has no error result. For every eye, target and up
vector, parallel or not, it returns a view whose matrix is
`LookAtV(eye, target, up)` and whose location is the one the backend gives for
the name, and that matrix is the one last sent to this location. -/
theorem C11_NewView_always_returns_a_view (m : GoMath F) (gl : GLState F) (program : Nat)
    (name : String) (position target up : Vec3 F) :
    (NewView m gl program name position target up).1.matrix = LookAtV m position target up ∧
      (NewView m gl program name position target up).1.addr =
        gl.GetUniformLocation program name ∧
      (NewView m gl program name position target up).2.lastWritten
          (gl.GetUniformLocation program name) = some (LookAtV m position target up) ∧
      (NewView m gl program name position target up).2.uniformCalls =
        (gl.GetUniformLocation program name, LookAtV m position target up) ::
          gl.uniformCalls := by
  refine ⟨rfl, rfl, ?_, rfl⟩
  simp [NewView, GLState.lastWritten, GLState.UniformMatrix4fv]

/-- C13: `UpdateMatrix` changes only the stored matrix. After any run of
`UpdateMatrix` calls the location returned by `GetAddr` is the one before, the
backend has received no call, so the matrix last sent to the location is the one
before; `GetMatrix` returns the last matrix given, and a following
`UpdateUniform` sends exactly that matrix. The run returns for every matrix. -/
theorem C13_UpdateMatrix_leaves_backend {G : Type} (t : Transformation G) (gl : GLState G)
    (M : Mat4 G) (Ms : List (Mat4 G)) :
    (t.UpdateMatrix M).GetAddr = t.GetAddr ∧
      (t.UpdateMatrix M).GetMatrix = M ∧
      (TransformationCall.UpdateMatrix M).apply (t, gl) = (t.UpdateMatrix M, gl) ∧
      (runTransformationCalls (t, gl) ((Ms ++ [M]).map TransformationCall.UpdateMatrix)).2
        = gl ∧
      (runTransformationCalls (t, gl)
        ((Ms ++ [M]).map TransformationCall.UpdateMatrix)).2.lastWritten t.GetAddr
        = gl.lastWritten t.GetAddr ∧
      (runTransformationCalls (t, gl)
        ((Ms ++ [M]).map TransformationCall.UpdateMatrix)).1.GetAddr = t.GetAddr ∧
      (runTransformationCalls (t, gl)
        ((Ms ++ [M]).map TransformationCall.UpdateMatrix)).1.GetMatrix = M ∧
      (runTransformationCalls (t, gl)
        ((Ms ++ [M]).map TransformationCall.UpdateMatrix ++
          [TransformationCall.UpdateUniform])).2.lastWritten t.GetAddr = some M := by
  have hrun := runTransformationCalls_UpdateMatrix (Ms ++ [M]) t gl
  have hlast : (Ms ++ [M]).getLast?.getD t.matrix = M := by simp
  rw [hlast] at hrun
  have happ : ∀ (calls : List (TransformationCall G)) (s : Transformation G × GLState G),
      runTransformationCalls s (calls ++ [TransformationCall.UpdateUniform]) =
        ((runTransformationCalls s calls).1,
          (runTransformationCalls s calls).1.UpdateUniform (runTransformationCalls s calls).2) := by
    intro calls
    induction calls with
    | nil => intro s; rfl
    | cons call rest ih => intro s; simpa [runTransformationCalls] using ih _
  refine ⟨rfl, rfl, rfl, ?_, ?_, ?_, ?_, ?_⟩
  · rw [hrun]
  · rw [hrun]
  · rw [hrun]; rfl
  · rw [hrun]; rfl
  · rw [happ, hrun]
    simp [Transformation.UpdateUniform, GLState.UniformMatrix4fv, GLState.lastWritten,
      Transformation.GetAddr]

/-- C14, as stated, fails in `float64`: the camera `NewCamera` returns, in the
Tracking state after the sample `(0, 0)`, stores a NaN pitch at the sample
`(0, NaN)`, which is no value of `[-89, 89]`; and after the further sample
`(0, 0)` the move up to `(0, -10)` (`y` decreasing) does not satisfy
`pitch <= pitch'`, the pitch being NaN before and after. -/
theorem C14_nan_sample_is_not_clamped :
    (∀ m : GoMath Float64,
      let s := NewCamera m ⟨fun _ _ => 0, []⟩ 1 "camera" ⟨0, 0, 3⟩ ⟨0, 0, -1⟩ ⟨0, 1, 0⟩
      let c := s.1.ProcessMouseMove m 0 0
      let c1 := (c.ProcessMouseMove m 0 IEEE.nan).ProcessMouseMove m 0 0
      c.firstPos = false ∧ (c.ProcessMouseMove m 0 IEEE.nan).pitch = IEEE.nan ∧
        c1.firstPos = false ∧ c1.ypos = 0 ∧ c1.pitch = IEEE.nan ∧
        (c1.ProcessMouseMove m 0 (IEEE.fin (-10))).pitch = IEEE.nan ∧
        ¬ (c1.pitch ≤ (c1.ProcessMouseMove m 0 (IEEE.fin (-10))).pitch)) ∧
    (IEEE.fin (-10) : Float64) ≤ 0 ∧
    ¬ ((-89.0 : Float64) ≤ IEEE.nan ∧ (IEEE.nan : Float64) ≤ 89.0) := by
  have e1 : clampPitch ((0 : Float64) + ((0 : Float64) - IEEE.nan) * 0.2) = IEEE.nan := by
    rw [IEEE.sub_nan, IEEE.nan_mul, IEEE.add_nan, clampPitch_nan]
  have e2 : ∀ a b : Float64, clampPitch ((IEEE.nan : Float64) + (a - b) * 0.2) = IEEE.nan := by
    intro a b
    rw [IEEE.nan_add, clampPitch_nan]
  refine ⟨?_, ?_, ?_⟩
  · intro m s c c1
    have h1 : (c.ProcessMouseMove m 0 IEEE.nan).pitch = IEEE.nan := e1
    have h2 : c1.pitch = IEEE.nan := by
      show clampPitch ((c.ProcessMouseMove m 0 IEEE.nan).pitch + _) = _
      rw [h1]
      exact e2 _ _
    have h3 : (c1.ProcessMouseMove m 0 (IEEE.fin (-10))).pitch = IEEE.nan := by
      show clampPitch (c1.pitch + _) = _
      rw [h2]
      exact e2 _ _
    refine ⟨rfl, h1, rfl, rfl, h2, h3, ?_⟩
    rw [h2]
    exact IEEE.not_nan_le _
  · show (IEEE.fin (-10) : Float64) ≤ IEEE.fin 0
    rw [IEEE.fin_le_fin]
    norm_num
  · intro h
    exact IEEE.not_nan_le _ h.2

/-- C14, amended: in `float64`, for every `x` and `y`, a `ProcessMouseMove(x, y)`
made in the Tracking state (`firstPos = false`) sets yaw to
`yaw + 0.2*(x - lastX)`, records `(x, y)` as the last mouse position, and sets
pitch from the sum `pitch + 0.2*(lastY - y)`, every operation rounded to
`float64`: a NaN sum is stored as NaN, a sum above 89 as 89, a sum below -89 as
-89, and any other sum as it is, so that the stored pitch satisfies
`-89 <= pitch <= 89` unless the sum is NaN. When the pitch before the call is a
`float64` value with `-89 <= pitch <= 89`, `y <= lastY` (the mouse moves up) and
`lastY - y` is not NaN, the call does not decrease the pitch. -/
theorem C14_tracking_move_in_float64 (m : GoMath Float64) (c : Camera Float32 Float64)
    (x y : Float64) (h : c.firstPos = false) :
    (c.ProcessMouseMove m x y).yaw = c.yaw + 0.2 * (x - c.xpos) ∧
    (c.ProcessMouseMove m x y).xpos = x ∧
    (c.ProcessMouseMove m x y).ypos = y ∧
    (c.ProcessMouseMove m x y).firstPos = false ∧
    (c.pitch + 0.2 * (c.ypos - y) = IEEE.nan → (c.ProcessMouseMove m x y).pitch = IEEE.nan) ∧
    (89.0 < c.pitch + 0.2 * (c.ypos - y) → (c.ProcessMouseMove m x y).pitch = 89.0) ∧
    (c.pitch + 0.2 * (c.ypos - y) < -89.0 → (c.ProcessMouseMove m x y).pitch = -89.0) ∧
    (-89.0 ≤ c.pitch + 0.2 * (c.ypos - y) ∧ c.pitch + 0.2 * (c.ypos - y) ≤ 89.0 →
      (c.ProcessMouseMove m x y).pitch = c.pitch + 0.2 * (c.ypos - y)) ∧
    (c.pitch + 0.2 * (c.ypos - y) ≠ IEEE.nan →
      -89.0 ≤ (c.ProcessMouseMove m x y).pitch ∧ (c.ProcessMouseMove m x y).pitch ≤ 89.0) ∧
    (c.pitch.IsFloat → -89.0 ≤ c.pitch ∧ c.pitch ≤ 89.0 → y ≤ c.ypos →
      c.ypos - y ≠ IEEE.nan → c.pitch ≤ (c.ProcessMouseMove m x y).pitch) := by
  obtain ⟨t1, t2, t3, t4, t5, -⟩ := ProcessMouseMove_tracking m c x y h
  have hp : (c.ProcessMouseMove m x y).pitch = clampPitch (c.pitch + 0.2 * (c.ypos - y)) := by
    rw [t5, IEEE.mul_comm_eq]
  obtain ⟨k1, k2, k3, k4⟩ := clampPitch_cases (c.pitch + 0.2 * (c.ypos - y))
  refine ⟨?_, t2, t3, t1, ?_, ?_, ?_, ?_, ?_, ?_⟩
  · rw [t4, IEEE.neg_sub_eq, IEEE.mul_comm_eq]
  · rw [hp]; exact k1
  · rw [hp]; exact k2
  · rw [hp]; exact k3
  · rw [hp]; exact k4
  · intro hn
    rw [hp, range_iff]
    exact clampPitch_range _ hn
  · intro hf hr hy hd
    rw [hp]
    obtain ⟨p, hpq, hlo, hhi⟩ := (range_iff c.pitch).mp hr
    rw [hpq] at hf ⊢
    apply le_clampPitch p _ hlo hhi
    apply IEEE.fin_le_add (by norm_num [binary64]) p _ hf
    rw [IEEE.mul_comm_eq, IEEE.f64_02]
    exact IEEE.zero_le_mul_fin _ _ (IEEE.zero_le_sub _ _ hy hd) (by norm_num)
/-- Witness of C14: the camera `NewCamera` returns, after its baseline sample at
`(400, 300)`, receives the sample `(410, 280)`, a move up from the pitch 0. -/
theorem C14_tracking_move_in_float64_witness :
    (∀ m : GoMath Float64,
      let s := NewCamera m ⟨fun _ _ => 0, []⟩ 1 "camera" ⟨0, 0, 3⟩ ⟨0, 0, -1⟩ ⟨0, 1, 0⟩
      let c := s.1.ProcessMouseMove m (IEEE.fin 400) (IEEE.fin 300)
      let c' := c.ProcessMouseMove m (IEEE.fin 410) (IEEE.fin 280)
      c.firstPos = false ∧ c.pitch.IsFloat ∧ (-89.0 ≤ c.pitch ∧ c.pitch ≤ 89.0) ∧
        IEEE.fin 280 ≤ c.ypos ∧ c.ypos - IEEE.fin 280 ≠ IEEE.nan ∧
        c'.yaw = c.yaw + 0.2 * (IEEE.fin 410 - c.xpos) ∧
        c'.xpos = IEEE.fin 410 ∧ c'.ypos = IEEE.fin 280 ∧ c'.firstPos = false ∧
        c.pitch ≤ c'.pitch) ∧
    (IEEE.fin 280 : Float64) ≤ IEEE.fin 300 := by
  have hy : (IEEE.fin 280 : Float64) ≤ IEEE.fin 300 := by
    rw [IEEE.fin_le_fin]
    norm_num
  refine ⟨?_, hy⟩
  intro m s c c'
  have h := C14_tracking_move_in_float64 m c (IEEE.fin 410) (IEEE.fin 280) rfl
  have hf : c.pitch.IsFloat := ⟨round_zero _, by rw [abs_zero]; exact IEEE.maxFinite_nonneg _⟩
  have hr : -89.0 ≤ c.pitch ∧ c.pitch ≤ 89.0 :=
    (range_iff _).mpr ⟨0, rfl, by norm_num, by norm_num⟩
  have hd : c.ypos - IEEE.fin 280 ≠ IEEE.nan := by
    show (IEEE.fin 300 : Float64) - IEEE.fin 280 ≠ IEEE.nan
    rw [IEEE.fin_sub_fin]
    exact IEEE.ofRat_ne_nan _
  exact ⟨rfl, hf, hr, hy, hd, h.1, h.2.1, h.2.2.1, h.2.2.2.1,
    h.2.2.2.2.2.2.2.2.2 hf hr hy hd⟩

/-- C15: after a `ProcessMouseMove` made in the Tracking state, front is the
normalized spherical-coordinate vector of the yaw and pitch this call stored. It
is determined by the stored yaw and pitch alone: two cameras that store the same
yaw and pitch store the same front, and replacing the previous front by any
other vector changes nothing in the result. -/
theorem C15_front_is_spherical_direction (m : GoMath F) (c : Camera F) (xpos ypos : F)
    (h : c.firstPos = false) :
    (c.ProcessMouseMove m xpos ypos).front =
        (sphericalDirection m (c.ProcessMouseMove m xpos ypos).yaw
          (c.ProcessMouseMove m xpos ypos).pitch).Normalize m ∧
      (∀ (c2 : Camera F) (x2 y2 : F), c2.firstPos = false →
        (c2.ProcessMouseMove m x2 y2).yaw = (c.ProcessMouseMove m xpos ypos).yaw →
        (c2.ProcessMouseMove m x2 y2).pitch = (c.ProcessMouseMove m xpos ypos).pitch →
        (c2.ProcessMouseMove m x2 y2).front = (c.ProcessMouseMove m xpos ypos).front) ∧
      ∀ front : Vec3 F,
        Camera.ProcessMouseMove m { c with front := front } xpos ypos =
          c.ProcessMouseMove m xpos ypos := by
  have key : ∀ (c1 : Camera F) (x1 y1 : F), c1.firstPos = false →
      (c1.ProcessMouseMove m x1 y1).front =
        (sphericalDirection m (c1.ProcessMouseMove m x1 y1).yaw
          (c1.ProcessMouseMove m x1 y1).pitch).Normalize m := by
    intro c1 x1 y1 h1
    simp [Camera.ProcessMouseMove, h1, sphericalDirection]
  refine ⟨key c xpos ypos h, ?_, ?_⟩
  · intro c2 x2 y2 h2 hy hp
    rw [key c2 x2 y2 h2, key c xpos ypos h, hy, hp]
  · intro front
    simp [Camera.ProcessMouseMove, h]

/-- Witness of C15: the camera `NewCamera` returns, after its baseline sample at
`(400, 300)`, receives the sample `(410, 280)`. -/
theorem C15_front_is_spherical_direction_witness :
    let m : GoMath ℝ := ⟨Real.cos, Real.sin, Real.sqrt, Real.pi⟩
    let s := NewCamera m ⟨fun _ _ => 0, []⟩ 1 "camera" ⟨0, 0, 3⟩ ⟨0, 0, -1⟩ ⟨0, 1, 0⟩
    let c := s.1.ProcessMouseMove m 400 300
    c.firstPos = false ∧
      (c.ProcessMouseMove m 410 280).front =
        (sphericalDirection m (c.ProcessMouseMove m 410 280).yaw
          (c.ProcessMouseMove m 410 280).pitch).Normalize m ∧
      (∀ (c2 : Camera ℝ) (x2 y2 : ℝ), c2.firstPos = false →
        (c2.ProcessMouseMove m x2 y2).yaw = (c.ProcessMouseMove m 410 280).yaw →
        (c2.ProcessMouseMove m x2 y2).pitch = (c.ProcessMouseMove m 410 280).pitch →
        (c2.ProcessMouseMove m x2 y2).front = (c.ProcessMouseMove m 410 280).front) ∧
      ∀ front : Vec3 ℝ,
        Camera.ProcessMouseMove m { c with front := front } 410 280 =
          c.ProcessMouseMove m 410 280 := by
  intro m s c
  exact ⟨rfl, C15_front_is_spherical_direction m c 410 280 rfl⟩

/-- C16, as stated, fails in float arithmetic. The camera `NewCamera` returns, in
the Tracking state after the sample `(0, 0)`, stores a NaN pitch at the sample
`(0, NaN)`, which does not lie in `[-89, 89]`. And at the position
`(50331648, 50331648, 50331648)`, where neighbouring `float32` values are 4
apart, every front with finite components of magnitude at most 2 is absorbed:
`position + front = position`, so the view direction
`(position + front) - position` that `Update` hands to `LookAtV` is the zero
vector, and so is its cross product with `(0, 1, 0)`. -/
theorem C16_nan_pitch_and_absorbed_front :
    (∀ m : GoMath Float64,
      let s := NewCamera m ⟨fun _ _ => 0, []⟩ 1 "camera" ⟨0, 0, 3⟩ ⟨0, 0, -1⟩ ⟨0, 1, 0⟩
      let c := s.1.ProcessMouseMove m 0 0
      c.firstPos = false ∧ (c.ProcessMouseMove m 0 IEEE.nan).pitch = IEEE.nan ∧
        ¬ (-89.0 ≤ (c.ProcessMouseMove m 0 IEEE.nan).pitch ∧
          (c.ProcessMouseMove m 0 IEEE.nan).pitch ≤ 89.0)) ∧
    (∀ fx fy fz : ℚ, |fx| ≤ 2 → |fy| ≤ 2 → |fz| ≤ 2 →
      let position : Vec3 Float32 :=
        ⟨IEEE.fin 50331648, IEEE.fin 50331648, IEEE.fin 50331648⟩
      let front : Vec3 Float32 := ⟨IEEE.fin fx, IEEE.fin fy, IEEE.fin fz⟩
      position.Add front = position ∧
        (position.Add front).Sub position = ⟨IEEE.fin 0, IEEE.fin 0, IEEE.fin 0⟩ ∧
        ((position.Add front).Sub position).Cross ⟨0, 1, 0⟩ = ⟨0, 0, 0⟩) := by
  constructor
  · intro m s c
    have e1 : (c.ProcessMouseMove m 0 IEEE.nan).pitch = IEEE.nan := by
      show clampPitch ((0 : Float64) + ((0 : Float64) - IEEE.nan) * 0.2) = IEEE.nan
      rw [IEEE.sub_nan, IEEE.nan_mul, IEEE.add_nan, clampPitch_nan]
    refine ⟨rfl, e1, ?_⟩
    rw [e1]
    intro h
    exact IEEE.not_nan_le _ h.2
  · intro fx fy fz hx hy hz position front
    have absorb : ∀ f : ℚ, |f| ≤ 2 →
        (IEEE.fin 50331648 + IEEE.fin f : Float32) = IEEE.fin 50331648 := by
      intro f hf
      obtain ⟨f1, f2⟩ := abs_le.mp hf
      rw [IEEE.fin_add_fin]
      exact IEEE.ofRat_eq _ _ 25 12582912
        (by rw [abs_of_pos (by linarith)]; norm_num; linarith)
        (by rw [abs_of_pos (by linarith)]; norm_num; linarith)
        (by norm_num [binary32])
        (by norm_num [binary32]; linarith)
        (by norm_num [binary32]; linarith)
        (by intro _; rfl)
        (by norm_num [binary32])
        (by norm_num [Format.maxFinite, binary32])
    have hadd : position.Add front = position := by
      show Vec3.mk (IEEE.fin 50331648 + IEEE.fin fx) (IEEE.fin 50331648 + IEEE.fin fy)
        (IEEE.fin 50331648 + IEEE.fin fz) = _
      rw [absorb fx hx, absorb fy hy, absorb fz hz]
    have hsub : position.Sub position = ⟨IEEE.fin 0, IEEE.fin 0, IEEE.fin 0⟩ := by
      show Vec3.mk (IEEE.fin 50331648 - IEEE.fin 50331648 : Float32)
        (IEEE.fin 50331648 - IEEE.fin 50331648) (IEEE.fin 50331648 - IEEE.fin 50331648) = _
      rw [IEEE.fin_sub_fin, sub_self, IEEE.ofRat_zero]
    refine ⟨hadd, ?_, ?_⟩
    · rw [hadd]
      exact hsub
    · rw [hadd, hsub]
      show Vec3.mk (IEEE.fin 0 * IEEE.fin 0 - IEEE.fin 0 * IEEE.fin 1 : Float32)
        (IEEE.fin 0 * IEEE.fin 0 - IEEE.fin 0 * IEEE.fin 0)
        (IEEE.fin 0 * IEEE.fin 1 - IEEE.fin 0 * IEEE.fin 0) = ⟨IEEE.fin 0, IEEE.fin 0, IEEE.fin 0⟩
      norm_num [IEEE.fin_mul_fin, IEEE.fin_sub_fin, IEEE.ofRat_zero]

/-- C16, amended. In `float64` and `float32`, for a math library whose results
stay within loose bounds of the real functions (for the radians of an angle of
`[-89, 89]` degrees a cosine between 1/128 and 1 and a sine of magnitude at most
1; for every finite angle a cosine and a sine of magnitude at most 1, one of them
of magnitude at least 1/2; for a number between `2 ^ -16` and 4 a square root
between `2 ^ -8` and 2): after a `ProcessMouseMove` made in the Tracking state
that stores a pitch other than NaN and a yaw whose radians are finite, the stored
pitch satisfies `-89 <= pitch <= 89`, the cosine of its radians is positive, the
horizontal part of front satisfies `x^2 + z^2 > 0`, `front x (0,1,0)` is not the
zero vector, and for every position with coordinates of magnitude at most 16384
the view direction `(position + front) - position` that `Update` hands to
`LookAtV` is not parallel to the up vector `(0,1,0)`. Over the reals, with the
real cosine, sine, square root and pi, the same holds after every Tracking-state
`ProcessMouseMove` and for every position. -/
theorem C16_front_not_parallel_within_bounds (m : GoMath Float64)
    (c : Camera Float32 Float64) (x y : Float64) (cE : Camera ℝ) (xE yE : ℝ)
    (hcos : ∀ p : ℚ, -89 ≤ p → p ≤ 89 → ∃ r b, m.Cos (DegToRad m (IEEE.fin p)) = IEEE.fin r ∧
      m.Sin (DegToRad m (IEEE.fin p)) = IEEE.fin b ∧ 1 / 128 ≤ r ∧ r ≤ 1 ∧ |b| ≤ 1)
    (hyaw : ∀ t : ℚ, ∃ a b, m.Cos (IEEE.fin t) = IEEE.fin a ∧ m.Sin (IEEE.fin t) = IEEE.fin b ∧
      |a| ≤ 1 ∧ |b| ≤ 1 ∧ (1 / 2 ≤ |a| ∨ 1 / 2 ≤ |b|))
    (hsqrt : ∀ q : ℚ, 1 / 65536 ≤ q → q ≤ 4 →
      ∃ r, m.Sqrt (IEEE.fin q) = IEEE.fin r ∧ 1 / 256 ≤ r ∧ r ≤ 2)
    (h : c.firstPos = false) (hp : (c.ProcessMouseMove m x y).pitch ≠ IEEE.nan)
    (hy : ∃ t : ℚ, DegToRad m (c.ProcessMouseMove m x y).yaw = IEEE.fin t)
    (hE : cE.firstPos = false) :
    ((-89.0 ≤ (c.ProcessMouseMove m x y).pitch ∧ (c.ProcessMouseMove m x y).pitch ≤ 89.0) ∧
      0 < m.Cos (DegToRad m (c.ProcessMouseMove m x y).pitch) ∧
      0 < (c.ProcessMouseMove m x y).front.x * (c.ProcessMouseMove m x y).front.x +
          (c.ProcessMouseMove m x y).front.z * (c.ProcessMouseMove m x y).front.z ∧
      (c.ProcessMouseMove m x y).front.Cross ⟨0, 1, 0⟩ ≠ ⟨0, 0, 0⟩ ∧
      ∀ px py pz : ℚ, |px| ≤ 16384 → |py| ≤ 16384 → |pz| ≤ 16384 →
        (((Vec3.mk (IEEE.fin px) (IEEE.fin py) (IEEE.fin pz)).Add
          (c.ProcessMouseMove m x y).front).Sub
            ⟨IEEE.fin px, IEEE.fin py, IEEE.fin pz⟩).Cross ⟨0, 1, 0⟩ ≠ ⟨0, 0, 0⟩) ∧
    (0 < Real.cos (DegToRad ⟨Real.cos, Real.sin, Real.sqrt, Real.pi⟩
        (cE.ProcessMouseMove ⟨Real.cos, Real.sin, Real.sqrt, Real.pi⟩ xE yE).pitch) ∧
      0 < (cE.ProcessMouseMove ⟨Real.cos, Real.sin, Real.sqrt, Real.pi⟩ xE yE).front.x *
            (cE.ProcessMouseMove ⟨Real.cos, Real.sin, Real.sqrt, Real.pi⟩ xE yE).front.x +
          (cE.ProcessMouseMove ⟨Real.cos, Real.sin, Real.sqrt, Real.pi⟩ xE yE).front.z *
            (cE.ProcessMouseMove ⟨Real.cos, Real.sin, Real.sqrt, Real.pi⟩ xE yE).front.z ∧
      (cE.ProcessMouseMove ⟨Real.cos, Real.sin, Real.sqrt, Real.pi⟩ xE yE).front.Cross
        ⟨0, 1, 0⟩ ≠ ⟨0, 0, 0⟩ ∧
      ∀ position : Vec3 ℝ,
        ((position.Add
          (cE.ProcessMouseMove ⟨Real.cos, Real.sin, Real.sqrt, Real.pi⟩ xE yE).front).Sub
            position).Cross ⟨0, 1, 0⟩ ≠ ⟨0, 0, 0⟩) := by
  constructor
  · obtain ⟨⟨p, r, hpq, hlo, hhi, er, r1⟩, fx, fy, fz, ef, b1, b2, b3, b4⟩ :=
      front_after_move m c x y hcos hyaw hsqrt h hp hy
    have k1 : (IEEE.fin 256 : Float32).IsFloat := by
      have := f32_isFloat_two_zpow 8 (by norm_num) (by norm_num)
      norm_num at this
      simpa using this
    have k2 : (IEEE.fin (1 / 512) : Float32).IsFloat := by
      have := f32_isFloat_two_zpow (-9) (by norm_num) (by norm_num)
      norm_num at this
      simpa using this
    have k3 : (IEEE.fin 512 : Float32).IsFloat := by
      have := f32_isFloat_two_zpow 9 (by norm_num) (by norm_num)
      norm_num at this
      simpa using this
    have k4 : (IEEE.fin (1 / 1024) : Float32).IsFloat := by
      have := f32_isFloat_two_zpow (-10) (by norm_num) (by norm_num)
      norm_num at this
      simpa using this
    refine ⟨(range_iff _).mpr ⟨p, hpq, hlo, hhi⟩, ?_, ?_, ?_, ?_⟩
    · rw [er, IEEE.zero_eq_fin, IEEE.fin_lt_fin]
      linarith
    · rw [ef]
      exact horizontal_squares_pos fx fz b1 b3 b4
    · rw [ef]
      exact cross_up_ne_zero fx fy fz (1 / 512) 256 k2 k1 (by norm_num) b1 b3 b4
    · intro px py pz hpx hpy hpz
      obtain ⟨dx, ex, dx1, dxl⟩ := view_component px fx hpx b1
      obtain ⟨dy, ey, -, -⟩ := view_component py fy hpy b2
      obtain ⟨dz, ez, dz1, dzl⟩ := view_component pz fz hpz b3
      have hd : ((Vec3.mk (IEEE.fin px) (IEEE.fin py) (IEEE.fin pz)).Add
          (c.ProcessMouseMove m x y).front).Sub ⟨IEEE.fin px, IEEE.fin py, IEEE.fin pz⟩ =
          ⟨IEEE.fin dx, IEEE.fin dy, IEEE.fin dz⟩ := by
        rw [ef]
        show Vec3.mk (IEEE.fin px + IEEE.fin fx - IEEE.fin px : Float32)
          (IEEE.fin py + IEEE.fin fy - IEEE.fin py) (IEEE.fin pz + IEEE.fin fz - IEEE.fin pz) = _
        rw [ex, ey, ez]
      rw [hd]
      apply cross_up_ne_zero dx dy dz (1 / 1024) 512 k4 k3 (by norm_num) dx1 dz1
      rcases b4 with h1 | h1
      · exact Or.inl (dxl h1)
      · exact Or.inr (dzl h1)
  · obtain ⟨hlo, hhi⟩ := clampPitch_bounds (cE.pitch + (cE.ypos - yE) * 0.2)
    have hcosE := cos_DegToRad_pos _ hlo hhi
    have hfront :
        (cE.ProcessMouseMove ⟨Real.cos, Real.sin, Real.sqrt, Real.pi⟩ xE yE).front =
        sphericalDirection ⟨Real.cos, Real.sin, Real.sqrt, Real.pi⟩
          (cE.yaw + -(cE.xpos - xE) * 0.2) (clampPitch (cE.pitch + (cE.ypos - yE) * 0.2)) := by
      simp only [Camera.ProcessMouseMove, hE, Bool.false_eq_true, if_false]
      exact Normalize_of_sq _ (spherical_sq _ _)
    have hpitch :
        (cE.ProcessMouseMove ⟨Real.cos, Real.sin, Real.sqrt, Real.pi⟩ xE yE).pitch =
        clampPitch (cE.pitch + (cE.ypos - yE) * 0.2) := by
      simp only [Camera.ProcessMouseMove, hE, Bool.false_eq_true, if_false]
    have hxz :
        0 < (cE.ProcessMouseMove ⟨Real.cos, Real.sin, Real.sqrt, Real.pi⟩ xE yE).front.x *
          (cE.ProcessMouseMove ⟨Real.cos, Real.sin, Real.sqrt, Real.pi⟩ xE yE).front.x +
        (cE.ProcessMouseMove ⟨Real.cos, Real.sin, Real.sqrt, Real.pi⟩ xE yE).front.z *
          (cE.ProcessMouseMove ⟨Real.cos, Real.sin, Real.sqrt, Real.pi⟩ xE yE).front.z := by
      rw [hfront]
      simp only [sphericalDirection, toFloat32_exact]
      have hy := Real.cos_sq_add_sin_sq
        (DegToRad ⟨Real.cos, Real.sin, Real.sqrt, Real.pi⟩ (cE.yaw + -(cE.xpos - xE) * 0.2))
      nlinarith [mul_pos hcosE hcosE]
    have hcross : ∀ v : Vec3 ℝ, 0 < v.x * v.x + v.z * v.z → v.Cross ⟨0, 1, 0⟩ ≠ ⟨0, 0, 0⟩ := by
      intro v hv hzero
      have hx := congrArg Vec3.x hzero
      have hz := congrArg Vec3.z hzero
      simp [Vec3.Cross] at hx hz
      rw [hx, hz] at hv
      simp at hv
    refine ⟨by rw [hpitch]; exact hcosE, hxz, hcross _ hxz, ?_⟩
    intro position
    apply hcross
    simpa [Vec3.Add, Vec3.Sub] using hxz

/-- Witness of C16. The assumptions on the math library can be met together: the
stand-in library of the witness has the constant cosine 1, sine 0 and square
root 1, and the `float64` value of pi. The camera `NewCamera` returns, after its
baseline sample at `(400, 300)`, receives the sample `(400, 280)`; over the
reals it receives the sample `(410, -2000)`, which clamps the pitch at 89. -/
theorem C16_front_not_parallel_within_bounds_witness :
    let m : GoMath Float64 :=
      ⟨fun _ => IEEE.fin 1, fun _ => IEEE.fin 0, fun _ => IEEE.fin 1,
        IEEE.fin (884279719003555 / 281474976710656)⟩
    let c := (NewCamera m ⟨fun _ _ => 0, []⟩ 1 "camera" ⟨0, 0, 3⟩ ⟨0, 0, -1⟩
      ⟨0, 1, 0⟩).1.ProcessMouseMove m (IEEE.fin 400) (IEEE.fin 300)
    let c' := c.ProcessMouseMove m (IEEE.fin 400) (IEEE.fin 280)
    let mE : GoMath ℝ := ⟨Real.cos, Real.sin, Real.sqrt, Real.pi⟩
    let cE := (NewCamera mE ⟨fun _ _ => 0, []⟩ 1 "camera" ⟨0, 0, 3⟩ ⟨0, 0, -1⟩
      ⟨0, 1, 0⟩).1.ProcessMouseMove mE 400 300
    (∀ p : ℚ, -89 ≤ p → p ≤ 89 → ∃ r b, m.Cos (DegToRad m (IEEE.fin p)) = IEEE.fin r ∧
      m.Sin (DegToRad m (IEEE.fin p)) = IEEE.fin b ∧ 1 / 128 ≤ r ∧ r ≤ 1 ∧ |b| ≤ 1) ∧
    (∀ t : ℚ, ∃ a b, m.Cos (IEEE.fin t) = IEEE.fin a ∧ m.Sin (IEEE.fin t) = IEEE.fin b ∧
      |a| ≤ 1 ∧ |b| ≤ 1 ∧ (1 / 2 ≤ |a| ∨ 1 / 2 ≤ |b|)) ∧
    (∀ q : ℚ, 1 / 65536 ≤ q → q ≤ 4 →
      ∃ r, m.Sqrt (IEEE.fin q) = IEEE.fin r ∧ 1 / 256 ≤ r ∧ r ≤ 2) ∧
    c.firstPos = false ∧ c'.pitch ≠ IEEE.nan ∧ (∃ t : ℚ, DegToRad m c'.yaw = IEEE.fin t) ∧
    cE.firstPos = false ∧
    (-89.0 ≤ c'.pitch ∧ c'.pitch ≤ 89.0) ∧
    0 < m.Cos (DegToRad m c'.pitch) ∧
    0 < c'.front.x * c'.front.x + c'.front.z * c'.front.z ∧
    c'.front.Cross ⟨0, 1, 0⟩ ≠ ⟨0, 0, 0⟩ ∧
    (((Vec3.mk (IEEE.fin 0) (IEEE.fin 0) (IEEE.fin 3)).Add c'.front).Sub
      ⟨IEEE.fin 0, IEEE.fin 0, IEEE.fin 3⟩).Cross ⟨0, 1, 0⟩ ≠ ⟨0, 0, 0⟩ ∧
    0 < Real.cos (DegToRad mE (cE.ProcessMouseMove mE 410 (-2000)).pitch) ∧
    (cE.ProcessMouseMove mE 410 (-2000)).front.Cross ⟨0, 1, 0⟩ ≠ ⟨0, 0, 0⟩ := by
  intro m c c' mE cE
  have hcos : ∀ p : ℚ, -89 ≤ p → p ≤ 89 → ∃ r b, m.Cos (DegToRad m (IEEE.fin p)) = IEEE.fin r ∧
      m.Sin (DegToRad m (IEEE.fin p)) = IEEE.fin b ∧ 1 / 128 ≤ r ∧ r ≤ 1 ∧ |b| ≤ 1 :=
    fun p _ _ => ⟨1, 0, rfl, rfl, by norm_num, le_rfl, by norm_num⟩
  have hyaw : ∀ t : ℚ, ∃ a b, m.Cos (IEEE.fin t) = IEEE.fin a ∧
      m.Sin (IEEE.fin t) = IEEE.fin b ∧ |a| ≤ 1 ∧ |b| ≤ 1 ∧ (1 / 2 ≤ |a| ∨ 1 / 2 ≤ |b|) :=
    fun t => ⟨1, 0, rfl, rfl, by norm_num, by norm_num, Or.inl (by norm_num)⟩
  have hsqrt : ∀ q : ℚ, 1 / 65536 ≤ q → q ≤ 4 →
      ∃ r, m.Sqrt (IEEE.fin q) = IEEE.fin r ∧ 1 / 256 ≤ r ∧ r ≤ 2 :=
    fun q _ _ => ⟨1, rfl, by norm_num, by norm_num⟩
  have hp : c'.pitch ≠ IEEE.nan := by
    show clampPitch ((IEEE.fin 0 : Float64) + (IEEE.fin 300 - IEEE.fin 280) * 0.2) ≠ IEEE.nan
    obtain ⟨q, hq, -⟩ := (pitch_step (IEEE.fin 0) (IEEE.fin 300) (IEEE.fin 280)).2 0 rfl rfl
    rw [hq]
    exact fun h => by cases h
  have hy : ∃ t : ℚ, DegToRad m c'.yaw = IEEE.fin t := by
    have k1 : (IEEE.fin 512 : Float64).IsFloat := by
      have := f64_isFloat_two_zpow 9 (by norm_num) (by norm_num)
      norm_num at this
      simpa using this
    have e0 : c'.yaw = IEEE.fin (-90) := by
      show (-90 : Float64) + -(IEEE.fin 400 - IEEE.fin 400) * 0.2 = IEEE.fin (-90)
      rw [IEEE.fin_sub_fin, sub_self, IEEE.ofRat_zero, IEEE.neg_fin, neg_zero, IEEE.f64_02,
        IEEE.fin_mul_fin, zero_mul, IEEE.ofRat_zero, IEEE.f64_neg_90, IEEE.fin_add_fin,
        add_zero]
      norm_num [IEEE.f64_ofRat_neg_ofNat]
    obtain ⟨e1, -, b2, -, -⟩ := IEEE.ofRat_mag binary64 (by decide)
      (-90 * (884279719003555 / 281474976710656)) 0 512 IEEE.isFloat_zero k1 (abs_nonneg _)
      (by rw [abs_of_neg (by norm_num)]; norm_num)
    have e180 : (180 : Float64) = IEEE.fin 180 := by
      show IEEE.ofRat _ = _
      norm_num [IEEE.f64_ofRat_ofNat]
    refine ⟨binary64.round (binary64.round (-90 * (884279719003555 / 281474976710656)) / 180),
      ?_⟩
    rw [e0]
    show IEEE.fin (-90) * IEEE.fin (884279719003555 / 281474976710656) / (180 : Float64) = _
    rw [IEEE.fin_mul_fin, e1, e180, IEEE.fin_div_fin _ _ (by norm_num)]
    have hq : |binary64.round (-90 * (884279719003555 / 281474976710656)) / 180| ≤ 512 := by
      rw [abs_div, abs_of_pos (by norm_num : (0 : ℚ) < 180), div_le_iff₀ (by norm_num)]
      linarith
    exact (IEEE.ofRat_mag binary64 (by decide) _ 0 512 IEEE.isFloat_zero k1
      (abs_nonneg _) hq).1
  have hpos : |(0 : ℚ)| ≤ 16384 := by norm_num
  have hpos3 : |(3 : ℚ)| ≤ 16384 := by norm_num
  obtain ⟨⟨w1, w2, w3, w4, w5⟩, ⟨v1, -, v3, -⟩⟩ :=
    C16_front_not_parallel_within_bounds m c (IEEE.fin 400) (IEEE.fin 280) cE 410 (-2000)
      hcos hyaw hsqrt rfl hp hy rfl
  exact ⟨hcos, hyaw, hsqrt, rfl, hp, hy, rfl, w1, w2, w3, w4, w5 0 0 3 hpos hpos hpos3, v1, v3⟩

/-- C17, as stated, fails in `float64`: on the camera `NewCamera` returns, the
samples with `x = 0, 1, 3` leave the yaw `-6290965729483161 / 2^46`
(-89.399999999999991) and the samples with `x = 0, 3`, which have the same first
and last `x`, leave the yaw `-6290965729483162 / 2^46` (-89.400000000000006): the
stored yaw depends on the path. -/
theorem C17_yaw_depends_on_the_path :
    (∀ m : GoMath Float64,
      let s := NewCamera m ⟨fun _ _ => 0, []⟩ 1 "camera" ⟨0, 0, 3⟩ ⟨0, 0, -1⟩ ⟨0, 1, 0⟩
      ∃ s1 s2,
        runCalls m s [Call.ProcessMouseMove (IEEE.fin 0) (IEEE.fin 0),
          Call.ProcessMouseMove (IEEE.fin 1) (IEEE.fin 0),
          Call.ProcessMouseMove (IEEE.fin 3) (IEEE.fin 0)] = some s1 ∧
        runCalls m s [Call.ProcessMouseMove (IEEE.fin 0) (IEEE.fin 0),
          Call.ProcessMouseMove (IEEE.fin 3) (IEEE.fin 0)] = some s2 ∧
        s1.1.yaw = IEEE.fin (-6290965729483161 / 70368744177664) ∧
        s2.1.yaw = IEEE.fin (-6290965729483162 / 70368744177664) ∧
        s1.1.yaw ≠ s2.1.yaw) ∧
    (-6290965729483162 / 70368744177664 : ℚ) < -6290965729483161 / 70368744177664 := by
  have d1 : (IEEE.fin 0 - IEEE.fin 1 : Float64) = IEEE.fin (-1) := by
    rw [IEEE.fin_sub_fin]
    exact IEEE.ofRat_eq _ _ 0 (-(2 ^ 52))
      (by rw [abs_of_neg (by norm_num)]; norm_num) (by rw [abs_of_neg (by norm_num)]; norm_num)
      (by norm_num [binary64]) (by norm_num [binary64]) (by norm_num [binary64])
      (by norm_num [binary64]) (by norm_num [binary64])
      (by rw [abs_of_neg (by norm_num)]; norm_num [Format.maxFinite, binary64])
  have d2 : (IEEE.fin 1 - IEEE.fin 3 : Float64) = IEEE.fin (-2) := by
    rw [IEEE.fin_sub_fin]
    exact IEEE.ofRat_eq _ _ 1 (-(2 ^ 52))
      (by rw [abs_of_neg (by norm_num)]; norm_num) (by rw [abs_of_neg (by norm_num)]; norm_num)
      (by norm_num [binary64]) (by norm_num [binary64]) (by norm_num [binary64])
      (by norm_num [binary64]) (by norm_num [binary64])
      (by rw [abs_of_neg (by norm_num)]; norm_num [Format.maxFinite, binary64])
  have d3 : (IEEE.fin 0 - IEEE.fin 3 : Float64) = IEEE.fin (-3) := by
    rw [IEEE.fin_sub_fin]
    exact IEEE.ofRat_eq _ _ 1 (-(3 * 2 ^ 51))
      (by rw [abs_of_neg (by norm_num)]; norm_num) (by rw [abs_of_neg (by norm_num)]; norm_num)
      (by norm_num [binary64]) (by norm_num [binary64]) (by norm_num [binary64])
      (by norm_num [binary64]) (by norm_num [binary64])
      (by rw [abs_of_neg (by norm_num)]; norm_num [Format.maxFinite, binary64])
  have o1 : (IEEE.fin 1 * 0.2 : Float64) = IEEE.fin (3602879701896397 / 18014398509481984) := by
    rw [IEEE.f64_02, IEEE.fin_mul_fin]
    exact IEEE.ofRat_eq _ _ (-3) 7205759403792794
      (by rw [abs_of_pos (by norm_num)]; norm_num) (by rw [abs_of_pos (by norm_num)]; norm_num)
      (by norm_num [binary64]) (by norm_num [binary64]) (by norm_num [binary64])
      (by norm_num [binary64]) (by norm_num [binary64])
      (by rw [abs_of_pos (by norm_num)]; norm_num [Format.maxFinite, binary64])
  have o2 : (IEEE.fin 2 * 0.2 : Float64) = IEEE.fin (3602879701896397 / 9007199254740992) := by
    rw [IEEE.f64_02, IEEE.fin_mul_fin]
    exact IEEE.ofRat_eq _ _ (-2) 7205759403792794
      (by rw [abs_of_pos (by norm_num)]; norm_num) (by rw [abs_of_pos (by norm_num)]; norm_num)
      (by norm_num [binary64]) (by norm_num [binary64]) (by norm_num [binary64])
      (by norm_num [binary64]) (by norm_num [binary64])
      (by rw [abs_of_pos (by norm_num)]; norm_num [Format.maxFinite, binary64])
  have o3 : (IEEE.fin 3 * 0.2 : Float64) = IEEE.fin (1351079888211149 / 2251799813685248) := by
    rw [IEEE.f64_02, IEEE.fin_mul_fin]
    exact IEEE.ofRat_eq _ _ (-1) 5404319552844596
      (by rw [abs_of_pos (by norm_num)]; norm_num) (by rw [abs_of_pos (by norm_num)]; norm_num)
      (by norm_num [binary64]) (by norm_num [binary64]) (by norm_num [binary64])
      (by norm_num [binary64]) (by norm_num [binary64])
      (by rw [abs_of_pos (by norm_num)]; norm_num [Format.maxFinite, binary64])
  have y1 : (IEEE.fin (-90) + IEEE.fin (3602879701896397 / 18014398509481984) : Float64) =
      IEEE.fin (-6319113227154227 / 70368744177664) := by
    rw [IEEE.fin_add_fin]
    exact IEEE.ofRat_eq _ _ 6 (-6319113227154227)
      (by rw [abs_of_neg (by norm_num)]; norm_num) (by rw [abs_of_neg (by norm_num)]; norm_num)
      (by norm_num [binary64]) (by norm_num [binary64]) (by norm_num [binary64])
      (by norm_num [binary64]) (by norm_num [binary64])
      (by rw [abs_of_neg (by norm_num)]; norm_num [Format.maxFinite, binary64])
  have y2 : (IEEE.fin (-6319113227154227 / 70368744177664) +
      IEEE.fin (3602879701896397 / 9007199254740992) : Float64) =
      IEEE.fin (-6290965729483161 / 70368744177664) := by
    rw [IEEE.fin_add_fin]
    exact IEEE.ofRat_eq _ _ 6 (-6290965729483161)
      (by rw [abs_of_neg (by norm_num)]; norm_num) (by rw [abs_of_neg (by norm_num)]; norm_num)
      (by norm_num [binary64]) (by norm_num [binary64]) (by norm_num [binary64])
      (by norm_num [binary64]) (by norm_num [binary64])
      (by rw [abs_of_neg (by norm_num)]; norm_num [Format.maxFinite, binary64])
  have y3 : (IEEE.fin (-90) + IEEE.fin (1351079888211149 / 2251799813685248) : Float64) =
      IEEE.fin (-6290965729483162 / 70368744177664) := by
    rw [IEEE.fin_add_fin]
    exact IEEE.ofRat_eq _ _ 6 (-6290965729483162)
      (by rw [abs_of_neg (by norm_num)]; norm_num) (by rw [abs_of_neg (by norm_num)]; norm_num)
      (by norm_num [binary64]) (by norm_num [binary64]) (by norm_num [binary64])
      (by norm_num [binary64]) (by norm_num [binary64])
      (by rw [abs_of_neg (by norm_num)]; norm_num [Format.maxFinite, binary64])
  have a1 : ((-90 : Float64) + -(IEEE.fin 0 - IEEE.fin 1) * 0.2) + -(IEEE.fin 1 - IEEE.fin 3) * 0.2 =
      IEEE.fin (-6290965729483161 / 70368744177664) := by
    rw [d1, d2, IEEE.neg_fin, IEEE.neg_fin, neg_neg, neg_neg, o1, o2, IEEE.f64_neg_90, y1, y2]
  have a2 : (-90 : Float64) + -(IEEE.fin 0 - IEEE.fin 3) * 0.2 =
      IEEE.fin (-6290965729483162 / 70368744177664) := by
    rw [d3, IEEE.neg_fin, neg_neg, o3, IEEE.f64_neg_90, y3]
  refine ⟨?_, by norm_num⟩
  intro m s
  refine ⟨_, _, rfl, rfl, a1, a2, ?_⟩
  intro h
  have h' := a1.symm.trans (h.trans a2)
  injection h' with h'
  norm_num at h'

/-- C17, amended: for the camera `NewCamera` returns and every call sequence, with
any `ProcessKeyPress` and `Update` calls between the mouse samples, the sequence
runs to the end and the stored yaw is the `float64` running sum over the mouse
samples: it starts at -90, the first sample is only recorded, and every later
sample adds `0.2 * (x - lastX)`, each operation rounded to `float64`; no call
clamps or wraps it. In exact arithmetic the sum is `-90 + 0.2 * (xn - x0)` for
the first x coordinate `x0` and the last one `xn`. -/
theorem C17_yaw_is_the_running_sum (m : GoMath Float64) (gl : GLState Float32)
    (program : Nat) (name : String) (position front up : Vec3 Float32)
    (calls : List (Call Float32 Float64))
    (mE : GoMath F) (glE : GLState F) (positionE frontE upE : Vec3 F)
    (callsE : List (Call F)) (x0 xn : F)
    (h0 : (mouseXs callsE).head? = some x0) (hn : (mouseXs callsE).getLast? = some xn) :
    (∃ s, runCalls m (NewCamera m gl program name position front up) calls = some s ∧
      s.1.yaw = yawAfter (-90) (mouseXs calls)) ∧
    (∃ s, runCalls mE (NewCamera mE glE program name positionE frontE upE) callsE = some s ∧
      s.1.yaw = -90 + 0.2 * (xn - x0)) := by
  constructor
  · exact yaw_runCalls_float64 m calls (NewCamera m gl program name position front up) rfl
  · obtain ⟨s, hrun, hyaw⟩ := yaw_runCalls_uninitialized mE callsE
      (NewCamera mE glE program name positionE frontE upE)
      (Invariant_NewCamera mE glE program name positionE frontE upE) rfl
    exact ⟨s, hrun, hyaw x0 xn h0 hn⟩

/-- Witness of C17: two key calls and an `Update` between the mouse samples
`(400, 300)`, `(410, 280)` and `(380, 200)`, in `float64` with every math library
and over the reals. -/
theorem C17_yaw_is_the_running_sum_witness :
    let calls : List (Call Float32 Float64) :=
      [Call.ProcessMouseMove (IEEE.fin 400) (IEEE.fin 300), Call.ProcessKeyPress KeyW Press 0,
        Call.ProcessMouseMove (IEEE.fin 410) (IEEE.fin 280), Call.Update (IEEE.fin (1 / 2)),
        Call.ProcessKeyPress KeyW Release 0,
        Call.ProcessMouseMove (IEEE.fin 380) (IEEE.fin 200)]
    let mE : GoMath ℝ := ⟨Real.cos, Real.sin, Real.sqrt, Real.pi⟩
    let callsE : List (Call ℝ) :=
      [Call.ProcessMouseMove 400 300, Call.ProcessKeyPress KeyW Press 0,
        Call.ProcessMouseMove 410 280, Call.Update 0.5, Call.ProcessKeyPress KeyW Release 0,
        Call.ProcessMouseMove 380 200]
    (mouseXs callsE).head? = some 400 ∧ (mouseXs callsE).getLast? = some 380 ∧
      (∀ m : GoMath Float64, ∃ s,
        runCalls m (NewCamera m ⟨fun _ _ => 0, []⟩ 1 "camera" ⟨0, 0, 3⟩ ⟨0, 0, -1⟩ ⟨0, 1, 0⟩)
          calls = some s ∧
        s.1.yaw = (-90 + 0.2 * (IEEE.fin 410 - IEEE.fin 400)) +
          0.2 * (IEEE.fin 380 - IEEE.fin 410)) ∧
      ∃ s, runCalls mE (NewCamera mE ⟨fun _ _ => 0, []⟩ 1 "camera" ⟨0, 0, 3⟩ ⟨0, 0, -1⟩
          ⟨0, 1, 0⟩) callsE = some s ∧
        s.1.yaw = -90 + 0.2 * (380 - 400) := by
  intro calls mE callsE
  exact ⟨rfl, rfl,
    fun m => (C17_yaw_is_the_running_sum m ⟨fun _ _ => 0, []⟩ 1 "camera" ⟨0, 0, 3⟩ ⟨0, 0, -1⟩
      ⟨0, 1, 0⟩ calls mE ⟨fun _ _ => 0, []⟩ ⟨0, 0, 3⟩ ⟨0, 0, -1⟩ ⟨0, 1, 0⟩ callsE 400 380
      rfl rfl).1,
    (C17_yaw_is_the_running_sum ⟨fun x => x, fun x => x, fun x => x, 0⟩ ⟨fun _ _ => 0, []⟩ 1
      "camera" ⟨0, 0, 3⟩ ⟨0, 0, -1⟩ ⟨0, 1, 0⟩ calls mE ⟨fun _ _ => 0, []⟩ ⟨0, 0, 3⟩ ⟨0, 0, -1⟩
      ⟨0, 1, 0⟩ callsE 400 380 rfl rfl).2⟩

end Proofs

end InputCapturing
